import Mathlib

/-!
go-trendboard: domain model, trend computation and update workflow.

A shallow embedding of the parts of `internal/domain`, `internal/usecase`,
`internal/infra/storage`, `internal/infra/github` and `internal/infra/presenter` that the
trend report depends on, followed by the
properties proved about them.

Conventions of the embedding:

* a Go `string` is a Lean `String`, a sequence of Unicode characters, so the byte strings
  that are not valid UTF-8 have no counterpart; `strings.Split(s, "/")` works on its
  characters (the separator is one ASCII byte, so splitting bytes and splitting characters
  agree);
* a Go `int` is `GoInt`, an integer in the 64-bit two's complement range; arithmetic on
  it wraps explicitly;
* a function returning `(*T, error)` where exactly one of the two is non-nil on every
  return path is an `Except`; where the source keeps using the value next to a non-nil
  error (the baseline load in `Generate`) the pair is kept as a pair;
* a slice of `*Repository` is a list of repositories: entries are non-nil pointers, and a
  nil slice and an empty slice are both the empty list;
* a call of `FetchStars` returns either a repository or an error, as `Client.FetchStars`
  does on every return path;
* the standard library `sort.Sort`, the store behind the `Storer` interface, the fetcher
  behind the `Fetcher` interface, the GitHub API call, the file system and the clock are
  parameters; so is the JSON decoder of `FileStorer.Load`, which `json.Decode` describes on
  the texts of the shape the JSON encoder of `FileStorer.Save`, `json.Encode`, writes.
-/

/-! ## Go integers -/

/-- Smallest value of a 64-bit Go `int`. -/
def minInt : Int := -9223372036854775808

/-- Largest value of a 64-bit Go `int`. -/
def maxInt : Int := 9223372036854775807

/-- Two's complement wrap-around of a mathematical integer into the 64-bit range. -/
def wrapInt (n : Int) : Int :=
  (n + 9223372036854775808) % 18446744073709551616 - 9223372036854775808

/-- A Go `int` (64-bit). -/
structure GoInt where
  val : Int
  lo : minInt ≤ val
  hi : val ≤ maxInt
deriving DecidableEq

namespace GoInt

/-- The Go `int` zero value. -/
def zero : GoInt := ⟨0, by decide, by decide⟩

/-- Go `a - b` on `int`: the mathematical difference wrapped to 64 bits. -/
def sub (a b : GoInt) : GoInt :=
  ⟨wrapInt (a.val - b.val), by unfold wrapInt minInt; omega, by unfold wrapInt maxInt; omega⟩

/-- The Go `int` of an integer constant (wrapped, as a conversion would). -/
def ofInt (n : Int) : GoInt :=
  ⟨wrapInt n, by unfold wrapInt minInt; omega, by unfold wrapInt maxInt; omega⟩

/-- Go `a > b` on `int`. -/
def gt (a b : GoInt) : Bool := decide (b.val < a.val)

end GoInt

/-! ## Standard library pieces used by the source -/

deriving instance DecidableEq for Except

/-- A Go `error` value, by its dynamic type: one made by `errors.New` or by `fmt.Errorf`
without `%w`; one made by `fmt.Errorf("<prefix>%w", cause)`, which wraps its cause; a
`*github.RateLimitError` of the go-github library; and the two error types of
`internal/infra/github/errors.go`, `*RateLimitError` and `*FetchError`, each with the
repository name and the cause. -/
inductive GoError where
  | plain (msg : String)
  | wrapped (pre : String) (cause : GoError)
  | githubRateLimit (msg : String)
  | rateLimitError (repoName : String) (cause : GoError)
  | fetchError (repoName : String) (cause : GoError)
deriving DecidableEq

namespace GoError

/-- The `Error()` string of a Go error. -/
def Error : GoError → String
  | plain msg => msg
  | wrapped pre cause => pre ++ cause.Error
  | githubRateLimit msg => msg
  | rateLimitError repoName _ =>
    "rate limit exceeded while fetching repository '" ++ repoName ++ "'"
  | fetchError repoName _ => "failed to fetch repository '" ++ repoName ++ "'"

/-- Go `errors.Unwrap`: the `Unwrap()` of the error, when it has one. -/
def Unwrap : GoError → Option GoError
  | plain _ => none
  | wrapped _ cause => some cause
  | githubRateLimit _ => none
  | rateLimitError _ cause => some cause
  | fetchError _ cause => some cause

/-- The type assertion `err.(*github.RateLimitError)`: it looks at the dynamic type of the
error itself, not at what the error wraps. -/
def isGithubRateLimit : GoError → Bool
  | githubRateLimit _ => true
  | _ => false

end GoError

/-- A Go `time.Time` in UTC, as a day number and a time within the day. -/
structure Time where
  day : Int
  clock : Nat
deriving DecidableEq

/-- Go `t.AddDate(0, 0, days)`: same time of day, `days` calendar days later. -/
def Time.AddDays (t : Time) (days : Int) : Time := { t with day := t.day + days }

namespace strings

/-- Go `strings.Split(s, sep)` for a one-character separator: the pieces of `s` between
consecutive occurrences of `sep`; always `Count(s, sep) + 1` pieces. -/
def Split : List Char → Char → List (List Char)
  | [], _ => [[]]
  | c :: cs, sep =>
    if c = sep then [] :: Split cs sep
    else
      match Split cs sep with
      | [] => [[c]]
      | p :: ps => (c :: p) :: ps

end strings

namespace fmt

/-- Go `fmt` verb `%d` on an `int`: decimal digits, with a leading `-` when negative. -/
def verbD (n : GoInt) : String := toString n.val

end fmt

/-- A Go `map[string]int`. -/
def StringIntMap : Type := String → Option GoInt

namespace StringIntMap

/-- Go `make(map[string]int, n)`: the empty map. -/
def make : StringIntMap := fun _ => none

/-- Go `m[k] = v`: a later assignment to the same key replaces the earlier one. -/
def set (m : StringIntMap) (k : String) (v : GoInt) : StringIntMap :=
  fun q => if q = k then some v else m q

/-- Go `m[k]` read in an expression: the zero value when the key is absent. -/
def index (m : StringIntMap) (k : String) : GoInt :=
  match m k with
  | some v => v
  | none => GoInt.zero

end StringIntMap

namespace sort

/-- The shape of `sort.Sort` as `SortTrends` uses it: given the `Less` of the
`sort.Interface` (on elements) and the slice, the slice after the in-place sort. -/
abbrev Sorter (α : Type) : Type := (α → α → Bool) → List α → List α

/-- Go asks of `Less` a strict weak ordering: irreflexive, transitive, and with
"neither is less" transitive as well. -/
structure IsStrictWeakOrder {α : Type} (less : α → α → Bool) : Prop where
  irrefl : ∀ a, less a a = false
  trans : ∀ a b c, less a b = true → less b c = true → less a c = true
  negTrans : ∀ a b c, less a b = false → less b c = false → less a c = false

/-- The documented contract of `sort.Sort`: it only swaps elements, so the result is a
rearrangement of the input, and afterwards the data is in ascending order as determined by
`Less` (no later element is less than an earlier one). The documentation adds that the
sort is not guaranteed to be stable, so nothing is promised about elements that `Less`
does not order. -/
structure Contract {α : Type} (sortSort : Sorter α) : Prop where
  perm : ∀ less xs, (sortSort less xs).Perm xs
  sorted : ∀ less, IsStrictWeakOrder less → ∀ xs,
    (sortSort less xs).Pairwise (fun a b => less b a = false)

/-- The inner loop of an insertion sort, `for j := i; j > a && Less(j, j-1); j--` with a
swap of `j` and `j-1`: the new element moves left past every element it is less than. The
already sorted part is given nearest element first. -/
def insertLeft {α : Type} (less : α → α → Bool) (x : α) : List α → List α
  | [] => [x]
  | y :: rest => if less x y then y :: insertLeft less x rest else x :: y :: rest

/-- The outer loop of an insertion sort: `acc` is the sorted part, nearest element first. -/
def insertionSortFrom {α : Type} (less : α → α → Bool) : List α → List α → List α
  | acc, [] => acc.reverse
  | acc, x :: xs => insertionSortFrom less (insertLeft less x acc) xs

/-- Insertion sort: one routine that meets the contract of `sort.Sort`, and a stable
one. -/
def insertionSort {α : Type} : Sorter α := fun less xs => insertionSortFrom less [] xs

/-- Another routine that meets the contract of `sort.Sort`: it reverses the slice before
insertion-sorting it, so elements that `Less` does not order come out in the opposite
order. -/
def reversingSort {α : Type} : Sorter α := fun less xs => insertionSort less xs.reverse

end sort

/-! ## internal/domain/repository.go -/

namespace domain

/-- A tracked GitHub repository (`domain.Repository`). -/
structure Repository where
  FullName : String
  Stars : GoInt
deriving DecidableEq

/-- The name test of `NewRepository`:
`len(parts) != 2 || parts[0] == "" || parts[1] == ""` over `strings.Split(fullName, "/")`. -/
def nameRejected (fullName : String) : Bool :=
  let parts := strings.Split fullName.data '/'
  parts.length != 2 || parts.getD 0 [] == [] || parts.getD 1 [] == []

/-- Embedding of `NewRepository`: validates the name first, then the star count. -/
def NewRepository (fullName : String) (stars : GoInt) : Except GoError Repository :=
  if nameRejected fullName then
    .error (.plain ("invalid repository full name format: " ++ fullName))
  else if stars.val < 0 then
    .error (.plain ("stars count cannot be negative: " ++ fmt.verbD stars))
  else
    .ok { FullName := fullName, Stars := stars }

/-! ## internal/domain/trend.go -/

/-- Go `type TrendPeriod string`. -/
abbrev TrendPeriod : Type := String

/-- Constant `TrendDaily`. -/
def TrendDaily : TrendPeriod := "Daily"

/-- Constant `TrendWeekly`. -/
def TrendWeekly : TrendPeriod := "Weekly"

/-- Constant `TrendMonthly`. -/
def TrendMonthly : TrendPeriod := "Monthly"

/-- The star count trend of a repository over a period (`domain.Trend`). -/
structure Trend where
  Repository : Repository
  Diff : GoInt
  Period : TrendPeriod
deriving DecidableEq

/-- Embedding of `NewTrend`. -/
def NewTrend (repo : Repository) (diff : GoInt) (period : TrendPeriod) : Trend :=
  { Repository := repo, Diff := diff, Period := period }

/-- Embedding of `ByStarsDiff.Less`: `a[i].Diff > a[j].Diff`, on the two elements. -/
def ByStarsDiff.Less (a b : Trend) : Bool := GoInt.gt a.Diff b.Diff

/-- Embedding of `SortTrends`: `sort.Sort(ByStarsDiff(trends))`; the slice is sorted in
place, so the model returns the slice as it is afterwards. -/
def SortTrends (sortSort : sort.Sorter Trend) (trends : List Trend) : List Trend :=
  sortSort ByStarsDiff.Less trends

end domain

/-! ## internal/infra/storage -/

namespace storage

open domain

/-- Sentinel `ErrDataNotFound`. -/
def ErrDataNotFound : GoError := .plain "trend data not found for the specified date"

/-- Sentinel `ErrReposConfigNotFound`. -/
def ErrReposConfigNotFound : GoError := .plain "repositories config file not found"

/-- The `Storer` interface. `Load` and `LoadTargetRepos` return a Go pair (value, error);
`Save` and `SaveTargetRepos` return an error or nil. -/
structure Storer where
  Save : Time → List Repository → Option GoError
  Load : Time → List Repository × Option GoError
  LoadTargetRepos : List String × Option GoError
  SaveTargetRepos : List String → Option GoError

/-- What `os.Open(path)` can answer. -/
inductive OpenResult where
  | notExist (err : GoError)
  | failed (err : GoError)
  | opened (content : String)
deriving DecidableEq

/-- What `FileStorer.Load` reads from its surroundings: the path of the data file of a
date (`getDailyDataPath`), the answer of `os.Open`, and the JSON decoder. The decoder
fills a `[]*domain.Repository`, and a list here holds the repositories the pointers of the
slice point to: a slice with a nil pointer in it, which the decoder yields for a `null`
element, is not among the answers of `decodeRepos`, and what the code does with such a
file is not described here. -/
structure FileSystem where
  getDailyDataPath : Time → String
  openFile : String → OpenResult
  decodeRepos : String → Except GoError (List Repository)

/-- Embedding of `FileStorer.Load`: a missing file gives `(nil, ErrDataNotFound)`, another
open failure or a decode failure gives `(nil, wrapped error)`, otherwise the decoded
list. -/
def FileStorer.Load (fs : FileSystem) (date : Time) : List Repository × Option GoError :=
  let path := fs.getDailyDataPath date
  match fs.openFile path with
  | .notExist _ => ([], some ErrDataNotFound)
  | .failed err => ([], some (.wrapped ("could not open data file '" ++ path ++ "': ") err))
  | .opened content =>
    match fs.decodeRepos content with
    | .error err =>
      ([], some (.wrapped ("could not decode JSON data from '" ++ path ++ "': ") err))
    | .ok repos => (repos, none)

end storage

/-! ## encoding/json, as `FileStorer` uses it

`FileStorer.Save` writes a snapshot with `json.NewEncoder(file)`, indented by two spaces,
and `FileStorer.Load` reads it with `json.NewDecoder(file).Decode(&repos)`. The texts are
lists of characters; a repository is written as an object with the members `FullName` and
`Stars`, in the order of the fields of the struct. -/

namespace json

open domain

/-- What the encoder writes for one character of a string: the two-character escapes of
the quote, the backslash, backspace, form feed, newline, carriage return and tab (the
short forms of backspace and form feed are those of Go 1.22 and later), `\u00XX` for the
other characters below the space and for `<`, `>` and `&` (the encoder escapes HTML unless
told otherwise), `\u2028` and `\u2029` for the two line separators, and every other
character as it is. -/
def escape (c : Char) : List Char :=
  if c = '"' then ['\\', '"']
  else if c = '\\' then ['\\', '\\']
  else if c = '\x08' then ['\\', 'b']
  else if c = '\x0c' then ['\\', 'f']
  else if c = '\n' then ['\\', 'n']
  else if c = '\r' then ['\\', 'r']
  else if c = '\t' then ['\\', 't']
  else if c.toNat < 32 ∨ c = '<' ∨ c = '>' ∨ c = '&' then
    ['\\', 'u', '0', '0', Nat.digitChar (c.toNat / 16), Nat.digitChar (c.toNat % 16)]
  else if c = '\u2028' then ['\\', 'u', '2', '0', '2', '8']
  else if c = '\u2029' then ['\\', 'u', '2', '0', '2', '9']
  else [c]

/-- A string as the encoder writes it: its characters escaped, between quotes. -/
def quote (s : List Char) : List Char :=
  '"' :: (s.flatMap escape ++ ['"'])

/-- An `int` as the encoder writes it: in decimal, with a minus sign when negative. -/
def encodeInt (n : GoInt) : List Char := (toString n.val).data

/-- One repository as the indenting encoder writes it inside the list. -/
def encodeRepo (r : Repository) : List Char :=
  [' ', ' ', '\x7b', '\n', ' ', ' ', ' ', ' ',
    '"', 'F', 'u', 'l', 'l', 'N', 'a', 'm', 'e', '"', ':', ' '] ++
  (quote r.FullName.data ++
  ([',', '\n', ' ', ' ', ' ', ' ', '"', 'S', 't', 'a', 'r', 's', '"', ':', ' '] ++
  (encodeInt r.Stars ++ ['\n', ' ', ' ', '\x7d'])))

/-- The repositories after the first, each after a comma, and the closing bracket. -/
def encodeMore : List Repository → List Char
  | [] => ['\n', ']']
  | r :: rest => [',', '\n'] ++ (encodeRepo r ++ encodeMore rest)

/-- A list of repositories as the indenting encoder writes it. The empty list is the empty
slice, written `[]`. -/
def encodeRepos : List Repository → List Char
  | [] => ['[', ']']
  | r :: rest => ['[', '\n'] ++ (encodeRepo r ++ encodeMore rest)

/-- The text `encoder.Encode(repos)` writes: the list, then a newline. -/
def Encode (repos : List Repository) : String := String.mk (encodeRepos repos ++ ['\n'])

/-- The value of a hexadecimal digit. -/
def hexVal (c : Char) : Option Nat :=
  if 48 ≤ c.toNat ∧ c.toNat ≤ 57 then some (c.toNat - 48)
  else if 97 ≤ c.toNat ∧ c.toNat ≤ 102 then some (c.toNat - 87)
  else if 65 ≤ c.toNat ∧ c.toNat ≤ 70 then some (c.toNat - 55)
  else none

/-- The character a two-character escape stands for. -/
def unescape (e : Char) : Option Char :=
  if e = '"' then some '"'
  else if e = '\\' then some '\\'
  else if e = '/' then some '/'
  else if e = 'b' then some '\x08'
  else if e = 'f' then some '\x0c'
  else if e = 'n' then some '\n'
  else if e = 'r' then some '\r'
  else if e = 't' then some '\t'
  else none

/-- The character `\uXXXX` stands for, for four hexadecimal digits outside the surrogate
range. -/
def hex4 (a b c d : Char) : Option Char :=
  match hexVal a, hexVal b, hexVal c, hexVal d with
  | some a, some b, some c, some d =>
    let n := ((a * 16 + b) * 16 + c) * 16 + d
    if 55296 ≤ n ∧ n ≤ 57343 then none else some (Char.ofNat n)
  | _, _, _, _ => none

/-- Reads a string after its opening quote: the characters up to the closing quote, with
the escapes undone, and the text after the closing quote. A character below the space may
not stand unescaped in a string. -/
def unquote : List Char → Option (List Char × List Char)
  | [] => none
  | c :: rest =>
    if c = '"' then some ([], rest)
    else if c = '\\' then
      match rest with
      | [] => none
      | e :: rest1 =>
        if e = 'u' then
          match rest1 with
          | a :: b :: c2 :: d :: rest2 =>
            match hex4 a b c2 d with
            | some x => (unquote rest2).map (fun p => (x :: p.1, p.2))
            | none => none
          | _ => none
        else
          match unescape e with
          | some x => (unquote rest1).map (fun p => (x :: p.1, p.2))
          | none => none
    else if c.toNat < 32 then none
    else (unquote rest).map (fun p => (c :: p.1, p.2))

/-- The value of a decimal digit. -/
def digitVal (c : Char) : Option Nat :=
  if 48 ≤ c.toNat ∧ c.toNat ≤ 57 then some (c.toNat - 48) else none

/-- Reads the digits ahead, continuing the number `acc`. -/
def parseDigits : List Char → Nat → Nat × List Char
  | [], acc => (acc, [])
  | c :: rest, acc =>
    match digitVal c with
    | some d => parseDigits rest (acc * 10 + d)
    | none => (acc, c :: rest)

/-- Reads a number without sign: one or more digits, with no zero before another digit. -/
def parseNat : List Char → Option (Nat × List Char)
  | [] => none
  | c :: rest =>
    match digitVal c with
    | none => none
    | some d =>
      if d = 0 then
        match rest with
        | [] => some (0, [])
        | c2 :: rest2 => if (digitVal c2).isSome then none else some (0, c2 :: rest2)
      else some (parseDigits rest d)

/-- The number `v` as an `int`, when it fits. -/
def inRange (v : Int) (rest : List Char) : Option (GoInt × List Char) :=
  if h : minInt ≤ v ∧ v ≤ maxInt then some (⟨v, h.1, h.2⟩, rest) else none

/-- Reads an `int`: an optional minus sign and a number that fits. -/
def parseInt : List Char → Option (GoInt × List Char)
  | [] => none
  | c :: rest =>
    if c = '-' then (parseNat rest).bind (fun p => inRange (-(p.1 : Int)) p.2)
    else (parseNat (c :: rest)).bind (fun p => inRange (p.1 : Int) p.2)

/-- Drops the white space ahead: spaces, newlines, tabs and carriage returns. -/
def skipSpace : List Char → List Char
  | [] => []
  | c :: rest =>
    if c = ' ' ∨ c = '\n' ∨ c = '\t' ∨ c = '\r' then skipSpace rest else c :: rest

/-- Reads the character `c` after white space. -/
def expect (c : Char) (s : List Char) : Option (List Char) :=
  match skipSpace s with
  | [] => none
  | d :: rest => if d = c then some rest else none

/-- Reads a string after white space. -/
def parseString (s : List Char) : Option (List Char × List Char) :=
  (expect '"' s).bind unquote

/-- Reads the name `key` of a member and the colon after it. -/
def parseMember (key : List Char) (s : List Char) : Option (List Char) :=
  (parseString s).bind (fun p => if p.1 = key then expect ':' p.2 else none)

/-- Reads one repository: an object with the member `FullName`, a string, and then the
member `Stars`, an `int`. -/
def parseRepo (s : List Char) : Option (Repository × List Char) :=
  (expect '\x7b' s).bind fun s1 =>
  (parseMember ['F', 'u', 'l', 'l', 'N', 'a', 'm', 'e'] s1).bind fun s2 =>
  (parseString s2).bind fun name =>
  (expect ',' name.2).bind fun s3 =>
  (parseMember ['S', 't', 'a', 'r', 's'] s3).bind fun s4 =>
  (parseInt (skipSpace s4)).bind fun stars =>
  (expect '\x7d' stars.2).bind fun s5 =>
  some ({ FullName := String.mk name.1, Stars := stars.1 }, s5)

/-- Reads the rest of a list after a repository: the closing bracket, or a comma and one
more repository and the rest of the list. `fuel` bounds the number of repositories. -/
def parseMore : Nat → List Char → Option (List Repository × List Char)
  | 0, _ => none
  | fuel + 1, s =>
    match skipSpace s with
    | [] => none
    | c :: rest =>
      if c = ']' then some ([], rest)
      else if c = ',' then
        (parseRepo rest).bind fun r =>
        (parseMore fuel r.2).map fun p => (r.1 :: p.1, p.2)
      else none

/-- Reads a text that holds one list of repositories and white space around it. -/
def parseRepos (s : List Char) : Option (List Repository) :=
  (expect '[' s).bind fun s1 =>
  match expect ']' s1 with
  | some rest => if skipSpace rest = [] then some [] else none
  | none =>
    (parseRepo s1).bind fun r =>
    (parseMore s.length r.2).bind fun p =>
    if skipSpace p.2 = [] then some (r.1 :: p.1) else none

/-- What `Decode(&repos)` yields for the content of a file. A text that `parseRepos` reads
is a JSON list of objects with exactly the members `FullName` and `Stars`, and is decoded
as the list read. For every other text (members in another order, missing or more members,
a `null` element, which decodes to a nil pointer, fractions, text that is no JSON at all)
the answer of the decoder is the parameter `others`. -/
def Decode (others : String → Except GoError (List Repository)) (content : String) :
    Except GoError (List Repository) :=
  match parseRepos content.data with
  | some repos => .ok repos
  | none => others content

/-- The digits `l` are the decimal numeral of `n`: digits only, of value `n`, with no
leading zero. -/
def IsNumeral (l : List Char) (n : Nat) : Prop :=
  (∀ c ∈ l, 48 ≤ c.toNat ∧ c.toNat ≤ 57) ∧
  l.foldl (fun a c => a * 10 + (c.toNat - 48)) 0 = n ∧
  ∃ c rest, l = c :: rest ∧ (n = 0 → rest = []) ∧ (n ≠ 0 → c.toNat ≠ 48)

/-- No digit comes first in `t`. -/
def NoDigitAhead (t : List Char) : Prop :=
  ∀ c rest, t = c :: rest → digitVal c = none

end json

/-! ## internal/infra/github/client.go -/

namespace github

open domain

/-- What one call of `Client.FetchStars` did and returned: the calls it made to
`c.client.Repositories.Get`, each with its owner and repository name, and its result. -/
structure FetchStarsOutcome where
  apiCalls : List (String × String)
  result : Except GoError Repository
deriving DecidableEq

/-- Embedding of `Client.FetchStars`. `get` is `c.client.Repositories.Get`: for an owner and
a repository name, the star count of the answer (`ghRepo.GetStargazersCount()`) or the
error of the call. -/
def Client.FetchStars (get : String → String → Except GoError GoInt) (repoName : String) :
    FetchStarsOutcome :=
  let parts := strings.Split repoName.data '/'
  if parts.length != 2 || parts.getD 0 [] == [] || parts.getD 1 [] == [] then
    { apiCalls := [], result := NewRepository repoName GoInt.zero }
  else
    let owner := String.mk (parts.getD 0 [])
    let repo := String.mk (parts.getD 1 [])
    match get owner repo with
    | .error err =>
      if err.isGithubRateLimit then
        { apiCalls := [(owner, repo)], result := .error (.rateLimitError repoName err) }
      else
        { apiCalls := [(owner, repo)], result := .error (.fetchError repoName err) }
    | .ok stars => { apiCalls := [(owner, repo)], result := NewRepository repoName stars }

end github

/-! ## internal/usecase/usecase.go: Generate -/

namespace usecase

open domain storage

/-- First loop of the trend computation in `Generate`:
`for _, repo := range pastData { pastDataMap[repo.FullName] = repo.Stars }`. -/
def pastDataMap (pastData : List Repository) : StringIntMap :=
  pastData.foldl (fun m repo => m.set repo.FullName repo.Stars) StringIntMap.make

/-- Second loop of the trend computation in `Generate`: one trend appended per entry of
`todayData`, with `diff := repo.Stars - pastDataMap[repo.FullName]`. -/
def buildTrends (todayData : List Repository) (m : StringIntMap) (period : TrendPeriod) :
    List Trend :=
  todayData.foldl
    (fun trends repo =>
      let pastStars := m.index repo.FullName
      let diff := GoInt.sub repo.Stars pastStars
      trends ++ [NewTrend repo diff period])
    []

/-- The trend computation of `Generate` up to and including `domain.SortTrends(trends)`. -/
def rankedTrends (sortSort : sort.Sorter Trend) (todayData pastData : List Repository)
    (period : TrendPeriod) : List Trend :=
  SortTrends sortSort (buildTrends todayData (pastDataMap pastData) period)

/-- A presenter: what `Render(file, trends)` writes and the error it returns. -/
structure Presenter where
  Render : List Trend → String × Option GoError

/-- The surroundings of one run of `Generate`. -/
structure GenerateEnv where
  now : Time
  storer : Storer
  createFile : Option GoError
  newPresenter : Except GoError Presenter

/-- The calls `Generate` makes to its collaborators, in order. -/
inductive GenerateEvent where
  | load (date : Time)
  | sortTrends (ranked : List Trend)
  | createFile
  | newPresenter
  | render (trends : List Trend) (written : String)
deriving DecidableEq

/-- What a run of `Generate` did and returned. -/
structure GenerateOutcome where
  events : List GenerateEvent
  err : Option GoError
deriving DecidableEq

/-- Embedding of `Usecase.Generate`. -/
def Generate (sortSort : sort.Sorter Trend) (env : GenerateEnv) : GenerateOutcome :=
  let period := TrendWeekly
  let today := env.now
  let pastDate := today.AddDays (-7)
  match env.storer.Load today with
  | (_, some err) =>
    { events := [.load today], err := some (.wrapped "failed to load today's data: " err) }
  | (todayData, none) =>
    -- a failed load of the past data is only logged
    let pastData := (env.storer.Load pastDate).1
    let trends := rankedTrends sortSort todayData pastData period
    let soFar : List GenerateEvent := [.load today, .load pastDate, .sortTrends trends]
    match env.createFile with
    | some err =>
      { events := soFar ++ [.createFile],
        err := some (.wrapped "failed to create dashboard file: " err) }
    | none =>
      match env.newPresenter with
      | .error err => { events := soFar ++ [.createFile, .newPresenter], err := some err }
      | .ok p =>
        match p.Render trends with
        | (written, some err) =>
          { events := soFar ++ [.createFile, .newPresenter, .render trends written],
            err := some (.wrapped "failed to render dashboard: " err) }
        | (written, none) =>
          { events := soFar ++ [.createFile, .newPresenter, .render trends written],
            err := none }

/-! ## internal/usecase/usecase.go: Update -/

/-- The limit given to `g.SetLimit`. -/
def fetchLimit : Nat := 8

/-- The state of the fan-out of `Update` between `errgroup.WithContext` and the return of
`g.Wait()`. Targets are named by their position in the target list. -/
structure UpdateState where
  /-- Position of the next target the `for` loop hands to `g.Go`. -/
  next : Nat
  /-- Goroutines inside `FetchStars`. -/
  fetching : List Nat
  /-- Goroutines whose `FetchStars` has returned and that have not yet finished. -/
  returned : List Nat
  /-- Goroutines that have finished, in the order they finished. -/
  exited : List Nat
  /-- Contents of the channel `results`, in send order. -/
  results : List Repository
  /-- Targets for which the failure warning was logged. -/
  warned : List Nat
deriving DecidableEq

/-- One move of the scheduler. -/
inductive UpdateStep where
  /-- The loop calls `g.Go`, which starts the goroutine of the next target. -/
  | spawn
  /-- The call `FetchStars` of target `i` returns. -/
  | fetchReturn (i : Nat)
  /-- The goroutine of target `i` logs or sends its result, and returns. -/
  | finish (i : Nat)
deriving DecidableEq

/-- The state right after `results := make(chan *domain.Repository, len(targetRepos))`. -/
def UpdateState.init : UpdateState :=
  { next := 0, fetching := [], returned := [], exited := [], results := [], warned := [] }

/-- The goroutines that hold a slot of the group. -/
def UpdateState.active (s : UpdateState) : Nat := s.fetching.length + s.returned.length

/-- One scheduler move; `none` when the move is not possible in this state. `g.Go` blocks
while `fetchLimit` goroutines are active. The channel has room for every target, so a send
never blocks. -/
def UpdateState.step (targetRepos : List String)
    (FetchStars : Nat → String → Except GoError Repository) (s : UpdateState) :
    UpdateStep → Option UpdateState
  | .spawn =>
    if s.next < targetRepos.length ∧ s.active < fetchLimit then
      some { s with next := s.next + 1, fetching := s.fetching ++ [s.next] }
    else none
  | .fetchReturn i =>
    if i ∈ s.fetching then
      some { s with fetching := s.fetching.erase i, returned := s.returned ++ [i] }
    else none
  | .finish i =>
    if i ∈ s.returned then
      match FetchStars i (targetRepos.getD i "") with
      | .error _ =>
        some { s with returned := s.returned.erase i, exited := s.exited ++ [i],
                      warned := s.warned ++ [i] }
      | .ok repo =>
        some { s with returned := s.returned.erase i, exited := s.exited ++ [i],
                      results := s.results ++ [repo] }
    else none

/-- A sequence of scheduler moves from a state. -/
def UpdateState.run (targetRepos : List String)
    (FetchStars : Nat → String → Except GoError Repository) :
    UpdateState → List UpdateStep → Option UpdateState
  | s, [] => some s
  | s, st :: rest =>
    match s.step targetRepos FetchStars st with
    | none => none
    | some s2 => UpdateState.run targetRepos FetchStars s2 rest

/-- The state in which `g.Wait()` returns: the loop is over and every goroutine has
finished. -/
def UpdateState.finished (targetRepos : List String) (s : UpdateState) : Bool :=
  s.next == targetRepos.length && s.fetching.isEmpty && s.returned.isEmpty

/-- The surroundings of one run of `Update`: the clock, the store, and the result of the
call of `FetchStars` made for the target at each position. -/
structure UpdateEnv where
  now : Time
  storer : Storer
  FetchStars : Nat → String → Except GoError Repository

/-- What a run of `Update` did and returned. -/
structure UpdateOutcome where
  /-- The calls of `Save`, in order. -/
  saveCalls : List (Time × List Repository)
  /-- The targets whose fetch failure was logged. -/
  warned : List Nat
  err : Option GoError
deriving DecidableEq

/-- Embedding of `Usecase.Update` under a schedule of the fan-out. The result is `none`
when the schedule is not one of this run (a move is impossible, or `g.Wait()` could not
have returned at its end). -/
def Update (env : UpdateEnv) (schedule : List UpdateStep) : Option UpdateOutcome :=
  match env.storer.LoadTargetRepos with
  | (_, some err) =>
    some { saveCalls := [], warned := [],
           err := some (.wrapped "failed to load target repositories: " err) }
  | (targetRepos, none) =>
    match UpdateState.run targetRepos env.FetchStars UpdateState.init schedule with
    | none => none
    | some s =>
      if s.finished targetRepos then
        let updatedRepos := s.results
        if updatedRepos.length == 0 then
          some { saveCalls := [], warned := s.warned, err := none }
        else
          let today := env.now
          match env.storer.Save today updatedRepos with
          | some err =>
            some { saveCalls := [(today, updatedRepos)], warned := s.warned,
                   err := some (.wrapped "failed to save updated data: " err) }
          | none => some { saveCalls := [(today, updatedRepos)], warned := s.warned, err := none }
      else none

/-- The schedule that runs the targets one after the other. -/
def sequentialSchedule : Nat → Nat → List UpdateStep
  | _, 0 => []
  | i, n + 1 => .spawn :: .fetchReturn i :: .finish i :: sequentialSchedule (i + 1) n

end usecase

/-! ## internal/domain/trend.go: the rest of `ByStarsDiff` -/

namespace domain

/-- Embedding of `ByStarsDiff.Len`. -/
def ByStarsDiff.Len (a : List Trend) : Nat := a.length

/-- Embedding of `ByStarsDiff.Swap`: `a[i], a[j] = a[j], a[i]`; `none` stands for the
panic of an index out of range. -/
def ByStarsDiff.Swap (a : List Trend) (i j : Nat) : Option (List Trend) :=
  match a[i]?, a[j]? with
  | some x, some y => some ((a.set i y).set j x)
  | _, _ => none

/-- A sequence of calls of `Swap`, as `sort.Sort` makes them on the slice. -/
def ByStarsDiff.swaps : List Trend → List (Nat × Nat) → Option (List Trend)
  | a, [] => some a
  | a, (i, j) :: rest =>
    match ByStarsDiff.Swap a i j with
    | none => none
    | some b => ByStarsDiff.swaps b rest

end domain

/-! ## internal/infra/storage/file_storer.go: Save -/

namespace storage

open domain

/-- The files of the data directory: the content of every path that exists. -/
abbrev Files : Type := String → Option String

/-- What `FileStorer.Save` reads from its surroundings: `cfg.DataDirPath`, the path of the
data file of a date (`getDailyDataPath`), the error of `os.MkdirAll`, the error of
`os.Create` for a path, and the error of `encoder.Encode` writing a text to the file
created at a path. -/
structure SaveEnv where
  DataDirPath : String
  getDailyDataPath : Time → String
  mkdirAll : Option GoError
  create : String → Option GoError
  write : String → String → Option GoError

/-- Embedding of `FileStorer.Save`: the files afterwards and the error returned.
`os.Create` truncates the file, the indenting encoder then writes the whole list. -/
def FileStorer.Save (env : SaveEnv) (files : Files) (date : Time) (repos : List Repository) :
    Files × Option GoError :=
  let path := env.getDailyDataPath date
  match env.mkdirAll with
  | some err =>
    (files,
      some (.wrapped ("could not create data directory '" ++ env.DataDirPath ++ "': ") err))
  | none =>
    match env.create path with
    | some err => (files, some (.wrapped ("could not create data file '" ++ path ++ "': ") err))
    | none =>
      match env.write path (json.Encode repos) with
      | some err =>
        (fun p => if p = path then some "" else files p,
          some (.wrapped ("could not encode data to '" ++ path ++ "': ") err))
      | none => (fun p => if p = path then some (json.Encode repos) else files p, none)

/-- The surroundings of `FileStorer.Load` over given files: `os.Open` finds a path exactly
when the file exists. -/
def fileSystemOf (getDailyDataPath : Time → String)
    (decodeRepos : String → Except GoError (List Repository)) (files : Files) : FileSystem :=
  { getDailyDataPath := getDailyDataPath,
    openFile := fun path =>
      match files path with
      | some content => .opened content
      | none => .notExist (.plain ("open " ++ path ++ ": no such file or directory")),
    decodeRepos := decodeRepos }

end storage

/-! ## internal/infra/presenter/markdown_presenter.go -/

namespace presenter

open domain

/-- The local type `TemplateTrend` of `Render`. `Rank` is `i + 1` for a slice index `i`,
which cannot overflow, so it is kept as a natural number. -/
structure TemplateTrend where
  Rank : Nat
  RepoName : String
  Stars : GoInt
  Diff : GoInt
deriving DecidableEq

/-- The `switch period` of `Render`, started from `trendIcon := "7d"`. -/
def trendIcon (period : TrendPeriod) : String :=
  if period = TrendDaily then "24h"
  else if period = TrendWeekly then "7d"
  else if period = TrendMonthly then "30d"
  else "7d"

/-- The loop `for i, t := range trends` of `Render` that fills `templateData.Trends`; the
state is the rows filled so far and the index `i`. -/
def templateTrends (trends : List Trend) : List TemplateTrend :=
  (trends.foldl
    (fun (st : List TemplateTrend × Nat) t =>
      (st.1 ++ [{ Rank := st.2 + 1, RepoName := t.Repository.FullName,
                  Stars := t.Repository.Stars, Diff := t.Diff }], st.2 + 1))
    ([], 0)).1

/-- What the `range .Trends` part of `markdownTemplate` writes for one row. The action
`{{- range}}` and `{{- end}}` trim the line break before them, so each row starts with a
line break and none follows the last row. -/
def rowText (r : TemplateTrend) : String :=
  "\n| " ++ toString r.Rank ++ " | [" ++ r.RepoName ++ "](https://github.com/" ++ r.RepoName
    ++ ") | " ++ fmt.verbD r.Stars ++ " | " ++ fmt.verbD r.Diff ++ " ★ |"

/-- What `markdownTemplate`, trimmed by `strings.TrimSpace`, writes before the rows. -/
def headerText (period icon : String) : String :=
  "# Go OSS Trending (" ++ period ++ ")\n\n| Rank | Repository | Stars | Trend (" ++ icon
    ++ ") |\n|:----:|:-----------|:------|:-----------|"

/-- Execution of the parsed `markdownTemplate` on `templateData`: the header, then the
rows one after the other. -/
def executeTemplate (period icon : String) (rows : List TemplateTrend) : String :=
  rows.foldl (fun out r => out ++ rowText r) (headerText period icon)

/-- Embedding of `MarkdownPresenter.Render`: the text handed to the writer and the error
returned. `writer` gives the error of the writer for a text, `none` when it takes it all. -/
def MarkdownPresenter.Render (writer : String → Option GoError) (trends : List Trend) :
    String × Option GoError :=
  match trends with
  | [] =>
    let text := "# Go OSS Trending\n\nNo trending data available.\n"
    (text, writer text)
  | first :: _ =>
    let period := first.Period
    let text := executeTemplate period (trendIcon period) (templateTrends trends)
    match writer text with
    | some err => (text, some (.wrapped "failed to render markdown: " err))
    | none => (text, none)

end presenter

/-! ## internal/usecase/usecase.go: Initialize -/

namespace usecase

open storage

/-- The list `defaultRepos` of `Initialize`. -/
def defaultRepos : List String :=
  ["gin-gonic/gin", "go-chi/chi", "gorm/gorm", "spf13/cobra", "stretchr/testify",
   "uber-go/zap", "golang/mock", "google/go-github"]

/-- The surroundings of one run of `Initialize`: the error of `os.Stat(cfg.ReposFilePath)`,
`none` when the file is there, and the store. -/
structure InitializeEnv where
  stat : Option GoError
  storer : Storer

/-- What a run of `Initialize` did and returned. -/
structure InitializeOutcome where
  /-- The calls of `SaveTargetRepos`, in order. -/
  saveTargetReposCalls : List (List String)
  err : Option GoError
deriving DecidableEq

/-- Embedding of `Usecase.Initialize`. -/
def Initialize (env : InitializeEnv) : InitializeOutcome :=
  match env.stat with
  | none => { saveTargetReposCalls := [], err := none }
  | some _ =>
    match env.storer.SaveTargetRepos defaultRepos with
    | some err =>
      { saveTargetReposCalls := [defaultRepos],
        err := some (.wrapped "failed to initialize repositories config: " err) }
    | none => { saveTargetReposCalls := [defaultRepos], err := none }

end usecase

/-! ## The words of the specification -/

/-- The shape `owner/name` in the words of the specification: a non-empty owner and a
non-empty name, neither containing a slash, joined by exactly one slash. -/
def IsOwnerSlashName (fullName : String) : Prop :=
  ∃ owner name : List Char, owner ≠ [] ∧ name ≠ [] ∧ '/' ∉ owner ∧ '/' ∉ name ∧
    fullName.data = owner ++ '/' :: name

/-- The invariant of a repository in the words of the specification: `FullName` is
`owner/name` with both parts non-empty, and `Stars >= 0`. -/
def RepositoryInvariant (r : domain.Repository) : Prop :=
  IsOwnerSlashName r.FullName ∧ 0 ≤ r.Stars.val

/-- The baseline lookup in the words of the specification, `baseline.get(identity,
default=0)` with the last entry winning among duplicates: the star count of the last entry
of `baseline` named `identity`, and 0 when there is none. -/
def baselineGet (baseline : List domain.Repository) (identity : String) : GoInt :=
  match baseline.reverse.find? (fun r => r.FullName == identity) with
  | some r => r.Stars
  | none => GoInt.zero

/-- The repository the `FetchStars` call made for the target at position `i` returned, if
it returned one. -/
def fetchedAt (FetchStars : Nat → String → Except GoError domain.Repository)
    (targetRepos : List String) (i : Nat) : Option domain.Repository :=
  match FetchStars i (targetRepos.getD i "") with
  | .ok repo => some repo
  | .error _ => none

/-- The successful fetches of a run of `Update`, in target order: one per position of the
target list whose `FetchStars` call returned a repository. -/
def successfulFetches (FetchStars : Nat → String → Except GoError domain.Repository)
    (targetRepos : List String) : List domain.Repository :=
  (List.range targetRepos.length).filterMap (fetchedAt FetchStars targetRepos)

/-! ## Invariant of the fan-out of `Update` -/

/-- What holds of the fan-out of `Update` at every moment: the goroutines started so far
are those of the first `next` targets, each of them fetching, returned or finished; at
most `fetchLimit` of them hold a slot; and the channel holds the repositories of the
finished goroutines whose fetch succeeded, in the order they finished. -/
structure UpdateInv (targetRepos : List String)
    (FetchStars : Nat → String → Except GoError domain.Repository)
    (s : usecase.UpdateState) : Prop where
  perm : (s.exited ++ (s.fetching ++ s.returned)).Perm (List.range s.next)
  next_le : s.next ≤ targetRepos.length
  active_le : s.active ≤ usecase.fetchLimit
  results_eq : s.results = s.exited.filterMap (fetchedAt FetchStars targetRepos)

/-! ## The words of the specification, continued -/

/-- Stability of the ranking in the words of the specification: trends of equal diff keep
the relative order of the current snapshot, that is, for each diff value the ranked trends
of that diff are, in order, the trends of that diff as built from the current snapshot. -/
def RankingStable (sortSort : sort.Sorter domain.Trend)
    (todayData pastData : List domain.Repository) (period : domain.TrendPeriod) : Prop :=
  ∀ d : GoInt,
    (usecase.rankedTrends sortSort todayData pastData period).filter (fun t => t.Diff == d) =
      (usecase.buildTrends todayData (usecase.pastDataMap pastData) period).filter
        (fun t => t.Diff == d)

/-- The texts of a list written one after the other. -/
def concatAll : List String → String
  | [] => ""
  | s :: rest => s ++ concatAll rest

/-- The rows of the table in the words of the claim: the trend at position `i`, counted
from `k`, gets rank `i + 1` and carries the name, the stars and the diff of its trend. -/
def rankedRowsFrom (k : Nat) : List domain.Trend → List presenter.TemplateTrend
  | [] => []
  | t :: rest =>
    { Rank := k + 1, RepoName := t.Repository.FullName, Stars := t.Repository.Stars,
      Diff := t.Diff } :: rankedRowsFrom (k + 1) rest

/-! ## Sample data -/

namespace sample

open domain storage usecase

/-- The repository `name` with `stars` stars. -/
def repo (name : String) (stars : Int) : Repository :=
  { FullName := name, Stars := GoInt.ofInt stars }

/-- The four trends of `TestSortTrends`, in the order of the test. -/
def testTrends : List Trend :=
  [ NewTrend (repo "owner/repo-c" 100) (GoInt.ofInt 10) TrendDaily,
    NewTrend (repo "owner/repo-a" 300) (GoInt.ofInt 50) TrendDaily,
    NewTrend (repo "owner/repo-b" 200) (GoInt.ofInt (-5)) TrendDaily,
    NewTrend (repo "owner/repo-d" 500) (GoInt.ofInt 25) TrendDaily ]

/-- A current snapshot of thirteen repositories: twelve with 5 stars, then one with 9. -/
def thirteen : List Repository :=
  [ repo "o/r00" 5, repo "o/r01" 5, repo "o/r02" 5, repo "o/r03" 5, repo "o/r04" 5,
    repo "o/r05" 5, repo "o/r06" 5, repo "o/r07" 5, repo "o/r08" 5, repo "o/r09" 5,
    repo "o/r10" 5, repo "o/r11" 5, repo "o/r12" 9 ]

/-- A store that holds a snapshot for day 10 only and finds nothing for any other day. -/
def firstRunStorer : Storer :=
  { Save := fun _ _ => none,
    Load := fun date => if date.day = 10 then ([repo "o/X" 42], none)
                        else ([], some ErrDataNotFound),
    LoadTargetRepos := ([], some ErrReposConfigNotFound),
    SaveTargetRepos := fun _ => none }

/-- A run of `Generate` on day 10 against `firstRunStorer`. -/
def firstRunEnv : GenerateEnv :=
  { now := { day := 10, clock := 0 },
    storer := firstRunStorer,
    createFile := none,
    newPresenter := .ok { Render := fun _ => ("", none) } }

/-- The store of `TestUsecase_Update_FetchFailure`: two targets, every save succeeds. -/
def twoTargetStorer : Storer :=
  { Save := fun _ _ => none,
    Load := fun _ => ([], some ErrDataNotFound),
    LoadTargetRepos := (["owner/repo1", "owner/repo2"], none),
    SaveTargetRepos := fun _ => none }

/-- The run of `TestUsecase_Update_FetchFailure`: the fetch of the first target fails,
the fetch of the second returns 200 stars. -/
def fetchFailureEnv : UpdateEnv :=
  { now := { day := 10, clock := 0 },
    storer := twoTargetStorer,
    FetchStars := fun i name =>
      if i = 0 then .error (.plain "fetch failed") else .ok (repo name 200) }

/-- A run like `fetchFailureEnv` whose store refuses every save. -/
def saveFailsEnv : UpdateEnv :=
  { now := { day := 10, clock := 0 },
    storer := { twoTargetStorer with Save := fun _ _ => some (.plain "disk full") },
    FetchStars := fun i name =>
      if i = 0 then .error (.plain "fetch failed") else .ok (repo name 200) }
/-- A run of `Update` over two targets in which every fetch fails. -/
def allFetchesFailEnv : UpdateEnv :=
  { now := { day := 10, clock := 0 },
    storer := twoTargetStorer,
    FetchStars := fun _ _ => .error (.plain "fetch failed") }

/-- A run of `Update` over an empty target list. -/
def noTargetsEnv : UpdateEnv :=
  { now := { day := 10, clock := 0 },
    storer := { twoTargetStorer with LoadTargetRepos := ([], none) },
    FetchStars := fun _ name => .ok (repo name 1) }

/-- A target list of nine entries. -/
def nineTargets : List String :=
  ["o/r1", "o/r2", "o/r3", "o/r4", "o/r5", "o/r6", "o/r7", "o/r8", "o/r9"]
/-- A store whose `Load` is `FileStorer.Load` over the given files. -/
def storerOf (fs : FileSystem) : Storer :=
  { Save := fun _ _ => none,
    Load := FileStorer.Load fs,
    LoadTargetRepos := ([], none),
    SaveTargetRepos := fun _ => none }

/-- A data directory with the file of day 10, which decodes to `o/X` with 42 stars, and
the file of day 3, which is cut short and does not decode. -/
def brokenBaselineDir : FileSystem :=
  { getDailyDataPath := fun date => "data/" ++ toString date.day ++ ".json",
    openFile := fun path =>
      if path = "data/10.json" then .opened "[\x7b\"FullName\":\"o/X\",\"Stars\":42\x7d]"
      else if path = "data/3.json" then .opened "[\x7b\"FullName\":"
      else .notExist (.plain "no such file or directory"),
    decodeRepos := fun content =>
      if content = "[\x7b\"FullName\":\"o/X\",\"Stars\":42\x7d]" then .ok [repo "o/X" 42]
      else .error (.plain "unexpected EOF") }

/-- A run of `Generate` on day 10 over `brokenBaselineDir`. -/
def brokenBaselineEnv : GenerateEnv :=
  { now := { day := 10, clock := 0 },
    storer := storerOf brokenBaselineDir,
    createFile := none,
    newPresenter := .ok { Render := fun _ => ("", none) } }

/-- A JSON decoder for the texts `json.Decode` reads itself, which fails on every other
text. -/
def jsonDecoder : String → Except GoError (List Repository) :=
  json.Decode (fun _ => .error (.plain "invalid character"))

/-- A data directory whose file of day 10 was edited by hand: it holds one entry with no
slash in its name and a negative star count. -/
def editedDir : FileSystem :=
  { getDailyDataPath := fun date => "data/" ++ toString date.day ++ ".json",
    openFile := fun path =>
      if path = "data/10.json" then .opened "[\x7b\"FullName\":\"bad\",\"Stars\":-5\x7d]"
      else .notExist (.plain "no such file or directory"),
    decodeRepos := jsonDecoder }

/-- A run of `Generate` on day 10 over `editedDir`. -/
def editedEnv : GenerateEnv :=
  { now := { day := 10, clock := 0 },
    storer := storerOf editedDir,
    createFile := none,
    newPresenter := .ok { Render := fun _ => ("", none) } }

/-- A run of `Generate` on day 11 against `firstRunStorer`, which has nothing for that
day. -/
def noDataEnv : GenerateEnv := { firstRunEnv with now := { day := 11, clock := 0 } }

/-- A GitHub API that answers every call with its rate-limit error. -/
def rateLimitedGet : String → String → Except GoError GoInt :=
  fun _ _ => .error (.githubRateLimit "API rate limit exceeded")

/-- A GitHub API that knows no repository: every call fails with a 404 error response. -/
def notFoundGet : String → String → Except GoError GoInt :=
  fun _ _ => .error (.plain "404 Not Found")

/-- The two trends of `getTestTrends` in `presenter_test.go`. -/
def presenterTrends : List Trend :=
  [ NewTrend (repo "owner/repo1" 1000) (GoInt.ofInt 50) TrendWeekly,
    NewTrend (repo "owner/repo2" 2500) (GoInt.ofInt 25) TrendWeekly ]
/-- The path of the data file of a day in the directory `data`. -/
def dataPath (date : Time) : String := "data/" ++ toString date.day ++ ".json"

/-- The content of the data file after the `Save` of `TestFileStorer_SaveAndLoad`. -/
def savedText : String :=
  "[\n  \x7b\n    \"FullName\": \"owner/repo1\",\n    \"Stars\": 100\n  \x7d,\n  \x7b\n    \"FullName\": \"owner/repo2\",\n    \"Stars\": 200\n  \x7d\n]\n"

/-- The surroundings of `Save` in `TestFileStorer_SaveAndLoad`: nothing fails. -/
def saveEnv : SaveEnv :=
  { DataDirPath := "data",
    getDailyDataPath := dataPath,
    mkdirAll := none,
    create := fun _ => none,
    write := fun _ _ => none }

/-- A run of `Initialize` with no repos config file and a store that saves. -/
def freshInitEnv : InitializeEnv :=
  { stat := some (.plain "stat repos.json: no such file or directory"),
    storer := twoTargetStorer }

end sample

/-! ## Properties of `NewRepository` -/

theorem strings.split_ne_nil (s : List Char) (sep : Char) : strings.Split s sep ≠ [] := by
  induction s with
  | nil => simp [strings.Split]
  | cons c cs ih =>
    unfold strings.Split
    split
    · simp
    · split <;> simp

theorem strings.split_of_not_mem (s : List Char) (sep : Char) (h : sep ∉ s) :
    strings.Split s sep = [s] := by
  induction s with
  | nil => simp [strings.Split]
  | cons c cs ih =>
    have hc : ¬ c = sep := fun e => h (by simp [e])
    have hcs : sep ∉ cs := fun e => h (by simp [e])
    simp [strings.Split, hc, ih hcs]

theorem strings.split_append_sep (a b : List Char) (sep : Char) (h : sep ∉ a) :
    strings.Split (a ++ sep :: b) sep = a :: strings.Split b sep := by
  induction a with
  | nil => simp [strings.Split]
  | cons c cs ih =>
    have hc : ¬ c = sep := fun e => h (by simp [e])
    have hcs : sep ∉ cs := fun e => h (by simp [e])
    simp [strings.Split, hc, ih hcs]

/-- Either the separator does not occur, or the string is a separator-free first piece,
the separator, and a rest that is split in turn. -/
theorem strings.split_cases (s : List Char) (sep : Char) :
    (sep ∉ s ∧ strings.Split s sep = [s]) ∨
    (∃ a b, sep ∉ a ∧ s = a ++ sep :: b ∧ strings.Split s sep = a :: strings.Split b sep) := by
  induction s with
  | nil => left; simp [strings.Split]
  | cons c cs ih =>
    by_cases hc : c = sep
    · right
      exact ⟨[], cs, by simp, by simp [hc], by simp [strings.Split, hc]⟩
    · rcases ih with ⟨hn, _⟩ | ⟨a, b, ha, hs, _⟩
      · left
        have : sep ∉ c :: cs := by
          simp only [List.mem_cons, not_or]
          exact ⟨fun e => hc e.symm, hn⟩
        exact ⟨this, strings.split_of_not_mem _ _ this⟩
      · right
        have : sep ∉ c :: a := by
          simp only [List.mem_cons, not_or]
          exact ⟨fun e => hc e.symm, ha⟩
        refine ⟨c :: a, b, this, by simp [hs], ?_⟩
        rw [hs]
        exact strings.split_append_sep (c :: a) b sep this

theorem strings.split_eq_pair (s a b : List Char) (sep : Char)
    (h : strings.Split s sep = [a, b]) : sep ∉ a ∧ sep ∉ b ∧ s = a ++ sep :: b := by
  rcases strings.split_cases s sep with ⟨_, h1⟩ | ⟨a1, b1, ha1, hs, h1⟩
  · rw [h1] at h; simp at h
  · rw [h1] at h
    simp only [List.cons.injEq] at h
    obtain ⟨rfl, hb⟩ := h
    rcases strings.split_cases b1 sep with ⟨hn, h2⟩ | ⟨a2, b2, _, _, h2⟩
    · rw [h2] at hb
      simp only [List.cons.injEq, and_true] at hb
      subst hb
      exact ⟨ha1, hn, hs⟩
    · rw [h2] at hb
      simp only [List.cons.injEq] at hb
      exact absurd hb.2 (strings.split_ne_nil b2 sep)

/-- The name test of `NewRepository` accepts exactly the names of shape `owner/name`. -/
theorem domain.nameRejected_eq_false_iff (fullName : String) :
    domain.nameRejected fullName = false ↔ IsOwnerSlashName fullName := by
  constructor
  · intro h
    unfold domain.nameRejected at h
    simp only [Bool.or_eq_false_iff] at h
    obtain ⟨⟨hlen, h0⟩, h1⟩ := h
    match hp : strings.Split fullName.data '/' with
    | [] => rw [hp] at hlen; simp at hlen
    | [_] => rw [hp] at hlen; simp at hlen
    | _ :: _ :: _ :: _ => rw [hp] at hlen; simp at hlen
    | [a, b] =>
      rw [hp] at h0 h1
      obtain ⟨ha, hb, hs⟩ := strings.split_eq_pair _ _ _ _ hp
      refine ⟨a, b, ?_, ?_, ha, hb, hs⟩
      · simpa using h0
      · simpa using h1
  · rintro ⟨owner, name, ho, hn, hso, hsn, hs⟩
    unfold domain.nameRejected
    rw [hs, strings.split_append_sep owner name '/' hso, strings.split_of_not_mem name '/' hsn]
    simp [ho, hn]

/-- C1: for every `fullName` of shape `owner/name` (two non-empty parts around one slash)
and every `stars >= 0`, `NewRepository` succeeds and the repository it returns carries
exactly `fullName` and `stars`. -/
theorem C1_newRepository_roundtrip (fullName : String) (stars : GoInt)
    (hname : IsOwnerSlashName fullName) (hstars : 0 ≤ stars.val) :
    domain.NewRepository fullName stars = .ok { FullName := fullName, Stars := stars } ∧
    ∀ repo, domain.NewRepository fullName stars = .ok repo →
      repo.FullName = fullName ∧ repo.Stars = stars := by
  have hrej := (domain.nameRejected_eq_false_iff fullName).mpr hname
  have hneg : ¬ stars.val < 0 := by omega
  have hok : domain.NewRepository fullName stars
      = .ok { FullName := fullName, Stars := stars } := by
    simp [domain.NewRepository, hrej, hneg]
  refine ⟨hok, ?_⟩
  intro repo h
  rw [hok] at h
  cases h
  exact ⟨rfl, rfl⟩

theorem C1_newRepository_roundtrip_witness :
    IsOwnerSlashName "owner/repo" ∧
    domain.NewRepository "owner/repo" ⟨100, by decide, by decide⟩
      = .ok { FullName := "owner/repo", Stars := ⟨100, by decide, by decide⟩ } :=
  have h : IsOwnerSlashName "owner/repo" :=
    ⟨"owner".data, "repo".data, by decide, by decide, by decide, by decide, by decide⟩
  ⟨h, (C1_newRepository_roundtrip "owner/repo" ⟨100, by decide, by decide⟩ h (by decide)).1⟩

theorem list_split_of_count_one (s : List Char) (c : Char) (h : s.count c = 1) :
    ∃ a b, c ∉ a ∧ c ∉ b ∧ s = a ++ c :: b := by
  have hm : c ∈ s := List.count_pos_iff.mp (by omega)
  obtain ⟨a, b, hs⟩ := List.append_of_mem hm
  refine ⟨a, b, ?_, ?_, hs⟩
  · intro ha
    have : 0 < a.count c := List.count_pos_iff.mpr ha
    rw [hs] at h; simp at h; omega
  · intro hb
    have : 0 < b.count c := List.count_pos_iff.mpr hb
    rw [hs] at h; simp at h; omega

theorem isOwnerSlashName_iff_count (fullName : String) :
    IsOwnerSlashName fullName ↔
      (fullName.data.count '/' = 1 ∧ fullName.data.head? ≠ some '/' ∧
        fullName.data.getLast? ≠ some '/') := by
  constructor
  · rintro ⟨owner, name, ho, hn, hso, hsn, hs⟩
    rw [hs]
    refine ⟨?_, ?_, ?_⟩
    · simp [List.count_eq_zero_of_not_mem hso, List.count_eq_zero_of_not_mem hsn]
    · cases owner with
      | nil => exact absurd rfl ho
      | cons c cs =>
        simp only [List.cons_append, List.head?_cons, ne_eq, Option.some.injEq]
        intro e; exact hso (by simp [e])
    · rw [List.getLast?_append_of_ne_nil _ (by simp)]
      cases name with
      | nil => exact absurd rfl hn
      | cons d ds =>
        rw [List.getLast?_cons_cons]
        intro hl
        exact hsn (List.mem_of_getLast?_eq_some hl)
  · rintro ⟨hc, hh, hl⟩
    obtain ⟨a, b, ha, hb, hs⟩ := list_split_of_count_one _ _ hc
    refine ⟨a, b, ?_, ?_, ha, hb, hs⟩
    · rintro rfl; rw [hs] at hh; simp at hh
    · rintro rfl; rw [hs] at hl; simp at hl

/-- C2: `NewRepository` fails (an error and no repository) if and only if `fullName` is
not of shape `owner/name` with both parts non-empty, or `stars` is negative; the names not
of that shape are exactly those with no slash, with more than one slash, with an empty
owner (a leading slash) or with an empty name (a trailing slash). -/
theorem C2_newRepository_fails_iff (fullName : String) (stars : GoInt) :
    ((∃ err, domain.NewRepository fullName stars = .error err) ↔
      (¬ IsOwnerSlashName fullName ∨ stars.val < 0)) ∧
    ((∀ repo, domain.NewRepository fullName stars ≠ .ok repo) ↔
      (¬ IsOwnerSlashName fullName ∨ stars.val < 0)) ∧
    (¬ IsOwnerSlashName fullName ↔
      (fullName.data.count '/' = 0 ∨ 2 ≤ fullName.data.count '/' ∨
        fullName.data.head? = some '/' ∨ fullName.data.getLast? = some '/')) := by
  have hiff := domain.nameRejected_eq_false_iff fullName
  have hshape : ¬ IsOwnerSlashName fullName ↔
      (fullName.data.count '/' = 0 ∨ 2 ≤ fullName.data.count '/' ∨
        fullName.data.head? = some '/' ∨ fullName.data.getLast? = some '/') := by
    rw [isOwnerSlashName_iff_count]
    constructor
    · intro h
      by_cases h1 : fullName.data.count '/' = 1
      · by_cases h2 : fullName.data.head? = some '/'
        · exact Or.inr (Or.inr (Or.inl h2))
        · refine Or.inr (Or.inr (Or.inr ?_))
          by_contra h3
          exact h ⟨h1, h2, h3⟩
      · by_cases h0 : fullName.data.count '/' = 0
        · exact Or.inl h0
        · exact Or.inr (Or.inl (by omega))
    · rintro (h | h | h | h) ⟨h1, h2, h3⟩
      · omega
      · omega
      · exact h2 h
      · exact h3 h
  refine ⟨?_, ?_, hshape⟩
  · by_cases hrej : domain.nameRejected fullName = true
    · have hn : ¬ IsOwnerSlashName fullName := fun h => by
        rw [hiff.mpr h] at hrej; exact Bool.false_ne_true hrej
      simp [domain.NewRepository, hrej, hn]
    · have hrej2 : domain.nameRejected fullName = false := by simpa using hrej
      have hn : IsOwnerSlashName fullName := hiff.mp hrej2
      by_cases hs : stars.val < 0
      · simp [domain.NewRepository, hrej2, hn, hs]
      · simp [domain.NewRepository, hrej2, hn, hs]
  · by_cases hrej : domain.nameRejected fullName = true
    · have hn : ¬ IsOwnerSlashName fullName := fun h => by
        rw [hiff.mpr h] at hrej; exact Bool.false_ne_true hrej
      simp [domain.NewRepository, hrej, hn]
    · have hrej2 : domain.nameRejected fullName = false := by simpa using hrej
      have hn : IsOwnerSlashName fullName := hiff.mp hrej2
      by_cases hs : stars.val < 0
      · simp [domain.NewRepository, hrej2, hn, hs]
      · simp [domain.NewRepository, hrej2, hn, hs]

/-- C3: the error of a failed `NewRepository` depends on its inputs only: for a malformed
`fullName` its message is "invalid repository full name format: " followed by `fullName`,
whatever `stars` is; for a well-formed `fullName` and `stars < 0` it is
"stars count cannot be negative: " followed by `stars` in decimal. -/
theorem C3_newRepository_error_message (fullName : String) (stars : GoInt) :
    (¬ IsOwnerSlashName fullName →
      ∃ err, domain.NewRepository fullName stars = .error err ∧
        err.Error = "invalid repository full name format: " ++ fullName) ∧
    (IsOwnerSlashName fullName → stars.val < 0 →
      ∃ err, domain.NewRepository fullName stars = .error err ∧
        err.Error = "stars count cannot be negative: " ++ fmt.verbD stars) := by
  have hiff := domain.nameRejected_eq_false_iff fullName
  constructor
  · intro hn
    have hrej : domain.nameRejected fullName = true := by
      by_contra h
      exact hn (hiff.mp (by simpa using h))
    exact ⟨.plain ("invalid repository full name format: " ++ fullName),
      by simp [domain.NewRepository, hrej], rfl⟩
  · intro hn hs
    have hrej := hiff.mpr hn
    exact ⟨.plain ("stars count cannot be negative: " ++ fmt.verbD stars),
      by simp [domain.NewRepository, hrej, hs], rfl⟩

theorem C3_newRepository_error_message_witness :
    (∃ err, domain.NewRepository "a/b/c" ⟨-7, by decide, by decide⟩ = .error err ∧
      err.Error = "invalid repository full name format: a/b/c") ∧
    (∃ err, domain.NewRepository "owner/repo" ⟨-1, by decide, by decide⟩ = .error err ∧
      err.Error = "stars count cannot be negative: -1") :=
  have hbad : ¬ IsOwnerSlashName "a/b/c" := fun h =>
    absurd ((domain.nameRejected_eq_false_iff "a/b/c").mpr h) (by decide)
  have hgood : IsOwnerSlashName "owner/repo" :=
    ⟨"owner".data, "repo".data, by decide, by decide, by decide, by decide, by decide⟩
  ⟨(C3_newRepository_error_message "a/b/c" ⟨-7, by decide, by decide⟩).1 hbad,
   (C3_newRepository_error_message "owner/repo" ⟨-1, by decide, by decide⟩).2 hgood
     (by decide)⟩

/-! ## Properties of the trend computation in `Generate` -/

theorem wrapInt_of_inRange (n : Int) (h1 : minInt ≤ n) (h2 : n ≤ maxInt) : wrapInt n = n := by
  unfold wrapInt; unfold minInt at h1; unfold maxInt at h2; omega

theorem GoInt.sub_zero_eq (a : GoInt) : GoInt.sub a GoInt.zero = a := by
  cases a with
  | mk v lo hi =>
    simp only [GoInt.sub, GoInt.zero, Int.sub_zero, GoInt.mk.injEq]
    exact wrapInt_of_inRange v lo hi

/-- The map built by the first loop, started from any map `m`: a key is bound to the stars
of the last entry of that name, and keeps its binding in `m` when there is none. -/
theorem usecase.foldl_set_apply (pastData : List domain.Repository) (m : StringIntMap)
    (q : String) :
    (pastData.foldl (fun m repo => m.set repo.FullName repo.Stars) m) q =
      match pastData.reverse.find? (fun r => r.FullName == q) with
      | some r => some r.Stars
      | none => m q := by
  induction pastData generalizing m with
  | nil => simp
  | cons x xs ih =>
    rw [List.foldl_cons, ih, List.reverse_cons, List.find?_append]
    cases hf : xs.reverse.find? (fun r => r.FullName == q) with
    | some r => simp
    | none =>
      by_cases hx : x.FullName = q
      · simp [StringIntMap.set, hx]
      · have hq : ¬ q = x.FullName := fun e => hx e.symm
        simp [StringIntMap.set, hx, hq]

/-- Reading the map of the first loop is the baseline lookup of the specification. -/
theorem usecase.pastDataMap_index (pastData : List domain.Repository) (q : String) :
    (usecase.pastDataMap pastData).index q = baselineGet pastData q := by
  unfold StringIntMap.index usecase.pastDataMap baselineGet
  rw [usecase.foldl_set_apply]
  cases pastData.reverse.find? (fun r => r.FullName == q) <;> simp [StringIntMap.make]

theorem usecase.foldl_append_eq_map {α β : Type} (f : α → β) (l : List α) (init : List β) :
    l.foldl (fun acc x => acc ++ [f x]) init = init ++ l.map f := by
  induction l generalizing init with
  | nil => simp
  | cons x xs ih => simp [ih]

/-- The second loop builds one trend per entry of `todayData`, in order. -/
theorem usecase.buildTrends_eq_map (todayData : List domain.Repository) (m : StringIntMap)
    (period : domain.TrendPeriod) :
    usecase.buildTrends todayData m period =
      todayData.map (fun repo =>
        domain.NewTrend repo (GoInt.sub repo.Stars (m.index repo.FullName)) period) := by
  unfold usecase.buildTrends
  rw [usecase.foldl_append_eq_map
    (fun repo => domain.NewTrend repo (GoInt.sub repo.Stars (m.index repo.FullName)) period)]
  simp

theorem baselineGet_of_absent (baseline : List domain.Repository) (q : String)
    (h : ∀ r ∈ baseline, r.FullName ≠ q) : baselineGet baseline q = GoInt.zero := by
  unfold baselineGet
  have : baseline.reverse.find? (fun r => r.FullName == q) = none := by
    rw [List.find?_eq_none]
    intro r hr
    simpa using h r (List.mem_reverse.mp hr)
  rw [this]

theorem baselineGet_last (pre post : List domain.Repository) (r : domain.Repository)
    (h : ∀ q ∈ post, q.FullName ≠ r.FullName) :
    baselineGet (pre ++ r :: post) r.FullName = r.Stars := by
  unfold baselineGet
  have hnone : post.reverse.find? (fun q => q.FullName == r.FullName) = none := by
    rw [List.find?_eq_none]
    intro q hq
    simpa using h q (List.mem_reverse.mp hq)
  simp [List.find?_append, hnone]

/-- C4: the trend list `Generate` builds before ranking has one trend per entry of the
current snapshot, in the same order; the i-th trend references the i-th current repository
and its `Diff` is the Go `int` difference of that repository's `Stars` and the baseline
star count recorded for its `FullName` (0 when the baseline has no entry of that name).
The Go difference is the exact difference whenever that fits a 64-bit `int`. -/
theorem C4_buildTrends_diff (todayData pastData : List domain.Repository)
    (period : domain.TrendPeriod) :
    (usecase.buildTrends todayData (usecase.pastDataMap pastData) period).length
      = todayData.length ∧
    ∀ (i : Nat) (repo : domain.Repository), todayData[i]? = some repo →
      ∃ t, (usecase.buildTrends todayData (usecase.pastDataMap pastData) period)[i]? = some t ∧
        t.Repository = repo ∧ t.Period = period ∧
        t.Diff.val = wrapInt (repo.Stars.val - (baselineGet pastData repo.FullName).val) ∧
        (minInt ≤ repo.Stars.val - (baselineGet pastData repo.FullName).val →
          repo.Stars.val - (baselineGet pastData repo.FullName).val ≤ maxInt →
          t.Diff.val = repo.Stars.val - (baselineGet pastData repo.FullName).val) ∧
        ((∀ r ∈ pastData, r.FullName ≠ repo.FullName) → t.Diff = repo.Stars) := by
  rw [usecase.buildTrends_eq_map]
  refine ⟨by simp, ?_⟩
  intro i repo hi
  refine ⟨domain.NewTrend repo
    (GoInt.sub repo.Stars ((usecase.pastDataMap pastData).index repo.FullName)) period,
    by simp [hi], rfl, rfl, ?_, ?_, ?_⟩
  · rw [usecase.pastDataMap_index]; rfl
  · intro h1 h2
    rw [usecase.pastDataMap_index]
    exact wrapInt_of_inRange _ h1 h2
  · intro habs
    rw [usecase.pastDataMap_index, baselineGet_of_absent pastData repo.FullName habs]
    exact GoInt.sub_zero_eq repo.Stars

theorem C4_buildTrends_diff_witness :
    ∃ t, (usecase.buildTrends [⟨"owner/repo1", ⟨100, by decide, by decide⟩⟩]
        (usecase.pastDataMap [⟨"owner/repo1", ⟨80, by decide, by decide⟩⟩])
        domain.TrendWeekly)[0]? = some t ∧
      t.Repository = ⟨"owner/repo1", ⟨100, by decide, by decide⟩⟩ ∧ t.Diff.val = 20 := by
  obtain ⟨t, h1, h2, _, _, h5, _⟩ :=
    (C4_buildTrends_diff [⟨"owner/repo1", ⟨100, by decide, by decide⟩⟩]
      [⟨"owner/repo1", ⟨80, by decide, by decide⟩⟩] domain.TrendWeekly).2 0
      ⟨"owner/repo1", ⟨100, by decide, by decide⟩⟩ rfl
  exact ⟨t, h1, h2, h5 (by decide) (by decide)⟩

/-- C6: when the baseline holds several entries of one `FullName`, the map built by
`Generate` binds that name to the `Stars` of the last of them in baseline order, and that
is the count subtracted in the diff of every current repository of that name. -/
theorem C6_baseline_last_write_wins (pre post : List domain.Repository)
    (last : domain.Repository) (hlast : ∀ q ∈ post, q.FullName ≠ last.FullName)
    (todayData : List domain.Repository) (period : domain.TrendPeriod) :
    (usecase.pastDataMap (pre ++ last :: post)).index last.FullName = last.Stars ∧
    ∀ (i : Nat) (repo : domain.Repository), todayData[i]? = some repo →
      repo.FullName = last.FullName →
      (usecase.buildTrends todayData (usecase.pastDataMap (pre ++ last :: post)) period)[i]?
        = some (domain.NewTrend repo (GoInt.sub repo.Stars last.Stars) period) := by
  have hidx : (usecase.pastDataMap (pre ++ last :: post)).index last.FullName = last.Stars := by
    rw [usecase.pastDataMap_index]
    exact baselineGet_last pre post last hlast
  refine ⟨hidx, ?_⟩
  intro i repo hi hname
  rw [usecase.buildTrends_eq_map]
  simp [hi, hname, hidx]

theorem C6_baseline_last_write_wins_witness :
    (usecase.buildTrends [⟨"o/r", ⟨100, by decide, by decide⟩⟩]
        (usecase.pastDataMap [⟨"o/r", ⟨80, by decide, by decide⟩⟩,
          ⟨"o/r", ⟨90, by decide, by decide⟩⟩, ⟨"o/x", ⟨5, by decide, by decide⟩⟩])
        domain.TrendWeekly)[0]?
      = some (domain.NewTrend ⟨"o/r", ⟨100, by decide, by decide⟩⟩
          (GoInt.sub ⟨100, by decide, by decide⟩ ⟨90, by decide, by decide⟩)
          domain.TrendWeekly) ∧
    (GoInt.sub ⟨100, by decide, by decide⟩ ⟨90, by decide, by decide⟩).val = 10 :=
  ⟨(C6_baseline_last_write_wins [⟨"o/r", ⟨80, by decide, by decide⟩⟩]
      [⟨"o/x", ⟨5, by decide, by decide⟩⟩] ⟨"o/r", ⟨90, by decide, by decide⟩⟩
      (by decide) [⟨"o/r", ⟨100, by decide, by decide⟩⟩] domain.TrendWeekly).2 0
      ⟨"o/r", ⟨100, by decide, by decide⟩⟩ rfl rfl,
   by decide⟩

/-! ## Sorting routines that meet the contract of `sort.Sort` -/

theorem sort.insertLeft_perm {α : Type} (less : α → α → Bool) (x : α) (acc : List α) :
    (sort.insertLeft less x acc).Perm (x :: acc) := by
  induction acc with
  | nil => simp [sort.insertLeft]
  | cons y rest ih =>
    unfold sort.insertLeft
    split
    · exact (List.Perm.cons y ih).trans (List.Perm.swap x y rest)
    · exact List.Perm.refl _

theorem sort.insertionSortFrom_perm {α : Type} (less : α → α → Bool) (acc xs : List α) :
    (sort.insertionSortFrom less acc xs).Perm (acc ++ xs) := by
  induction xs generalizing acc with
  | nil => simp [sort.insertionSortFrom]
  | cons x xs ih =>
    unfold sort.insertionSortFrom
    refine (ih _).trans ?_
    refine ((sort.insertLeft_perm less x acc).append_right xs).trans ?_
    simpa using (@List.perm_middle _ x acc xs).symm

theorem sort.insertLeft_sorted {α : Type} (less : α → α → Bool)
    (hw : sort.IsStrictWeakOrder less) (x : α) (acc : List α)
    (h : acc.Pairwise (fun a b => less a b = false)) :
    (sort.insertLeft less x acc).Pairwise (fun a b => less a b = false) := by
  induction acc with
  | nil => simp [sort.insertLeft]
  | cons y rest ih =>
    rw [List.pairwise_cons] at h
    unfold sort.insertLeft
    split
    · rename_i hxy
      rw [List.pairwise_cons]
      refine ⟨?_, ih h.2⟩
      intro z hz
      have hz2 : z ∈ x :: rest := (sort.insertLeft_perm less x rest).subset hz
      rcases List.mem_cons.mp hz2 with rfl | hz3
      · cases hyx : less y z with
        | false => rfl
        | true =>
          have := hw.trans z y z hxy hyx
          rw [hw.irrefl z] at this
          exact absurd this (by decide)
      · exact h.1 z hz3
    · rename_i hxy
      have hxy2 : less x y = false := by simpa using hxy
      rw [List.pairwise_cons]
      refine ⟨?_, List.pairwise_cons.mpr h⟩
      intro z hz
      rcases List.mem_cons.mp hz with rfl | hz3
      · exact hxy2
      · exact hw.negTrans x y z hxy2 (h.1 z hz3)

theorem sort.insertionSortFrom_sorted {α : Type} (less : α → α → Bool)
    (hw : sort.IsStrictWeakOrder less) (acc xs : List α)
    (h : acc.Pairwise (fun a b => less a b = false)) :
    (sort.insertionSortFrom less acc xs).Pairwise (fun a b => less b a = false) := by
  induction xs generalizing acc with
  | nil =>
    unfold sort.insertionSortFrom
    exact List.pairwise_reverse.mpr h
  | cons x xs ih =>
    unfold sort.insertionSortFrom
    exact ih _ (sort.insertLeft_sorted less hw x acc h)

/-- Insertion sort meets the contract of `sort.Sort`. -/
theorem sort.insertionSort_contract {α : Type} :
    sort.Contract (sort.insertionSort : sort.Sorter α) where
  perm := fun less xs => by
    simpa [sort.insertionSort] using sort.insertionSortFrom_perm less [] xs
  sorted := fun less hw xs => by
    simpa [sort.insertionSort] using
      sort.insertionSortFrom_sorted less hw [] xs List.Pairwise.nil

/-- The reversing routine meets the contract of `sort.Sort` as well. -/
theorem sort.reversingSort_contract {α : Type} :
    sort.Contract (sort.reversingSort : sort.Sorter α) where
  perm := fun less xs =>
    (sort.insertionSort_contract.perm less xs.reverse).trans (List.reverse_perm xs)
  sorted := fun less hw xs => sort.insertionSort_contract.sorted less hw xs.reverse

/-- Insertion sort leaves a class of elements that `less` never orders among themselves
in its input order. -/
theorem sort.insertLeft_filter {α : Type} (less : α → α → Bool) (p : α → Bool)
    (hp : ∀ a b, less a b = true → p a = true → p b = true → False) (x : α) (acc : List α) :
    (sort.insertLeft less x acc).filter p = (x :: acc).filter p := by
  induction acc with
  | nil => simp [sort.insertLeft]
  | cons y rest ih =>
    unfold sort.insertLeft
    split
    · rename_i hxy
      rw [List.filter_cons, ih]
      cases hpx : p x <;> cases hpy : p y
      · simp [List.filter_cons, hpx, hpy]
      · simp [List.filter_cons, hpx, hpy]
      · simp [List.filter_cons, hpx, hpy]
      · exact absurd (hp x y hxy hpx hpy) id
    · rfl

theorem sort.insertionSortFrom_filter {α : Type} (less : α → α → Bool) (p : α → Bool)
    (hp : ∀ a b, less a b = true → p a = true → p b = true → False) (acc xs : List α) :
    (sort.insertionSortFrom less acc xs).filter p = (acc.filter p).reverse ++ xs.filter p := by
  induction xs generalizing acc with
  | nil => simp [sort.insertionSortFrom, List.filter_reverse]
  | cons x xs ih =>
    unfold sort.insertionSortFrom
    rw [ih, sort.insertLeft_filter less p hp]
    cases hpx : p x <;> simp [List.filter_cons, hpx]

/-- `ByStarsDiff.Less` is a strict weak ordering. -/
theorem domain.byStarsDiff_less_strictWeak : sort.IsStrictWeakOrder domain.ByStarsDiff.Less where
  irrefl := fun a => by simp [domain.ByStarsDiff.Less, GoInt.gt]
  trans := fun a b c h1 h2 => by
    simp only [domain.ByStarsDiff.Less, GoInt.gt, decide_eq_true_eq] at *
    omega
  negTrans := fun a b c h1 h2 => by
    simp only [domain.ByStarsDiff.Less, GoInt.gt, decide_eq_false_iff_not] at *
    omega

/-! ## Properties of the ranking -/

/-- C7: after `SortTrends` the list is ordered by `Diff` descending: for all positions
`i < j` the trend at `i` has a `Diff` at least that of the trend at `j`, negative diffs
included. `sort.Sort` is taken by its documented contract. -/
theorem C7_sortTrends_descending (sortSort : sort.Sorter domain.Trend)
    (hc : sort.Contract sortSort) (trends : List domain.Trend) (i j : Nat)
    (ti tj : domain.Trend) (hij : i < j)
    (hi : (domain.SortTrends sortSort trends)[i]? = some ti)
    (hj : (domain.SortTrends sortSort trends)[j]? = some tj) :
    tj.Diff.val ≤ ti.Diff.val := by
  have hs := hc.sorted domain.ByStarsDiff.Less domain.byStarsDiff_less_strictWeak trends
  rw [List.pairwise_iff_getElem] at hs
  obtain ⟨hi1, hi2⟩ := List.getElem?_eq_some.mp hi
  obtain ⟨hj1, hj2⟩ := List.getElem?_eq_some.mp hj
  have h := hs i j hi1 hj1 hij
  have hi3 : (sortSort domain.ByStarsDiff.Less trends)[i] = ti := hi2
  have hj3 : (sortSort domain.ByStarsDiff.Less trends)[j] = tj := hj2
  rw [hi3, hj3] at h
  simp only [domain.ByStarsDiff.Less, GoInt.gt, decide_eq_false_iff_not] at h
  omega

theorem C7_sortTrends_descending_witness :
    (domain.SortTrends sort.insertionSort sample.testTrends).map
        (fun t => (t.Repository.FullName, t.Diff.val))
      = [("owner/repo-a", 50), ("owner/repo-d", 25), ("owner/repo-c", 10),
          ("owner/repo-b", -5)] ∧
    (GoInt.ofInt (-5)).val ≤ (GoInt.ofInt 50).val :=
  ⟨by decide,
   C7_sortTrends_descending sort.insertionSort sort.insertionSort_contract sample.testTrends
     0 3 (domain.NewTrend (sample.repo "owner/repo-a" 300) (GoInt.ofInt 50) domain.TrendDaily)
     (domain.NewTrend (sample.repo "owner/repo-b" 200) (GoInt.ofInt (-5)) domain.TrendDaily)
     (by decide) (by decide) (by decide)⟩

theorem domain.byStarsDiff_less_not_same_diff (d : GoInt) (a b : domain.Trend)
    (h : domain.ByStarsDiff.Less a b = true) (ha : (a.Diff == d) = true)
    (hb : (b.Diff == d) = true) : False := by
  have ha2 : a.Diff = d := by simpa using ha
  have hb2 : b.Diff = d := by simpa using hb
  simp only [domain.ByStarsDiff.Less, GoInt.gt, decide_eq_true_eq, ha2, hb2] at h
  omega

/-- With insertion sort as the routine behind `sort.Sort`, the ranking is stable. -/
theorem usecase.rankingStable_insertionSort (todayData pastData : List domain.Repository)
    (period : domain.TrendPeriod) :
    RankingStable sort.insertionSort todayData pastData period := by
  intro d
  unfold usecase.rankedTrends domain.SortTrends sort.insertionSort
  rw [sort.insertionSortFrom_filter domain.ByStarsDiff.Less (fun t => t.Diff == d)
    (domain.byStarsDiff_less_not_same_diff d)]
  simp

/-- C8, as the claim states it, fails: the contract of `sort.Sort` does not promise a
stable sort. With a routine that meets the contract, a current snapshot of thirteen
repositories, twelve of them with the same diff, is ranked with those twelve in an order
other than the order of the current snapshot. -/
theorem C8_ranking_stable_counterexample :
    sort.Contract (sort.reversingSort : sort.Sorter domain.Trend) ∧
    (usecase.rankedTrends sort.reversingSort sample.thirteen [] domain.TrendWeekly).map
        (fun t => (t.Repository.FullName, t.Diff.val))
      = [("o/r12", 9), ("o/r11", 5), ("o/r10", 5), ("o/r09", 5), ("o/r08", 5), ("o/r07", 5),
         ("o/r06", 5), ("o/r05", 5), ("o/r04", 5), ("o/r03", 5), ("o/r02", 5), ("o/r01", 5),
         ("o/r00", 5)] ∧
    ¬ RankingStable sort.reversingSort sample.thirteen [] domain.TrendWeekly ∧
    ¬ (∀ sortSort : sort.Sorter domain.Trend, sort.Contract sortSort →
        ∀ todayData pastData period, RankingStable sortSort todayData pastData period) := by
  have hno : ¬ RankingStable sort.reversingSort sample.thirteen [] domain.TrendWeekly := by
    intro h
    have hst := h (GoInt.ofInt 5)
    revert hst
    decide
  exact ⟨sort.reversingSort_contract, by decide, hno,
    fun h => hno (h sort.reversingSort sort.reversingSort_contract _ _ _)⟩

/-- C8, amended: for every routine that meets the contract of `sort.Sort`, the ranked
output is ordered by `Diff` descending and, for each diff value, holds exactly the trends
of that diff built from the current snapshot, each as often as built; their relative order
is the order of the current snapshot when the routine is a stable one such as insertion
sort, and is not fixed otherwise. -/
theorem C8_ranking_ties (sortSort : sort.Sorter domain.Trend) (hc : sort.Contract sortSort)
    (todayData pastData : List domain.Repository) (period : domain.TrendPeriod) (d : GoInt) :
    ((usecase.rankedTrends sortSort todayData pastData period).filter
        (fun t => t.Diff == d)).Perm
      ((usecase.buildTrends todayData (usecase.pastDataMap pastData) period).filter
        (fun t => t.Diff == d)) ∧
    (usecase.rankedTrends sortSort todayData pastData period).Pairwise
      (fun a b => b.Diff.val ≤ a.Diff.val) ∧
    RankingStable sort.insertionSort todayData pastData period := by
  refine ⟨(hc.perm _ _).filter _, ?_, usecase.rankingStable_insertionSort _ _ _⟩
  have hs := hc.sorted domain.ByStarsDiff.Less domain.byStarsDiff_less_strictWeak
    (usecase.buildTrends todayData (usecase.pastDataMap pastData) period)
  refine List.Pairwise.imp ?_ hs
  intro a b h
  simp only [domain.ByStarsDiff.Less, GoInt.gt, decide_eq_false_iff_not] at h
  omega

theorem C8_ranking_ties_witness :
    ((usecase.rankedTrends sort.reversingSort
        [sample.repo "o/A" 10, sample.repo "o/B" 10] [sample.repo "o/A" 5, sample.repo "o/B" 5]
        domain.TrendWeekly).filter (fun t => t.Diff == GoInt.ofInt 5)).Perm
      ((usecase.buildTrends [sample.repo "o/A" 10, sample.repo "o/B" 10]
        (usecase.pastDataMap [sample.repo "o/A" 5, sample.repo "o/B" 5])
        domain.TrendWeekly).filter (fun t => t.Diff == GoInt.ofInt 5)) :=
  (C8_ranking_ties sort.reversingSort sort.reversingSort_contract
    [sample.repo "o/A" 10, sample.repo "o/B" 10] [sample.repo "o/A" 5, sample.repo "o/B" 5]
    domain.TrendWeekly (GoInt.ofInt 5)).1

/-! ## Properties of `Generate` -/

/-- A missing data file makes `FileStorer.Load` return no data and `ErrDataNotFound`. -/
theorem storage.fileStorer_load_notExist (fs : storage.FileSystem) (date : Time)
    (err : GoError) (h : fs.openFile (fs.getDailyDataPath date) = .notExist err) :
    storage.FileStorer.Load fs date = ([], some storage.ErrDataNotFound) := by
  simp [storage.FileStorer.Load, h]

/-- With an empty baseline every built trend has the full star count as its diff. -/
theorem usecase.buildTrends_empty_baseline (todayData : List domain.Repository)
    (period : domain.TrendPeriod) :
    usecase.buildTrends todayData (usecase.pastDataMap []) period =
      todayData.map (fun repo => domain.NewTrend repo repo.Stars period) := by
  rw [usecase.buildTrends_eq_map]
  apply List.map_congr_left
  intro repo _
  rw [usecase.pastDataMap_index, baselineGet_of_absent [] repo.FullName (by simp),
    GoInt.sub_zero_eq]

/-- C5: when the baseline snapshot is empty, or its load fails with the not-found failure
(the data file of that day is missing), `Generate` goes on past the load: it ranks one
trend per current repository, each with `Diff` equal to the repository's full current star
count, goes on to create the dashboard file, hands exactly those trends to the presenter,
and returns no error when file creation and rendering succeed. -/
theorem C5_generate_empty_baseline (sortSort : sort.Sorter domain.Trend)
    (hc : sort.Contract sortSort) (env : usecase.GenerateEnv)
    (todayData : List domain.Repository)
    (htoday : env.storer.Load env.now = (todayData, none))
    (hpast : (env.storer.Load (env.now.AddDays (-7))).1 = [] ∨
      ∃ fs err, env.storer.Load = storage.FileStorer.Load fs ∧
        fs.openFile (fs.getDailyDataPath (env.now.AddDays (-7))) = .notExist err) :
    ∃ ranked rest,
      (usecase.Generate sortSort env).events =
        [.load env.now, .load (env.now.AddDays (-7)), .sortTrends ranked, .createFile]
          ++ rest ∧
      ranked.Perm
        (todayData.map (fun repo => domain.NewTrend repo repo.Stars domain.TrendWeekly)) ∧
      (∀ t ∈ ranked, t.Diff = t.Repository.Stars) ∧
      (∀ trends written, usecase.GenerateEvent.render trends written ∈ rest →
        trends = ranked) ∧
      (env.createFile = none → ∀ p, env.newPresenter = .ok p → (p.Render ranked).2 = none →
        (usecase.Generate sortSort env).err = none ∧
        rest = [.newPresenter, .render ranked (p.Render ranked).1]) := by
  have hempty : (env.storer.Load (env.now.AddDays (-7))).1 = [] := by
    rcases hpast with h | ⟨fs, err, hfs, hopen⟩
    · exact h
    · rw [hfs, storage.fileStorer_load_notExist fs _ err hopen]
  have hperm : (usecase.rankedTrends sortSort todayData [] domain.TrendWeekly).Perm
      (todayData.map (fun repo => domain.NewTrend repo repo.Stars domain.TrendWeekly)) := by
    unfold usecase.rankedTrends domain.SortTrends
    rw [usecase.buildTrends_empty_baseline]
    exact hc.perm _ _
  have hdiff : ∀ t ∈ usecase.rankedTrends sortSort todayData [] domain.TrendWeekly,
      t.Diff = t.Repository.Stars := by
    intro t ht
    obtain ⟨repo, _, rfl⟩ := List.mem_map.mp (hperm.subset ht)
    rfl
  cases hcreate : env.createFile with
  | some e =>
    refine ⟨usecase.rankedTrends sortSort todayData [] domain.TrendWeekly, [], ?_, hperm,
      hdiff, by simp, by simp⟩
    simp [usecase.Generate, htoday, hempty, hcreate]
  | none =>
    cases hpres : env.newPresenter with
    | error e =>
      refine ⟨usecase.rankedTrends sortSort todayData [] domain.TrendWeekly, [.newPresenter],
        ?_, hperm, hdiff, by simp, by simp⟩
      simp [usecase.Generate, htoday, hempty, hcreate, hpres]
    | ok p =>
      cases hr : p.Render (usecase.rankedTrends sortSort todayData [] domain.TrendWeekly) with
      | mk written rerr =>
        cases rerr with
        | some e =>
          refine ⟨usecase.rankedTrends sortSort todayData [] domain.TrendWeekly,
            [.newPresenter, .render
              (usecase.rankedTrends sortSort todayData [] domain.TrendWeekly) written],
            ?_, hperm, hdiff, by simp, ?_⟩
          · simp [usecase.Generate, htoday, hempty, hcreate, hpres, hr]
          · intro _ q hq hnone
            cases hq
            rw [hr] at hnone
            exact absurd hnone (by simp)
        | none =>
          refine ⟨usecase.rankedTrends sortSort todayData [] domain.TrendWeekly,
            [.newPresenter, .render
              (usecase.rankedTrends sortSort todayData [] domain.TrendWeekly) written],
            ?_, hperm, hdiff, by simp, ?_⟩
          · simp [usecase.Generate, htoday, hempty, hcreate, hpres, hr]
          · intro _ q hq _
            cases hq
            rw [hr]
            exact ⟨by simp [usecase.Generate, htoday, hempty, hcreate, hpres, hr], rfl⟩

theorem C5_generate_empty_baseline_witness :
    ∃ ranked rest,
      (usecase.Generate sort.insertionSort sample.firstRunEnv).events =
        [.load sample.firstRunEnv.now, .load (sample.firstRunEnv.now.AddDays (-7)),
          .sortTrends ranked, .createFile] ++ rest ∧
      ranked.Perm [domain.NewTrend (sample.repo "o/X" 42) (sample.repo "o/X" 42).Stars
        domain.TrendWeekly] := by
  obtain ⟨ranked, rest, h1, h2, _⟩ :=
    C5_generate_empty_baseline sort.insertionSort sort.insertionSort_contract
      sample.firstRunEnv [sample.repo "o/X" 42] rfl (Or.inl rfl)
  exact ⟨ranked, rest, h1, h2⟩

/-! ## Properties of `Update` -/

theorem usecase.updateInv_init (targetRepos : List String)
    (FetchStars : Nat → String → Except GoError domain.Repository) :
    UpdateInv targetRepos FetchStars usecase.UpdateState.init where
  perm := by simp [usecase.UpdateState.init]
  next_le := by simp [usecase.UpdateState.init]
  active_le := by simp [usecase.UpdateState.init, usecase.UpdateState.active]
  results_eq := by simp [usecase.UpdateState.init]

theorem usecase.length_erase_add_one (l : List Nat) (i : Nat) (h : i ∈ l) :
    (l.erase i).length + 1 = l.length := by
  have := List.length_erase_of_mem h
  have hpos : 0 < l.length := List.length_pos_of_mem h
  omega

/-- Every scheduler move keeps the invariant of the fan-out. -/
theorem usecase.updateInv_step (targetRepos : List String)
    (FetchStars : Nat → String → Except GoError domain.Repository)
    (s s2 : usecase.UpdateState) (st : usecase.UpdateStep)
    (hinv : UpdateInv targetRepos FetchStars s)
    (hstep : s.step targetRepos FetchStars st = some s2) :
    UpdateInv targetRepos FetchStars s2 := by
  obtain ⟨hperm, hle, hact, hres⟩ := hinv
  cases st with
  | spawn =>
    simp only [usecase.UpdateState.step] at hstep
    split at hstep
    · rename_i hc
      cases hstep
      refine ⟨?_, hc.1, ?_, hres⟩
      · simp only [List.range_succ]
        have h1 : (s.exited ++ (s.fetching ++ [s.next] ++ s.returned)).Perm
            ((s.exited ++ (s.fetching ++ s.returned)) ++ [s.next]) := by
          simp only [List.append_assoc]
          exact List.Perm.append_left _ (List.Perm.append_left _ List.perm_append_comm)
        exact h1.trans (hperm.append_right _)
      · have := hc.2
        simp only [usecase.UpdateState.active, List.length_append, List.length_singleton] at *
        omega
    · cases hstep
  | fetchReturn i =>
    simp only [usecase.UpdateState.step] at hstep
    split at hstep
    · rename_i hc
      cases hstep
      refine ⟨?_, hle, ?_, hres⟩
      · refine List.Perm.trans ?_ hperm
        refine List.Perm.append_left _ ?_
        have h1 : (s.fetching.erase i ++ (s.returned ++ [i])).Perm
            (i :: s.fetching.erase i ++ s.returned) := by
          have h2 : (s.returned ++ [i]).Perm (i :: s.returned) := List.perm_append_singleton _ _
          exact (List.Perm.append_left _ h2).trans (List.perm_middle)
        exact h1.trans ((List.perm_cons_erase hc).symm.append_right _)
      · have := usecase.length_erase_add_one _ _ hc
        simp only [usecase.UpdateState.active, List.length_append, List.length_singleton] at *
        omega
    · cases hstep
  | finish i =>
    simp only [usecase.UpdateState.step] at hstep
    split at hstep
    · rename_i hc
      have hpermNew : (s.exited ++ [i] ++ (s.fetching ++ s.returned.erase i)).Perm
          (List.range s.next) := by
        refine List.Perm.trans ?_ hperm
        simp only [List.append_assoc]
        refine List.Perm.append_left _ ?_
        have h1 : ([i] ++ (s.fetching ++ s.returned.erase i)).Perm
            (s.fetching ++ (i :: s.returned.erase i)) := by
          simpa using (@List.perm_middle _ i s.fetching (s.returned.erase i)).symm
        exact h1.trans (List.Perm.append_left _ (List.perm_cons_erase hc).symm)
      have hactNew : s.fetching.length + (s.returned.erase i).length ≤ usecase.fetchLimit := by
        have := usecase.length_erase_add_one _ _ hc
        simp only [usecase.UpdateState.active] at hact
        omega
      cases hf : FetchStars i (targetRepos.getD i "") with
      | error e =>
        have hfa : fetchedAt FetchStars targetRepos i = none := by
          unfold fetchedAt; rw [hf]
        rw [hf] at hstep
        cases hstep
        exact ⟨hpermNew, hle, hactNew, by simp [hres, List.filterMap_append, hfa]⟩
      | ok repo =>
        have hfa : fetchedAt FetchStars targetRepos i = some repo := by
          unfold fetchedAt; rw [hf]
        rw [hf] at hstep
        cases hstep
        exact ⟨hpermNew, hle, hactNew, by simp [hres, List.filterMap_append, hfa]⟩
    · cases hstep

theorem usecase.updateInv_run (targetRepos : List String)
    (FetchStars : Nat → String → Except GoError domain.Repository)
    (schedule : List usecase.UpdateStep) (s s2 : usecase.UpdateState)
    (hinv : UpdateInv targetRepos FetchStars s)
    (hrun : usecase.UpdateState.run targetRepos FetchStars s schedule = some s2) :
    UpdateInv targetRepos FetchStars s2 := by
  induction schedule generalizing s with
  | nil =>
    simp only [usecase.UpdateState.run] at hrun
    cases hrun
    exact hinv
  | cons st rest ih =>
    simp only [usecase.UpdateState.run] at hrun
    cases hs : s.step targetRepos FetchStars st with
    | none => rw [hs] at hrun; cases hrun
    | some s1 =>
      rw [hs] at hrun
      exact ih s1 (usecase.updateInv_step targetRepos FetchStars s s1 st hinv hs) hrun

/-- When `g.Wait()` returns, the channel holds exactly the successful fetches, in some
order. -/
theorem usecase.results_perm_of_finished (targetRepos : List String)
    (FetchStars : Nat → String → Except GoError domain.Repository) (s : usecase.UpdateState)
    (hinv : UpdateInv targetRepos FetchStars s) (hfin : s.finished targetRepos = true) :
    s.results.Perm (successfulFetches FetchStars targetRepos) := by
  simp only [usecase.UpdateState.finished, Bool.and_eq_true, beq_iff_eq,
    List.isEmpty_iff] at hfin
  obtain ⟨⟨hn, hf⟩, hr⟩ := hfin
  have hperm := hinv.perm
  rw [hf, hr, hn] at hperm
  simp only [List.append_nil] at hperm
  rw [hinv.results_eq]
  exact hperm.filterMap _

/-- Running the targets one after the other is a schedule of every run: from a state with
no goroutine active, it ends in a state in which `g.Wait()` returns. -/
theorem usecase.sequentialSchedule_runs (targetRepos : List String)
    (FetchStars : Nat → String → Except GoError domain.Repository) (k : Nat)
    (s : usecase.UpdateState) (hf : s.fetching = []) (hr : s.returned = [])
    (hn : s.next + k = targetRepos.length) :
    ∃ s2, usecase.UpdateState.run targetRepos FetchStars s
        (usecase.sequentialSchedule s.next k) = some s2 ∧
      s2.finished targetRepos = true := by
  induction k generalizing s with
  | zero =>
    refine ⟨s, rfl, ?_⟩
    simp [usecase.UpdateState.finished, hf, hr]
    omega
  | succ k ih =>
    have hlt : s.next < targetRepos.length := by omega
    have hact : s.active < usecase.fetchLimit := by
      simp [usecase.UpdateState.active, hf, hr, usecase.fetchLimit]
    cases hfetch : FetchStars s.next (targetRepos.getD s.next "") with
    | error e =>
      obtain ⟨s2, h2, h3⟩ := ih
        { s with next := s.next + 1, fetching := [], returned := [],
                 exited := s.exited ++ [s.next], warned := s.warned ++ [s.next] }
        rfl rfl (by simp only; omega)
      refine ⟨s2, ?_, h3⟩
      simp only [usecase.sequentialSchedule, usecase.UpdateState.run,
        usecase.UpdateState.step, hlt, hact, and_self, if_true, hf, hr, List.nil_append,
        List.mem_singleton, List.erase_cons_head, hfetch]
      exact h2
    | ok repo =>
      obtain ⟨s2, h2, h3⟩ := ih
        { s with next := s.next + 1, fetching := [], returned := [],
                 exited := s.exited ++ [s.next], results := s.results ++ [repo] }
        rfl rfl (by simp only; omega)
      refine ⟨s2, ?_, h3⟩
      simp only [usecase.sequentialSchedule, usecase.UpdateState.run,
        usecase.UpdateState.step, hlt, hact, and_self, if_true, hf, hr, List.nil_append,
        List.mem_singleton, List.erase_cons_head, hfetch]
      exact h2

theorem usecase.run_append (targetRepos : List String)
    (FetchStars : Nat → String → Except GoError domain.Repository)
    (a b : List usecase.UpdateStep) (s s1 : usecase.UpdateState)
    (h : usecase.UpdateState.run targetRepos FetchStars s a = some s1) :
    usecase.UpdateState.run targetRepos FetchStars s (a ++ b) =
      usecase.UpdateState.run targetRepos FetchStars s1 b := by
  induction a generalizing s with
  | nil =>
    simp only [usecase.UpdateState.run, Option.some.injEq] at h
    subst h
    rfl
  | cons st rest ih =>
    simp only [usecase.UpdateState.run, List.cons_append] at h ⊢
    cases hs : s.step targetRepos FetchStars st with
    | none => rw [hs] at h; cases h
    | some s0 =>
      rw [hs] at h
      exact ih s0 h

/-- The goroutines whose fetch has returned can all finish. -/
theorem usecase.drain_returned (targetRepos : List String)
    (FetchStars : Nat → String → Except GoError domain.Repository) (n : Nat) :
    ∀ s : usecase.UpdateState, s.returned.length = n →
      ∃ schedule s2, usecase.UpdateState.run targetRepos FetchStars s schedule = some s2 ∧
        s2.returned = [] ∧ s2.fetching = s.fetching ∧ s2.next = s.next := by
  induction n with
  | zero =>
    intro s hlen
    exact ⟨[], s, rfl, List.length_eq_zero.mp hlen, rfl, rfl⟩
  | succ n ih =>
    intro s hlen
    match hret : s.returned with
    | [] => rw [hret] at hlen; cases hlen
    | i :: r =>
      have hr : r.length = n := by rw [hret] at hlen; simpa using hlen
      cases hfetch : FetchStars i (targetRepos.getD i "") with
      | error e =>
        obtain ⟨sched, s2, h2, h3, h4, h5⟩ := ih
          { s with returned := r, exited := s.exited ++ [i], warned := s.warned ++ [i] } hr
        refine ⟨.finish i :: sched, s2, ?_, h3, h4, h5⟩
        simp only [usecase.UpdateState.run, usecase.UpdateState.step, hret,
          List.mem_cons, true_or, if_true, List.erase_cons_head, hfetch]
        exact h2
      | ok repo =>
        obtain ⟨sched, s2, h2, h3, h4, h5⟩ := ih
          { s with returned := r, exited := s.exited ++ [i], results := s.results ++ [repo] } hr
        refine ⟨.finish i :: sched, s2, ?_, h3, h4, h5⟩
        simp only [usecase.UpdateState.run, usecase.UpdateState.step, hret,
          List.mem_cons, true_or, if_true, List.erase_cons_head, hfetch]
        exact h2

/-- The goroutines inside `FetchStars` can all return and finish. -/
theorem usecase.drain_fetching (targetRepos : List String)
    (FetchStars : Nat → String → Except GoError domain.Repository) (n : Nat) :
    ∀ s : usecase.UpdateState, s.returned = [] → s.fetching.length = n →
      ∃ schedule s2, usecase.UpdateState.run targetRepos FetchStars s schedule = some s2 ∧
        s2.returned = [] ∧ s2.fetching = [] ∧ s2.next = s.next := by
  induction n with
  | zero =>
    intro s hr hlen
    exact ⟨[], s, rfl, hr, List.length_eq_zero.mp hlen, rfl⟩
  | succ n ih =>
    intro s hr hlen
    match hfet : s.fetching with
    | [] => rw [hfet] at hlen; cases hlen
    | i :: f =>
      have hf : f.length = n := by rw [hfet] at hlen; simpa using hlen
      cases hfetch : FetchStars i (targetRepos.getD i "") with
      | error e =>
        obtain ⟨sched, s2, h2, h3, h4, h5⟩ := ih
          { s with fetching := f, returned := [], exited := s.exited ++ [i],
                   warned := s.warned ++ [i] } rfl hf
        refine ⟨.fetchReturn i :: .finish i :: sched, s2, ?_, h3, h4, h5⟩
        simp only [usecase.UpdateState.run, usecase.UpdateState.step, hfet, hr,
          List.mem_cons, true_or, if_true, List.erase_cons_head, List.nil_append,
          List.mem_singleton, hfetch]
        exact h2
      | ok repo =>
        obtain ⟨sched, s2, h2, h3, h4, h5⟩ := ih
          { s with fetching := f, returned := [], exited := s.exited ++ [i],
                   results := s.results ++ [repo] } rfl hf
        refine ⟨.fetchReturn i :: .finish i :: sched, s2, ?_, h3, h4, h5⟩
        simp only [usecase.UpdateState.run, usecase.UpdateState.step, hfet, hr,
          List.mem_cons, true_or, if_true, List.erase_cons_head, List.nil_append,
          List.mem_singleton, hfetch]
        exact h2

/-- No state of the fan-out is stuck: from every state that a schedule can reach, some
further moves lead to a state in which `g.Wait()` returns. -/
theorem usecase.can_finish (targetRepos : List String)
    (FetchStars : Nat → String → Except GoError domain.Repository)
    (s : usecase.UpdateState) (hle : s.next ≤ targetRepos.length) :
    ∃ schedule s2, usecase.UpdateState.run targetRepos FetchStars s schedule = some s2 ∧
      s2.finished targetRepos = true := by
  obtain ⟨a, s1, ha, hr1, _, hn1⟩ :=
    usecase.drain_returned targetRepos FetchStars s.returned.length s rfl
  obtain ⟨b, s2, hb, hr2, hf2, hn2⟩ :=
    usecase.drain_fetching targetRepos FetchStars s1.fetching.length s1 hr1 rfl
  obtain ⟨s3, hc, hfin⟩ := usecase.sequentialSchedule_runs targetRepos FetchStars
    (targetRepos.length - s2.next) s2 hf2 hr2 (by omega)
  refine ⟨a ++ (b ++ usecase.sequentialSchedule s2.next (targetRepos.length - s2.next)),
    s3, ?_, hfin⟩
  rw [usecase.run_append targetRepos FetchStars a _ s s1 ha,
    usecase.run_append targetRepos FetchStars b _ s1 s2 hb]
  exact hc

/-- A state in which `g.Wait()` returns makes `Update` yield an outcome. -/
theorem usecase.update_isSome_of_finished (env : usecase.UpdateEnv)
    (targetRepos : List String) (hload : env.storer.LoadTargetRepos = (targetRepos, none))
    (schedule : List usecase.UpdateStep) (s : usecase.UpdateState)
    (hrun : usecase.UpdateState.run targetRepos env.FetchStars usecase.UpdateState.init
      schedule = some s)
    (hfin : s.finished targetRepos = true) :
    ∃ out, usecase.Update env schedule = some out := by
  have h : (usecase.Update env schedule).isSome = true := by
    by_cases hz : s.results.length = 0
    · simp [usecase.Update, hload, hrun, hfin, hz]
    · cases hsave : env.storer.Save env.now s.results with
      | some e => simp [usecase.Update, hload, hrun, hfin, hz, hsave]
      | none => simp [usecase.Update, hload, hrun, hfin, hz, hsave]
  exact Option.isSome_iff_exists.mp h

/-- Every scheduler move advances the fan-out by one: the count of targets handed out,
plus the fetches returned, plus twice the goroutines finished, grows by exactly one. -/
theorem usecase.step_progress (targetRepos : List String)
    (FetchStars : Nat → String → Except GoError domain.Repository)
    (s s2 : usecase.UpdateState) (st : usecase.UpdateStep)
    (hstep : s.step targetRepos FetchStars st = some s2) :
    s2.next + s2.returned.length + 2 * s2.exited.length =
      s.next + s.returned.length + 2 * s.exited.length + 1 := by
  cases st with
  | spawn =>
    simp only [usecase.UpdateState.step] at hstep
    split at hstep
    · cases hstep; simp only; omega
    · cases hstep
  | fetchReturn i =>
    simp only [usecase.UpdateState.step] at hstep
    split at hstep
    · cases hstep; simp only [List.length_append, List.length_singleton]; omega
    · cases hstep
  | finish i =>
    simp only [usecase.UpdateState.step] at hstep
    split at hstep
    · rename_i hc
      have hlen := usecase.length_erase_add_one _ _ hc
      cases hf : FetchStars i (targetRepos.getD i "") with
      | error e =>
        rw [hf] at hstep
        cases hstep
        simp only [List.length_append, List.length_singleton]
        omega
      | ok repo =>
        rw [hf] at hstep
        cases hstep
        simp only [List.length_append, List.length_singleton]
        omega
    · cases hstep

theorem usecase.run_progress (targetRepos : List String)
    (FetchStars : Nat → String → Except GoError domain.Repository)
    (schedule : List usecase.UpdateStep) (s s2 : usecase.UpdateState)
    (hrun : usecase.UpdateState.run targetRepos FetchStars s schedule = some s2) :
    s2.next + s2.returned.length + 2 * s2.exited.length =
      s.next + s.returned.length + 2 * s.exited.length + schedule.length := by
  induction schedule generalizing s with
  | nil =>
    simp only [usecase.UpdateState.run, Option.some.injEq] at hrun
    subst hrun
    simp
  | cons st rest ih =>
    simp only [usecase.UpdateState.run] at hrun
    cases hs : s.step targetRepos FetchStars st with
    | none => rw [hs] at hrun; cases hrun
    | some s1 =>
      rw [hs] at hrun
      have h1 := usecase.step_progress targetRepos FetchStars s s1 st hs
      have h2 := ih s1 hrun
      simp only [List.length_cons]
      omega

/-- The fan-out ends: no schedule of a run is longer than three moves per target. -/
theorem usecase.schedule_length_le (targetRepos : List String)
    (FetchStars : Nat → String → Except GoError domain.Repository)
    (schedule : List usecase.UpdateStep) (s : usecase.UpdateState)
    (hrun : usecase.UpdateState.run targetRepos FetchStars usecase.UpdateState.init
      schedule = some s) :
    schedule.length ≤ 3 * targetRepos.length := by
  have hinv := usecase.updateInv_run targetRepos FetchStars schedule _ s
    (usecase.updateInv_init targetRepos FetchStars) hrun
  have hp := usecase.run_progress targetRepos FetchStars schedule _ s hrun
  have hlen := hinv.perm.length_eq
  have hle := hinv.next_le
  simp only [List.length_append, List.length_range] at hlen
  simp only [usecase.UpdateState.init, List.length_nil] at hp
  omega

/-- `Update` returns, however the fan-out has been scheduled so far: every sequence of
moves the scheduler can make extends to a schedule under which `Update` yields an
outcome. -/
theorem usecase.update_completes (env : usecase.UpdateEnv)
    (before : List usecase.UpdateStep) (s : usecase.UpdateState)
    (hrun : usecase.UpdateState.run env.storer.LoadTargetRepos.1 env.FetchStars
      usecase.UpdateState.init before = some s) :
    ∃ rest out, usecase.Update env (before ++ rest) = some out := by
  cases hload : env.storer.LoadTargetRepos with
  | mk targetRepos lerr =>
    rw [hload] at hrun
    cases lerr with
    | some e =>
      have h : (usecase.Update env (before ++ [])).isSome = true := by
        simp [usecase.Update, hload]
      exact ⟨[], Option.isSome_iff_exists.mp h⟩
    | none =>
      have hinv := usecase.updateInv_run targetRepos env.FetchStars before _ s
        (usecase.updateInv_init targetRepos env.FetchStars) hrun
      obtain ⟨rest, s2, h2, hfin⟩ :=
        usecase.can_finish targetRepos env.FetchStars s hinv.next_le
      refine ⟨rest, usecase.update_isSome_of_finished env targetRepos hload _ s2 ?_ hfin⟩
      rw [usecase.run_append targetRepos env.FetchStars before rest _ s hrun]
      exact h2

/-- `Update` returns: every run has a schedule, and under it `Update` yields an outcome. -/
theorem usecase.update_returns (env : usecase.UpdateEnv) :
    ∃ schedule out, usecase.Update env schedule = some out := by
  obtain ⟨rest, out, h⟩ := usecase.update_completes env [] usecase.UpdateState.init rfl
  exact ⟨_, out, h⟩

/-- What `Update` does once the target list is loaded, under any schedule of the run. -/
theorem usecase.update_loaded (env : usecase.UpdateEnv) (targetRepos : List String)
    (hload : env.storer.LoadTargetRepos = (targetRepos, none))
    (schedule : List usecase.UpdateStep) (out : usecase.UpdateOutcome)
    (hrun : usecase.Update env schedule = some out) :
    ∃ saved, saved.Perm (successfulFetches env.FetchStars targetRepos) ∧
      ((saved = [] ∧ out.saveCalls = [] ∧ out.err = none) ∨
       (saved ≠ [] ∧ out.saveCalls = [(env.now, saved)] ∧
         ((env.storer.Save env.now saved = none ∧ out.err = none) ∨
          (∃ e, env.storer.Save env.now saved = some e ∧
            out.err = some (.wrapped "failed to save updated data: " e))))) := by
  simp only [usecase.Update, hload] at hrun
  cases hr : usecase.UpdateState.run targetRepos env.FetchStars usecase.UpdateState.init
      schedule with
  | none => rw [hr] at hrun; cases hrun
  | some s =>
    rw [hr] at hrun
    simp only at hrun
    have hinv := usecase.updateInv_run targetRepos env.FetchStars schedule _ s
      (usecase.updateInv_init targetRepos env.FetchStars) hr
    by_cases hfin : s.finished targetRepos = true
    · have hperm := usecase.results_perm_of_finished targetRepos env.FetchStars s hinv hfin
      simp only [hfin, if_true] at hrun
      refine ⟨s.results, hperm, ?_⟩
      by_cases hz : s.results.length = 0
      · left
        simp only [hz, beq_self_eq_true, if_true, Option.some.injEq] at hrun
        subst hrun
        exact ⟨List.length_eq_zero.mp hz, rfl, rfl⟩
      · right
        have hne : s.results ≠ [] := fun h => hz (by simp [h])
        have hz2 : (s.results.length == 0) = false := by simpa using hz
        simp only [hz2] at hrun
        cases hsave : env.storer.Save env.now s.results with
        | some e =>
          rw [hsave] at hrun
          simp only [Bool.false_eq_true, if_false, Option.some.injEq] at hrun
          subst hrun
          exact ⟨hne, rfl, Or.inr ⟨e, rfl, rfl⟩⟩
        | none =>
          rw [hsave] at hrun
          simp only [Bool.false_eq_true, if_false, Option.some.injEq] at hrun
          subst hrun
          exact ⟨hne, rfl, Or.inl ⟨rfl, rfl⟩⟩
    · simp only [hfin] at hrun
      cases hrun

/-- C9: when the target list loads and at least one fetch succeeds, `Update` returns
(whatever the scheduler has done so far, the fan-out can be completed, and it takes at
most three moves per target), and under every schedule of the fan-out it calls `Save`
exactly once, with a list that is a
rearrangement of the repositories returned by the successful fetches (one fetch per target
entry, failed entries left out, nothing added), and it returns no error when that `Save`
succeeds. -/
theorem C9_update_saves_successes (env : usecase.UpdateEnv) (targetRepos : List String)
    (hload : env.storer.LoadTargetRepos = (targetRepos, none))
    (hsome : ∃ i repo, i < targetRepos.length ∧
      env.FetchStars i (targetRepos.getD i "") = .ok repo) :
    (∀ before s, usecase.UpdateState.run targetRepos env.FetchStars usecase.UpdateState.init
        before = some s →
      before.length ≤ 3 * targetRepos.length ∧
      ∃ rest out, usecase.Update env (before ++ rest) = some out) ∧
    ∀ schedule out, usecase.Update env schedule = some out →
      ∃ saved, out.saveCalls = [(env.now, saved)] ∧
        saved.Perm (successfulFetches env.FetchStars targetRepos) ∧
        (env.storer.Save env.now saved = none → out.err = none) := by
  refine ⟨fun before s hb =>
    ⟨usecase.schedule_length_le targetRepos env.FetchStars before s hb,
     usecase.update_completes env before s (by rw [hload]; exact hb)⟩, ?_⟩
  intro schedule out hrun
  obtain ⟨saved, hperm, h⟩ := usecase.update_loaded env targetRepos hload schedule out hrun
  obtain ⟨i, repo, hi, hfetch⟩ := hsome
  have hmem : repo ∈ successfulFetches env.FetchStars targetRepos := by
    unfold successfulFetches
    rw [List.mem_filterMap]
    exact ⟨i, List.mem_range.mpr hi, by unfold fetchedAt; rw [hfetch]⟩
  have hne : saved ≠ [] := by
    intro he
    rw [he] at hperm
    rw [← hperm.nil_eq] at hmem
    cases hmem
  rcases h with ⟨he, _, _⟩ | ⟨_, hcalls, hs⟩
  · exact absurd he hne
  · refine ⟨saved, hcalls, hperm, ?_⟩
    intro hsave
    rcases hs with ⟨_, herr⟩ | ⟨e, he, _⟩
    · exact herr
    · rw [hsave] at he; cases he

theorem C9_update_saves_successes_witness :
    usecase.Update sample.fetchFailureEnv (usecase.sequentialSchedule 0 2)
      = some { saveCalls := [(sample.fetchFailureEnv.now, [sample.repo "owner/repo2" 200])],
               warned := [0], err := none } ∧
    ∃ saved, [(sample.fetchFailureEnv.now, [sample.repo "owner/repo2" 200])]
        = [(sample.fetchFailureEnv.now, saved)] ∧
      saved.Perm (successfulFetches sample.fetchFailureEnv.FetchStars
        ["owner/repo1", "owner/repo2"]) :=
  have hrun : usecase.Update sample.fetchFailureEnv (usecase.sequentialSchedule 0 2)
      = some { saveCalls := [(sample.fetchFailureEnv.now, [sample.repo "owner/repo2" 200])],
               warned := [0], err := none } := by decide
  have h := (C9_update_saves_successes sample.fetchFailureEnv ["owner/repo1", "owner/repo2"]
    rfl ⟨1, sample.repo "owner/repo2" 200, by decide, by decide⟩).2 _ _ hrun
  ⟨hrun, h.elim fun saved hs => ⟨saved, hs.1, hs.2.1⟩⟩

/-- C10: `Update` returns (whatever the scheduler has done so far, the fan-out can be
completed), and under every schedule of the fan-out it returns an error if
and only if loading the target list failed, or at least one fetch succeeded and the `Save`
it then made failed; so when the target list loads and `Save` does not fail, no
combination of fetch failures makes `Update` return an error. -/
theorem C10_update_error_iff (env : usecase.UpdateEnv) :
    (∀ before s, usecase.UpdateState.run env.storer.LoadTargetRepos.1 env.FetchStars
        usecase.UpdateState.init before = some s →
      before.length ≤ 3 * env.storer.LoadTargetRepos.1.length ∧
      ∃ rest out, usecase.Update env (before ++ rest) = some out) ∧
    ∀ schedule out, usecase.Update env schedule = some out →
      (out.err ≠ none ↔
        (env.storer.LoadTargetRepos.2 ≠ none ∨
          (successfulFetches env.FetchStars env.storer.LoadTargetRepos.1 ≠ [] ∧
            ∃ saved, out.saveCalls = [(env.now, saved)] ∧
              env.storer.Save env.now saved ≠ none))) ∧
      (env.storer.LoadTargetRepos.2 = none →
        (∀ saved, env.storer.Save env.now saved = none) → out.err = none) := by
  refine ⟨fun before s hb =>
    ⟨usecase.schedule_length_le _ env.FetchStars before s hb,
     usecase.update_completes env before s hb⟩, ?_⟩
  intro schedule out hrun
  cases hload : env.storer.LoadTargetRepos with
  | mk targetRepos lerr =>
    cases lerr with
    | some e =>
      simp only [usecase.Update, hload, Option.some.injEq] at hrun
      subst hrun
      simp
    | none =>
      obtain ⟨saved, hperm, h⟩ := usecase.update_loaded env targetRepos hload schedule out hrun
      rcases h with ⟨he, hcalls, herr⟩ | ⟨hne, hcalls, hs⟩
      · simp [herr, hcalls]
      · have hsucc : successfulFetches env.FetchStars targetRepos ≠ [] := by
          intro h0
          rw [h0] at hperm
          exact hne hperm.eq_nil
        rcases hs with ⟨hsave, herr⟩ | ⟨e, hsave, herr⟩
        · refine ⟨?_, fun _ _ => herr⟩
          simp only [herr, ne_eq, not_true_eq_false, false_iff, not_or, not_and, not_exists]
          refine ⟨by simp, fun _ saved2 hc => ?_⟩
          rw [hcalls] at hc
          simp only [List.cons.injEq, Prod.mk.injEq, true_and, and_true] at hc
          subst hc
          simp [hsave]
        · refine ⟨?_, fun _ hall => ?_⟩
          · simp only [herr, ne_eq, reduceCtorEq, not_false_eq_true, true_iff]
            right
            exact ⟨hsucc, saved, hcalls, by simp [hsave]⟩
          · rw [hall saved] at hsave; cases hsave

theorem C10_update_error_iff_witness :
    ∃ out, usecase.Update sample.saveFailsEnv (usecase.sequentialSchedule 0 2) = some out ∧
      out.err = some (.wrapped "failed to save updated data: " (.plain "disk full")) ∧
      (out.err ≠ none ↔
        (sample.saveFailsEnv.storer.LoadTargetRepos.2 ≠ none ∨
          (successfulFetches sample.saveFailsEnv.FetchStars
              sample.saveFailsEnv.storer.LoadTargetRepos.1 ≠ [] ∧
            ∃ saved, out.saveCalls = [(sample.saveFailsEnv.now, saved)] ∧
              sample.saveFailsEnv.storer.Save sample.saveFailsEnv.now saved ≠ none))) :=
  have hrun : usecase.Update sample.saveFailsEnv (usecase.sequentialSchedule 0 2)
      = some { saveCalls := [(sample.saveFailsEnv.now, [sample.repo "owner/repo2" 200])],
               warned := [0],
               err := some (.wrapped "failed to save updated data: " (.plain "disk full")) } := by
    decide
  ⟨_, hrun, rfl, ((C10_update_error_iff sample.saveFailsEnv).2 _ _ hrun).1⟩

/-! ## Further properties of `Update` -/

theorem successfulFetches_eq_nil (FetchStars : Nat → String → Except GoError domain.Repository)
    (targetRepos : List String)
    (h : targetRepos = [] ∨
      ∀ i, i < targetRepos.length → ∃ e, FetchStars i (targetRepos.getD i "") = .error e) :
    successfulFetches FetchStars targetRepos = [] := by
  unfold successfulFetches
  rcases h with h | h
  · simp [h]
  · rw [List.filterMap_eq_nil_iff]
    intro i hi
    obtain ⟨e, he⟩ := h i (List.mem_range.mp hi)
    unfold fetchedAt
    rw [he]

/-- C11: when the target list loads and no fetch succeeds, because the list is empty or
because every fetch fails, `Update` returns (the fan-out can always be completed), and
under every schedule it returns no error, with an empty result, and does not call `Save`. -/
theorem C11_update_no_success (env : usecase.UpdateEnv) (targetRepos : List String)
    (hload : env.storer.LoadTargetRepos = (targetRepos, none))
    (hnone : targetRepos = [] ∨
      ∀ i, i < targetRepos.length →
        ∃ e, env.FetchStars i (targetRepos.getD i "") = .error e) :
    (∀ before s, usecase.UpdateState.run targetRepos env.FetchStars usecase.UpdateState.init
        before = some s →
      s.results = [] ∧ ∃ rest out, usecase.Update env (before ++ rest) = some out) ∧
    ∀ schedule out, usecase.Update env schedule = some out →
      out.err = none ∧ out.saveCalls = [] := by
  have hsucc := successfulFetches_eq_nil env.FetchStars targetRepos hnone
  constructor
  · intro before s hb
    have hinv := usecase.updateInv_run targetRepos env.FetchStars before _ s
      (usecase.updateInv_init targetRepos env.FetchStars) hb
    refine ⟨?_, usecase.update_completes env before s (by rw [hload]; exact hb)⟩
    rw [hinv.results_eq, List.filterMap_eq_nil_iff]
    intro i hi
    have hi2 : i ∈ List.range s.next :=
      hinv.perm.subset (List.mem_append_left _ hi)
    have hi3 : i < targetRepos.length := by
      have := List.mem_range.mp hi2
      have := hinv.next_le
      omega
    have hall : ∀ j ∈ List.range targetRepos.length,
        fetchedAt env.FetchStars targetRepos j = none := by
      have := hsucc
      unfold successfulFetches at this
      rwa [List.filterMap_eq_nil_iff] at this
    exact hall i (List.mem_range.mpr hi3)
  · intro schedule out hrun
    obtain ⟨saved, hperm, h⟩ := usecase.update_loaded env targetRepos hload schedule out hrun
    rw [hsucc] at hperm
    have hs : saved = [] := hperm.eq_nil
    rcases h with ⟨_, hcalls, herr⟩ | ⟨hne, _, _⟩
    · exact ⟨herr, hcalls⟩
    · exact absurd hs hne

theorem C11_update_no_success_witness :
    (∃ out, usecase.Update sample.allFetchesFailEnv (usecase.sequentialSchedule 0 2)
        = some out ∧ out.warned = [0, 1] ∧ out.err = none ∧ out.saveCalls = []) ∧
    (∃ out, usecase.Update sample.noTargetsEnv [] = some out ∧
      out.err = none ∧ out.saveCalls = []) :=
  have h1 : usecase.Update sample.allFetchesFailEnv (usecase.sequentialSchedule 0 2)
      = some { saveCalls := [], warned := [0, 1], err := none } := by decide
  have h2 : usecase.Update sample.noTargetsEnv []
      = some { saveCalls := [], warned := [], err := none } := by decide
  ⟨⟨_, h1, rfl,
     (C11_update_no_success sample.allFetchesFailEnv ["owner/repo1", "owner/repo2"] rfl
       (Or.inr (fun _ _ => ⟨_, rfl⟩))).2 _ _ h1⟩,
   ⟨_, h2, (C11_update_no_success sample.noTargetsEnv [] rfl (Or.inl rfl)).2 _ _ h2⟩⟩

theorem usecase.run_prefix (targetRepos : List String)
    (FetchStars : Nat → String → Except GoError domain.Repository)
    (a b : List usecase.UpdateStep) (s s2 : usecase.UpdateState)
    (h : usecase.UpdateState.run targetRepos FetchStars s (a ++ b) = some s2) :
    ∃ s1, usecase.UpdateState.run targetRepos FetchStars s a = some s1 := by
  induction a generalizing s with
  | nil => exact ⟨s, rfl⟩
  | cons st rest ih =>
    simp only [usecase.UpdateState.run, List.cons_append] at h ⊢
    cases hs : s.step targetRepos FetchStars st with
    | none => rw [hs] at h; cases h
    | some s0 =>
      rw [hs] at h
      exact ih s0 h

/-- C12: at no moment of `Update` are more than `fetchLimit` (8) calls of `FetchStars` in
flight: after every number of moves of every schedule, for any target list and any fetch
outcomes, the goroutines inside `FetchStars` are at most 8, and so are the goroutines
holding a slot of the group; a ninth goroutine cannot be started while 8 are active. -/
theorem C12_update_fetch_cap (targetRepos : List String)
    (FetchStars : Nat → String → Except GoError domain.Repository)
    (schedule : List usecase.UpdateStep) (s : usecase.UpdateState)
    (hrun : usecase.UpdateState.run targetRepos FetchStars usecase.UpdateState.init
      schedule = some s) :
    (∀ k, ∃ sk, usecase.UpdateState.run targetRepos FetchStars usecase.UpdateState.init
        (schedule.take k) = some sk ∧
      sk.fetching.length ≤ usecase.fetchLimit ∧ sk.active ≤ usecase.fetchLimit) ∧
    s.fetching.length ≤ 8 ∧
    (s.active = usecase.fetchLimit → s.step targetRepos FetchStars .spawn = none) := by
  have hall : ∀ (sch : List usecase.UpdateStep) (t : usecase.UpdateState),
      usecase.UpdateState.run targetRepos FetchStars usecase.UpdateState.init sch = some t →
      t.fetching.length ≤ usecase.fetchLimit ∧ t.active ≤ usecase.fetchLimit := by
    intro sch t ht
    have hinv := usecase.updateInv_run targetRepos FetchStars sch _ t
      (usecase.updateInv_init targetRepos FetchStars) ht
    have := hinv.active_le
    simp only [usecase.UpdateState.active] at this ⊢
    omega
  refine ⟨?_, (hall schedule s hrun).1, ?_⟩
  · intro k
    have hsplit : schedule.take k ++ schedule.drop k = schedule := List.take_append_drop k _
    rw [← hsplit] at hrun
    obtain ⟨sk, hk⟩ := usecase.run_prefix targetRepos FetchStars _ _ _ s hrun
    exact ⟨sk, hk, hall _ sk hk⟩
  · intro hfull
    simp [usecase.UpdateState.step, hfull]

theorem C12_update_fetch_cap_witness :
    usecase.UpdateState.run sample.nineTargets (fun _ name => .ok (sample.repo name 1))
        usecase.UpdateState.init (List.replicate 8 .spawn)
      = some { next := 8, fetching := [0, 1, 2, 3, 4, 5, 6, 7], returned := [], exited := [],
               results := [], warned := [] } ∧
    usecase.UpdateState.run sample.nineTargets (fun _ name => .ok (sample.repo name 1))
        usecase.UpdateState.init (List.replicate 9 .spawn) = none ∧
    [0, 1, 2, 3, 4, 5, 6, 7].length ≤ 8 :=
  have h : usecase.UpdateState.run sample.nineTargets (fun _ name => .ok (sample.repo name 1))
        usecase.UpdateState.init (List.replicate 8 .spawn)
      = some { next := 8, fetching := [0, 1, 2, 3, 4, 5, 6, 7], returned := [], exited := [],
               results := [], warned := [] } := by decide
  ⟨h, by decide,
   (C12_update_fetch_cap sample.nineTargets (fun _ name => .ok (sample.repo name 1))
     (List.replicate 8 .spawn) _ h).2.1⟩

/-! ## Further properties of the ranking -/

theorem usecase.rankedTrends_perm (sortSort : sort.Sorter domain.Trend)
    (hc : sort.Contract sortSort) (todayData pastData : List domain.Repository)
    (period : domain.TrendPeriod) :
    (usecase.rankedTrends sortSort todayData pastData period).Perm
      (usecase.buildTrends todayData (usecase.pastDataMap pastData) period) :=
  hc.perm _ _

theorem usecase.rankedTrends_pairwise (sortSort : sort.Sorter domain.Trend)
    (hc : sort.Contract sortSort) (todayData pastData : List domain.Repository)
    (period : domain.TrendPeriod) :
    (usecase.rankedTrends sortSort todayData pastData period).Pairwise
      (fun a b => b.Diff.val ≤ a.Diff.val) := by
  have hs := hc.sorted domain.ByStarsDiff.Less domain.byStarsDiff_less_strictWeak
    (usecase.buildTrends todayData (usecase.pastDataMap pastData) period)
  refine List.Pairwise.imp ?_ hs
  intro a b h
  simp only [domain.ByStarsDiff.Less, GoInt.gt, decide_eq_false_iff_not] at h
  omega

/-- C13, as the claim states it, fails on ties: in the current snapshot `[A, B]` with equal
diffs each of the two has a diff at least that of every other entity, yet only one of
their trends can be at position 0. No routine behind `sort.Sort` can rank both first. -/
theorem C13_max_diff_first_counterexample :
    ¬ ∃ sortSort : sort.Sorter domain.Trend,
        ∀ (i : Nat) (t : domain.Trend),
          (usecase.buildTrends [sample.repo "o/A" 10, sample.repo "o/B" 10]
            (usecase.pastDataMap []) domain.TrendWeekly)[i]? = some t →
          (∀ (j : Nat) (u : domain.Trend), j ≠ i →
            (usecase.buildTrends [sample.repo "o/A" 10, sample.repo "o/B" 10]
              (usecase.pastDataMap []) domain.TrendWeekly)[j]? = some u →
            u.Diff.val ≤ t.Diff.val) →
          (usecase.rankedTrends sortSort [sample.repo "o/A" 10, sample.repo "o/B" 10] []
            domain.TrendWeekly)[0]? = some t := by
  rintro ⟨sortSort, h⟩
  have hbuilt : usecase.buildTrends [sample.repo "o/A" 10, sample.repo "o/B" 10]
      (usecase.pastDataMap []) domain.TrendWeekly =
      [domain.NewTrend (sample.repo "o/A" 10) (GoInt.ofInt 10) domain.TrendWeekly,
       domain.NewTrend (sample.repo "o/B" 10) (GoInt.ofInt 10) domain.TrendWeekly] := by
    decide
  rw [hbuilt] at h
  have hle : ∀ (j : Nat) (u : domain.Trend),
      [domain.NewTrend (sample.repo "o/A" 10) (GoInt.ofInt 10) domain.TrendWeekly,
       domain.NewTrend (sample.repo "o/B" 10) (GoInt.ofInt 10) domain.TrendWeekly][j]?
        = some u → u.Diff.val ≤ 10 := by
    intro j u hu
    have hmem := List.getElem?_mem hu
    simp only [List.mem_cons, List.mem_singleton, List.not_mem_nil, or_false] at hmem
    rcases hmem with rfl | rfl <;> decide
  have hA := h 0 (domain.NewTrend (sample.repo "o/A" 10) (GoInt.ofInt 10) domain.TrendWeekly)
    rfl (fun j u _ hu => hle j u hu)
  have hB := h 1 (domain.NewTrend (sample.repo "o/B" 10) (GoInt.ofInt 10) domain.TrendWeekly)
    rfl (fun j u _ hu => hle j u hu)
  rw [hA] at hB
  revert hB
  decide

/-- C13, amended: for every routine that meets the contract of `sort.Sort`, the trend at
position 0 of the ranked output has a diff at least that of every trend, and an entity
whose diff is strictly greater than the diff of every other entity of the current snapshot
has its trend at position 0 (baseline 100 against current 180 gives diff 80, ranked first
when every other diff is below 80). -/
theorem C13_strict_max_first (sortSort : sort.Sorter domain.Trend)
    (hc : sort.Contract sortSort) (todayData pastData : List domain.Repository)
    (period : domain.TrendPeriod) (i : Nat) (t : domain.Trend)
    (hi : (usecase.buildTrends todayData (usecase.pastDataMap pastData) period)[i]?
      = some t) :
    (∃ first, (usecase.rankedTrends sortSort todayData pastData period)[0]? = some first ∧
      ∀ u ∈ usecase.buildTrends todayData (usecase.pastDataMap pastData) period,
        u.Diff.val ≤ first.Diff.val) ∧
    ((∀ (j : Nat) (u : domain.Trend), j ≠ i →
        (usecase.buildTrends todayData (usecase.pastDataMap pastData) period)[j]? = some u →
        u.Diff.val < t.Diff.val) →
      (usecase.rankedTrends sortSort todayData pastData period)[0]? = some t) := by
  have hperm := usecase.rankedTrends_perm sortSort hc todayData pastData period
  have hpw := usecase.rankedTrends_pairwise sortSort hc todayData pastData period
  have htmem : t ∈ usecase.rankedTrends sortSort todayData pastData period :=
    hperm.symm.subset (List.getElem?_mem hi)
  match hr : usecase.rankedTrends sortSort todayData pastData period with
  | [] => rw [hr] at htmem; cases htmem
  | first :: rest =>
    rw [hr] at hperm hpw htmem
    have hfirst : ∀ u ∈ usecase.buildTrends todayData (usecase.pastDataMap pastData) period,
        u.Diff.val ≤ first.Diff.val := by
      intro u hu
      have hu2 : u ∈ first :: rest := hperm.symm.subset hu
      rcases List.mem_cons.mp hu2 with rfl | hu3
      · exact le_refl _
      · exact (List.pairwise_cons.mp hpw).1 u hu3
    refine ⟨⟨first, by simp, hfirst⟩, ?_⟩
    intro hstrict
    have hfmem : first ∈ usecase.buildTrends todayData (usecase.pastDataMap pastData)
        period := hperm.subset (List.mem_cons_self _ _)
    obtain ⟨j, hj⟩ := List.getElem?_of_mem hfmem
    by_cases hji : j = i
    · subst hji
      rw [hi] at hj
      simp only [List.getElem?_cons_zero]
      exact hj.symm
    · have h1 := hstrict j first hji hj
      have h2 := hfirst t (List.getElem?_mem hi)
      omega

theorem C13_strict_max_first_witness :
    (usecase.rankedTrends sort.insertionSort
        [sample.repo "o/r2" 50, sample.repo "o/r1" 180] [sample.repo "o/r1" 100]
        domain.TrendWeekly)[0]?
      = some (domain.NewTrend (sample.repo "o/r1" 180) (GoInt.ofInt 80) domain.TrendWeekly) :=
  (C13_strict_max_first sort.insertionSort sort.insertionSort_contract
    [sample.repo "o/r2" 50, sample.repo "o/r1" 180] [sample.repo "o/r1" 100]
    domain.TrendWeekly 1
    (domain.NewTrend (sample.repo "o/r1" 180) (GoInt.ofInt 80) domain.TrendWeekly)
    (by decide)).2
    (by
      intro j u hj hu
      have hbuilt : usecase.buildTrends [sample.repo "o/r2" 50, sample.repo "o/r1" 180]
          (usecase.pastDataMap [sample.repo "o/r1" 100]) domain.TrendWeekly =
          [domain.NewTrend (sample.repo "o/r2" 50) (GoInt.ofInt 50) domain.TrendWeekly,
           domain.NewTrend (sample.repo "o/r1" 180) (GoInt.ofInt 80) domain.TrendWeekly] := by
        decide
      rw [hbuilt] at hu
      match j, hj, hu with
      | 0, _, hu =>
        simp only [List.getElem?_cons_zero, Option.some.injEq] at hu
        subst hu
        decide
      | 1, hj, _ => exact absurd rfl hj
      | j + 2, _, hu => simp at hu)

/-! ## The baseline is read by identity -/

theorem baselineGet_of_mem_nodup (baseline : List domain.Repository) (r : domain.Repository)
    (hr : r ∈ baseline) (hn : (baseline.map (fun x => x.FullName)).Nodup) :
    baselineGet baseline r.FullName = r.Stars := by
  obtain ⟨pre, post, rfl⟩ := List.append_of_mem hr
  apply baselineGet_last
  intro q hq hqr
  simp only [List.map_append, List.map_cons] at hn
  have h2 := (List.nodup_append.mp hn).2.1
  have h3 := (List.nodup_cons.mp h2).1
  exact h3 (List.mem_map.mpr ⟨q, hq, hqr⟩)

/-- Two baselines with the same entries in different orders, each name at most once, give
the same lookup. -/
theorem baselineGet_perm (p1 p2 : List domain.Repository) (hperm : p1.Perm p2)
    (hn : (p1.map (fun x => x.FullName)).Nodup) (q : String) :
    baselineGet p1 q = baselineGet p2 q := by
  have hn2 : (p2.map (fun x => x.FullName)).Nodup := (hperm.map _).nodup_iff.mp hn
  by_cases h : ∃ r ∈ p1, r.FullName = q
  · obtain ⟨r, hr, rfl⟩ := h
    rw [baselineGet_of_mem_nodup p1 r hr hn,
      baselineGet_of_mem_nodup p2 r (hperm.subset hr) hn2]
  · have h1 : ∀ r ∈ p1, r.FullName ≠ q := fun r hr hq => h ⟨r, hr, hq⟩
    have h2 : ∀ r ∈ p2, r.FullName ≠ q := fun r hr hq => h ⟨r, hperm.symm.subset hr, hq⟩
    rw [baselineGet_of_absent p1 q h1, baselineGet_of_absent p2 q h2]

theorem usecase.buildTrends_perm_baseline (todayData p1 p2 : List domain.Repository)
    (period : domain.TrendPeriod) (hperm : p1.Perm p2)
    (hn : (p1.map (fun x => x.FullName)).Nodup) :
    usecase.buildTrends todayData (usecase.pastDataMap p1) period =
      usecase.buildTrends todayData (usecase.pastDataMap p2) period := by
  rw [usecase.buildTrends_eq_map, usecase.buildTrends_eq_map]
  apply List.map_congr_left
  intro repo _
  rw [usecase.pastDataMap_index, usecase.pastDataMap_index,
    baselineGet_perm p1 p2 hperm hn]

/-- C14: the trend computation reads the baseline by identity, not by position: for every
current snapshot and every two baselines that are rearrangements of each other with no
`FullName` twice, the ranked trends are the same list, and so is everything `Generate`
does and returns. -/
theorem C14_baseline_order_irrelevant (sortSort : sort.Sorter domain.Trend)
    (todayData p1 p2 : List domain.Repository) (hperm : p1.Perm p2)
    (hn : (p1.map (fun x => x.FullName)).Nodup) :
    (∀ period, usecase.rankedTrends sortSort todayData p1 period =
      usecase.rankedTrends sortSort todayData p2 period) ∧
    ∀ env1 env2 : usecase.GenerateEnv,
      env1.now = env2.now → env1.createFile = env2.createFile →
      env1.newPresenter = env2.newPresenter →
      env1.storer.Load env1.now = (todayData, none) →
      env2.storer.Load env2.now = (todayData, none) →
      (env1.storer.Load (env1.now.AddDays (-7))).1 = p1 →
      (env2.storer.Load (env2.now.AddDays (-7))).1 = p2 →
      usecase.Generate sortSort env1 = usecase.Generate sortSort env2 := by
  have hr : ∀ period, usecase.rankedTrends sortSort todayData p1 period =
      usecase.rankedTrends sortSort todayData p2 period := by
    intro period
    unfold usecase.rankedTrends
    rw [usecase.buildTrends_perm_baseline todayData p1 p2 period hperm hn]
  refine ⟨hr, ?_⟩
  intro env1 env2 hnow hcreate hpres h1 h2 hp1 hp2
  obtain ⟨now1, storer1, create1, pres1⟩ := env1
  obtain ⟨now2, storer2, create2, pres2⟩ := env2
  simp only at hnow hcreate hpres h1 h2 hp1 hp2
  subst hnow hcreate hpres
  simp only [usecase.Generate, h1, h2, hp1, hp2, hr]

theorem C14_baseline_order_irrelevant_witness :
    usecase.rankedTrends sort.insertionSort [sample.repo "o/A" 10, sample.repo "o/B" 10]
        [sample.repo "o/A" 5, sample.repo "o/B" 7] domain.TrendWeekly =
      usecase.rankedTrends sort.insertionSort [sample.repo "o/A" 10, sample.repo "o/B" 10]
        [sample.repo "o/B" 7, sample.repo "o/A" 5] domain.TrendWeekly :=
  (C14_baseline_order_irrelevant sort.insertionSort
    [sample.repo "o/A" 10, sample.repo "o/B" 10]
    [sample.repo "o/A" 5, sample.repo "o/B" 7] [sample.repo "o/B" 7, sample.repo "o/A" 5]
    (List.Perm.swap _ _ _) (by decide)).1 domain.TrendWeekly

/-! ## What `Load` lets through -/

/-- A repository built by `NewRepository` satisfies the invariant. -/
theorem domain.newRepository_invariant (fullName : String) (stars : GoInt)
    (repo : domain.Repository) (h : domain.NewRepository fullName stars = .ok repo) :
    RepositoryInvariant repo := by
  unfold domain.NewRepository at h
  split at h
  · cases h
  · rename_i hrej
    split at h
    · cases h
    · rename_i hs
      cases h
      exact ⟨(domain.nameRejected_eq_false_iff fullName).mp (by simpa using hrej),
        by simp only; omega⟩

/-- C15 fails on the code: `FileStorer.Load` returns what the JSON decoder yields and never
passes it through `NewRepository`. The data file of day 10 holding
`[{"FullName":"bad","Stars":-5}]` is loaded without error as the one entry `bad` with -5
stars; that entry breaks the invariant, `NewRepository` rejects its name, and `Generate`
builds, ranks and renders a trend for it. -/
theorem C15_load_returns_unvalidated :
    sample.editedDir.openFile (sample.editedDir.getDailyDataPath { day := 10, clock := 0 })
      = .opened "[\x7b\"FullName\":\"bad\",\"Stars\":-5\x7d]" ∧
    storage.FileStorer.Load sample.editedDir { day := 10, clock := 0 }
      = ([sample.repo "bad" (-5)], none) ∧
    ¬ RepositoryInvariant (sample.repo "bad" (-5)) ∧
    ¬ IsOwnerSlashName "bad" ∧
    domain.NewRepository "bad" (GoInt.ofInt (-5))
      = .error (.plain "invalid repository full name format: bad") ∧
    (usecase.Generate sort.insertionSort sample.editedEnv).events =
      [.load { day := 10, clock := 0 }, .load { day := 3, clock := 0 },
       .sortTrends [domain.NewTrend (sample.repo "bad" (-5)) (GoInt.ofInt (-5))
         domain.TrendWeekly],
       .createFile, .newPresenter,
       .render [domain.NewTrend (sample.repo "bad" (-5)) (GoInt.ofInt (-5))
         domain.TrendWeekly] ""] ∧
    ¬ (∀ (fs : storage.FileSystem) (date : Time),
        ∀ r ∈ (storage.FileStorer.Load fs date).1, RepositoryInvariant r) := by
  have hload : storage.FileStorer.Load sample.editedDir { day := 10, clock := 0 }
      = ([sample.repo "bad" (-5)], none) := by decide
  have hbad : ¬ RepositoryInvariant (sample.repo "bad" (-5)) := by
    intro h
    have := h.2
    revert this
    decide
  have hname : ¬ IsOwnerSlashName "bad" := by
    intro h
    have hrej := (domain.nameRejected_eq_false_iff "bad").mpr h
    revert hrej
    decide
  refine ⟨by decide, hload, hbad, hname, by decide, by decide, ?_⟩
  intro h
  have := h sample.editedDir { day := 10, clock := 0 } (sample.repo "bad" (-5))
    (by rw [hload]; simp)
  exact hbad this

/-! ## Failures of the two loads in `Generate` -/

/-- Whatever goes wrong in `FileStorer.Load`, it returns no data next to the error. -/
theorem storage.fileStorer_load_error_no_data (fs : storage.FileSystem) (date : Time)
    (h : (storage.FileStorer.Load fs date).2 ≠ none) :
    (storage.FileStorer.Load fs date).1 = [] := by
  cases hopen : fs.openFile (fs.getDailyDataPath date) with
  | notExist e => simp [storage.FileStorer.Load, hopen]
  | failed e => simp [storage.FileStorer.Load, hopen]
  | opened content =>
    cases hdec : fs.decodeRepos content with
    | error e => simp [storage.FileStorer.Load, hopen, hdec]
    | ok repos => simp [storage.FileStorer.Load, hopen, hdec] at h

/-- What `Generate` does once today's snapshot is loaded: it depends on the baseline load
through the data only, never through its error. -/
theorem usecase.generate_loaded (sortSort : sort.Sorter domain.Trend)
    (env : usecase.GenerateEnv) (todayData : List domain.Repository)
    (htoday : env.storer.Load env.now = (todayData, none)) :
    usecase.Generate sortSort env =
      match env.createFile with
      | some err =>
        { events := [.load env.now, .load (env.now.AddDays (-7)),
            .sortTrends (usecase.rankedTrends sortSort todayData
              (env.storer.Load (env.now.AddDays (-7))).1 domain.TrendWeekly), .createFile],
          err := some (.wrapped "failed to create dashboard file: " err) }
      | none =>
        match env.newPresenter with
        | .error err =>
          { events := [.load env.now, .load (env.now.AddDays (-7)),
              .sortTrends (usecase.rankedTrends sortSort todayData
                (env.storer.Load (env.now.AddDays (-7))).1 domain.TrendWeekly), .createFile,
              .newPresenter],
            err := some err }
        | .ok p =>
          { events := [.load env.now, .load (env.now.AddDays (-7)),
              .sortTrends (usecase.rankedTrends sortSort todayData
                (env.storer.Load (env.now.AddDays (-7))).1 domain.TrendWeekly), .createFile,
              .newPresenter,
              .render (usecase.rankedTrends sortSort todayData
                (env.storer.Load (env.now.AddDays (-7))).1 domain.TrendWeekly)
                (p.Render (usecase.rankedTrends sortSort todayData
                  (env.storer.Load (env.now.AddDays (-7))).1 domain.TrendWeekly)).1],
            err := (p.Render (usecase.rankedTrends sortSort todayData
                (env.storer.Load (env.now.AddDays (-7))).1 domain.TrendWeekly)).2.map
              (GoError.wrapped "failed to render dashboard: ") } := by
  simp only [usecase.Generate, htoday]
  cases env.createFile with
  | some e => rfl
  | none =>
    cases env.newPresenter with
    | error e => rfl
    | ok p =>
      simp only
      cases hr : p.Render (usecase.rankedTrends sortSort todayData
          (env.storer.Load (env.now.AddDays (-7))).1 domain.TrendWeekly) with
      | mk written rerr =>
        cases rerr <;> rfl

/-- C16, as the claim states it, fails: a baseline file that does not decode makes
`FileStorer.Load` fail with an error other than not-found, and `Generate` still produces
the dashboard and returns no error. -/
theorem C16_baseline_other_failure_counterexample :
    storage.FileStorer.Load sample.brokenBaselineDir { day := 3, clock := 0 }
      = ([], some (.wrapped "could not decode JSON data from 'data/3.json': "
          (.plain "unexpected EOF"))) ∧
    usecase.Generate sort.insertionSort sample.brokenBaselineEnv =
      { events := [.load { day := 10, clock := 0 }, .load { day := 3, clock := 0 },
          .sortTrends [domain.NewTrend (sample.repo "o/X" 42) (GoInt.ofInt 42)
            domain.TrendWeekly],
          .createFile, .newPresenter,
          .render [domain.NewTrend (sample.repo "o/X" 42) (GoInt.ofInt 42)
            domain.TrendWeekly] ""],
        err := none } := by
  constructor <;> decide

/-- C16, amended: every failure of the baseline load is recovered, not-found or other:
once today's snapshot is loaded, `Generate` behaves exactly as if the baseline load had
returned the same data without an error; it returns no error if and only if creating the
file, building the presenter and rendering succeed; and a failed `FileStorer.Load` returns
no data, so the baseline is then empty. -/
theorem C16_baseline_failure_ignored (sortSort : sort.Sorter domain.Trend)
    (env : usecase.GenerateEnv) (todayData : List domain.Repository)
    (htoday : env.storer.Load env.now = (todayData, none)) :
    (∀ env2 : usecase.GenerateEnv, env2.now = env.now → env2.createFile = env.createFile →
      env2.newPresenter = env.newPresenter →
      env2.storer.Load env2.now = (todayData, none) →
      env2.storer.Load (env2.now.AddDays (-7))
        = ((env.storer.Load (env.now.AddDays (-7))).1, none) →
      usecase.Generate sortSort env2 = usecase.Generate sortSort env) ∧
    ((usecase.Generate sortSort env).err = none ↔
      (env.createFile = none ∧ ∃ p, env.newPresenter = .ok p ∧
        (p.Render (usecase.rankedTrends sortSort todayData
          (env.storer.Load (env.now.AddDays (-7))).1 domain.TrendWeekly)).2 = none)) ∧
    (∀ fs, env.storer.Load = storage.FileStorer.Load fs →
      (env.storer.Load (env.now.AddDays (-7))).2 ≠ none →
      (env.storer.Load (env.now.AddDays (-7))).1 = []) := by
  refine ⟨?_, ?_, ?_⟩
  · intro env2 hnow hcreate hpres h2 hpast
    rw [usecase.generate_loaded sortSort env todayData htoday,
      usecase.generate_loaded sortSort env2 todayData h2, hpast, hnow, hcreate, hpres]
  · rw [usecase.generate_loaded sortSort env todayData htoday]
    cases env.createFile with
    | some e => simp
    | none =>
      cases env.newPresenter with
      | error e => simp
      | ok p => simp
  · intro fs hfs hne
    rw [hfs] at hne ⊢
    exact storage.fileStorer_load_error_no_data fs _ hne

theorem C16_baseline_failure_ignored_witness :
    (usecase.Generate sort.insertionSort sample.brokenBaselineEnv).err = none :=
  (C16_baseline_failure_ignored sort.insertionSort sample.brokenBaselineEnv
    [sample.repo "o/X" 42] (by decide)).2.1.mpr
    ⟨rfl, { Render := fun _ => ("", none) }, rfl, rfl⟩

/-- C17: if loading today's snapshot fails for any reason, not-found included, `Generate`
returns an error that wraps that failure, and the load of today's snapshot is the only
thing it has done: it has not loaded the baseline, computed or ranked a trend, or created
the dashboard file. -/
theorem C17_today_load_failure (sortSort : sort.Sorter domain.Trend)
    (env : usecase.GenerateEnv) (data : List domain.Repository) (err : GoError)
    (hload : env.storer.Load env.now = (data, some err)) :
    (usecase.Generate sortSort env).events = [.load env.now] ∧
    (usecase.Generate sortSort env).err
      = some (.wrapped "failed to load today's data: " err) ∧
    ((usecase.Generate sortSort env).err.bind GoError.Unwrap = some err) ∧
    (∃ e, (usecase.Generate sortSort env).err = some e ∧
      e.Error = "failed to load today's data: " ++ err.Error) ∧
    usecase.GenerateEvent.load (env.now.AddDays (-7)) ∉ (usecase.Generate sortSort env).events ∧
    usecase.GenerateEvent.createFile ∉ (usecase.Generate sortSort env).events ∧
    (∀ ranked, usecase.GenerateEvent.sortTrends ranked ∉
      (usecase.Generate sortSort env).events) := by
  have h : usecase.Generate sortSort env =
      { events := [.load env.now],
        err := some (.wrapped "failed to load today's data: " err) } := by
    simp only [usecase.Generate, hload]
  rw [h]
  refine ⟨rfl, rfl, rfl, ⟨_, rfl, rfl⟩, ?_, by simp, by simp⟩
  simp only [List.mem_singleton, usecase.GenerateEvent.load.injEq]
  intro heq
  have := congrArg Time.day heq
  simp only [Time.AddDays] at this
  omega

theorem C17_today_load_failure_witness :
    usecase.Generate sort.insertionSort sample.noDataEnv =
      { events := [.load { day := 11, clock := 0 }],
        err := some (.wrapped "failed to load today's data: " storage.ErrDataNotFound) } ∧
    (usecase.Generate sort.insertionSort sample.noDataEnv).err
      = some (.wrapped "failed to load today's data: " storage.ErrDataNotFound) :=
  ⟨by decide,
   (C17_today_load_failure sort.insertionSort sample.noDataEnv []
     storage.ErrDataNotFound (by decide)).2.1⟩

/-! ## Properties of `Client.FetchStars` -/

/-- `Client.FetchStars` with its name test written as the name test of `NewRepository`,
which it is, expression for expression. -/
theorem github.fetchStars_eq (get : String → String → Except GoError GoInt)
    (repoName : String) :
    github.Client.FetchStars get repoName =
      if domain.nameRejected repoName then
        { apiCalls := [], result := domain.NewRepository repoName GoInt.zero }
      else
        match get (String.mk ((strings.Split repoName.data '/').getD 0 []))
            (String.mk ((strings.Split repoName.data '/').getD 1 [])) with
        | .error err =>
          if err.isGithubRateLimit then
            { apiCalls := [(String.mk ((strings.Split repoName.data '/').getD 0 []),
                String.mk ((strings.Split repoName.data '/').getD 1 []))],
              result := .error (.rateLimitError repoName err) }
          else
            { apiCalls := [(String.mk ((strings.Split repoName.data '/').getD 0 []),
                String.mk ((strings.Split repoName.data '/').getD 1 []))],
              result := .error (.fetchError repoName err) }
        | .ok stars =>
          { apiCalls := [(String.mk ((strings.Split repoName.data '/').getD 0 []),
              String.mk ((strings.Split repoName.data '/').getD 1 []))],
            result := domain.NewRepository repoName stars } := rfl

theorem github.fetchStars_of_rejected (get : String → String → Except GoError GoInt)
    (repoName : String) (h : domain.nameRejected repoName = true) :
    github.Client.FetchStars get repoName =
      { apiCalls := [],
        result := .error (.plain ("invalid repository full name format: " ++ repoName)) } := by
  rw [github.fetchStars_eq, if_pos h]
  simp [domain.NewRepository, h]

/-- The name test at the head of `Client.FetchStars` is the name test of `NewRepository`:
the GitHub API is left alone exactly for the names `NewRepository` rejects. -/
theorem github.fetchStars_no_call_iff (get : String → String → Except GoError GoInt)
    (repoName : String) :
    (github.Client.FetchStars get repoName).apiCalls = [] ↔
      domain.nameRejected repoName = true := by
  by_cases h : domain.nameRejected repoName = true
  · rw [github.fetchStars_of_rejected get repoName h]
    simp [h]
  · rw [github.fetchStars_eq, if_neg h]
    simp only [h, iff_false]
    cases get (String.mk ((strings.Split repoName.data '/').getD 0 []))
        (String.mk ((strings.Split repoName.data '/').getD 1 [])) with
    | error err =>
      by_cases hr : err.isGithubRateLimit = true
      · simp [hr]
      · simp [hr]
    | ok stars => simp

theorem github.fetchStars_of_accepted (get : String → String → Except GoError GoInt)
    (repoName : String) (owner name : List Char) (hso : '/' ∉ owner) (hsn : '/' ∉ name)
    (ho : owner ≠ []) (hn : name ≠ []) (hs : repoName.data = owner ++ '/' :: name) :
    github.Client.FetchStars get repoName =
      match get (String.mk owner) (String.mk name) with
      | .error err =>
        if err.isGithubRateLimit then
          { apiCalls := [(String.mk owner, String.mk name)],
            result := .error (.rateLimitError repoName err) }
        else
          { apiCalls := [(String.mk owner, String.mk name)],
            result := .error (.fetchError repoName err) }
      | .ok stars =>
        { apiCalls := [(String.mk owner, String.mk name)],
          result := domain.NewRepository repoName stars } := by
  have hacc : domain.nameRejected repoName = false :=
    (domain.nameRejected_eq_false_iff repoName).mpr ⟨owner, name, ho, hn, hso, hsn, hs⟩
  have hsplit : strings.Split repoName.data '/' = [owner, name] := by
    rw [hs, strings.split_append_sep owner name '/' hso,
      strings.split_of_not_mem name '/' hsn]
  rw [github.fetchStars_eq, hacc, hsplit]
  rfl

/-- The fetch path validates: every repository `Client.FetchStars` returns was built by
`NewRepository` and satisfies the invariant. -/
theorem github.fetchStars_invariant (get : String → String → Except GoError GoInt)
    (repoName : String) (repo : domain.Repository)
    (h : (github.Client.FetchStars get repoName).result = .ok repo) :
    RepositoryInvariant repo := by
  unfold github.Client.FetchStars at h
  simp only at h
  split at h
  · exact domain.newRepository_invariant _ _ _ h
  · split at h
    · split at h <;> cases h
    · exact domain.newRepository_invariant _ _ _ h

/-- C19: for every `repoName` that is not of shape `owner/name`, `Client.FetchStars` makes
no call to the GitHub API and returns no repository but the error of `NewRepository`,
whose message starts with "invalid repository full name format"; the early return can
never give a repository, since it is taken exactly for the names `NewRepository`
rejects. -/
theorem C19_fetchStars_malformed_name (get : String → String → Except GoError GoInt)
    (repoName : String) (hbad : ¬ IsOwnerSlashName repoName) :
    (github.Client.FetchStars get repoName).apiCalls = [] ∧
    (github.Client.FetchStars get repoName).result
      = .error (.plain ("invalid repository full name format: " ++ repoName)) ∧
    (∃ err rest, (github.Client.FetchStars get repoName).result = .error err ∧
      err.Error = "invalid repository full name format" ++ rest) ∧
    (∀ repo, (github.Client.FetchStars get repoName).result ≠ .ok repo) ∧
    (∀ stars, (github.Client.FetchStars get repoName).result
      = domain.NewRepository repoName stars) ∧
    (∀ name, (github.Client.FetchStars get name).apiCalls = [] ↔
      ¬ IsOwnerSlashName name) := by
  have hiff := domain.nameRejected_eq_false_iff repoName
  have hrej : domain.nameRejected repoName = true := by
    by_contra h
    exact hbad (hiff.mp (by simpa using h))
  rw [github.fetchStars_of_rejected get repoName hrej]
  refine ⟨rfl, rfl, ⟨_, ": " ++ repoName, rfl, ?_⟩, by simp, ?_, ?_⟩
  · have hlit : "invalid repository full name format: "
        = "invalid repository full name format" ++ ": " := by decide
    simp only [GoError.Error]
    rw [hlit, String.append_assoc]
  · intro stars
    simp [domain.NewRepository, hrej]
  · intro name
    rw [github.fetchStars_no_call_iff, ← domain.nameRejected_eq_false_iff]
    simp

theorem C19_fetchStars_malformed_name_witness :
    github.Client.FetchStars sample.rateLimitedGet "invalid-repo-name" =
      { apiCalls := [],
        result := .error
          (.plain "invalid repository full name format: invalid-repo-name") } ∧
    (github.Client.FetchStars sample.rateLimitedGet "invalid-repo-name").apiCalls = [] :=
  ⟨by decide,
   (C19_fetchStars_malformed_name sample.rateLimitedGet "invalid-repo-name"
     (fun h => absurd ((domain.nameRejected_eq_false_iff "invalid-repo-name").mpr h)
       (by decide))).1⟩

/-- C20: when the GitHub API call for a well-formed `repoName` fails, `Client.FetchStars`
returns no repository and a classified error: a `RateLimitError` if and only if the API
error is the library's rate-limit error, a `FetchError` otherwise (not-found included);
either carries `repoName`, and unwrapping it gives the API error back. -/
theorem C20_fetchStars_api_failure (get : String → String → Except GoError GoInt)
    (repoName : String) (owner name : List Char) (ho : owner ≠ []) (hn : name ≠ [])
    (hso : '/' ∉ owner) (hsn : '/' ∉ name) (hs : repoName.data = owner ++ '/' :: name)
    (apiErr : GoError) (hfail : get (String.mk owner) (String.mk name) = .error apiErr) :
    (github.Client.FetchStars get repoName).apiCalls = [(String.mk owner, String.mk name)] ∧
    (∃ err, (github.Client.FetchStars get repoName).result = .error err ∧
      err.Unwrap = some apiErr ∧
      (err = .rateLimitError repoName apiErr ∨ err = .fetchError repoName apiErr) ∧
      (err = .rateLimitError repoName apiErr ↔ ∃ msg, apiErr = .githubRateLimit msg) ∧
      (err = .fetchError repoName apiErr ↔ ¬ ∃ msg, apiErr = .githubRateLimit msg)) := by
  rw [github.fetchStars_of_accepted get repoName owner name hso hsn ho hn hs, hfail]
  have hcls : apiErr.isGithubRateLimit = true ↔ ∃ msg, apiErr = .githubRateLimit msg := by
    cases apiErr <;> simp [GoError.isGithubRateLimit]
  by_cases hrl : apiErr.isGithubRateLimit = true
  · have hyes := hcls.mp hrl
    refine ⟨by simp [hrl], .rateLimitError repoName apiErr, by simp [hrl], rfl, Or.inl rfl,
      ?_, ?_⟩
    · simp [hyes]
    · simp [hyes]
  · have hno : ¬ ∃ msg, apiErr = .githubRateLimit msg := fun h => hrl (hcls.mpr h)
    refine ⟨by simp [hrl], .fetchError repoName apiErr, by simp [hrl], rfl, Or.inr rfl,
      ?_, ?_⟩
    · simp [hno]
    · simp [hno]

theorem C20_fetchStars_api_failure_witness :
    github.Client.FetchStars sample.rateLimitedGet "owner/rate-limited-repo" =
      { apiCalls := [("owner", "rate-limited-repo")],
        result := .error (.rateLimitError "owner/rate-limited-repo"
          (.githubRateLimit "API rate limit exceeded")) } ∧
    github.Client.FetchStars sample.notFoundGet "owner/non-existent-repo" =
      { apiCalls := [("owner", "non-existent-repo")],
        result := .error (.fetchError "owner/non-existent-repo" (.plain "404 Not Found")) } ∧
    (github.Client.FetchStars sample.notFoundGet "owner/non-existent-repo").apiCalls
      = [(String.mk "owner".data, String.mk "non-existent-repo".data)] :=
  ⟨by decide, by decide,
   (C20_fetchStars_api_failure sample.notFoundGet "owner/non-existent-repo"
     "owner".data "non-existent-repo".data (by decide) (by decide) (by decide) (by decide)
     (by decide) (.plain "404 Not Found") rfl).1⟩

/-! ## What the JSON decoder reads back -/

/-- The first step of `unquote`, written out. -/
theorem json.unquote_cons (c : Char) (rest : List Char) :
    unquote (c :: rest) =
      if c = '"' then some ([], rest)
      else if c = '\\' then
        match rest with
        | [] => none
        | e :: rest1 =>
          if e = 'u' then
            match rest1 with
            | a :: b :: c2 :: d :: rest2 =>
              match hex4 a b c2 d with
              | some x => (unquote rest2).map (fun p => (x :: p.1, p.2))
              | none => none
            | _ => none
          else
            match unescape e with
            | some x => (unquote rest1).map (fun p => (x :: p.1, p.2))
            | none => none
      else if c.toNat < 32 then none
      else (unquote rest).map (fun p => (c :: p.1, p.2)) := by
  rw [unquote.eq_def]


theorem json.hexVal_digitChar : ∀ n, n < 16 → hexVal (Nat.digitChar n) = some n := by decide

theorem json.unquote_plain (c : Char) (rest : List Char) (h1 : c ≠ '"') (h2 : c ≠ '\\')
    (h3 : ¬ c.toNat < 32) :
    unquote (c :: rest) = (unquote rest).map (fun p => (c :: p.1, p.2)) := by
  rw [unquote_cons, if_neg h1, if_neg h2, if_neg h3]

theorem json.unquote_short (e x : Char) (rest : List Char) (hu : e ≠ 'u')
    (hx : unescape e = some x) :
    unquote ('\\' :: e :: rest) = (unquote rest).map (fun p => (x :: p.1, p.2)) := by
  rw [unquote_cons, if_neg (by decide), if_pos rfl]
  simp only [if_neg hu, hx]

theorem json.unquote_hex (a b c d x : Char) (rest : List Char) (hx : hex4 a b c d = some x) :
    unquote ('\\' :: 'u' :: a :: b :: c :: d :: rest)
      = (unquote rest).map (fun p => (x :: p.1, p.2)) := by
  rw [unquote_cons, if_neg (by decide), if_pos rfl]
  simp only [if_true, hx]

theorem json.unquote_u00 (c : Char) (rest : List Char) (h : c.toNat < 64) :
    unquote ('\\' :: 'u' :: '0' :: '0' :: Nat.digitChar (c.toNat / 16) ::
      Nat.digitChar (c.toNat % 16) :: rest) = (unquote rest).map (fun p => (c :: p.1, p.2)) := by
  apply unquote_hex
  have h0 : hexVal '0' = some 0 := by decide
  have ha := hexVal_digitChar (c.toNat / 16) (by omega)
  have hb := hexVal_digitChar (c.toNat % 16) (by omega)
  have hn : ((0 * 16 + 0) * 16 + c.toNat / 16) * 16 + c.toNat % 16 = c.toNat := by omega
  simp only [hex4, h0, ha, hb, hn]
  rw [if_neg (by omega)]
  simp

theorem json.escape_eq (c : Char) :
    escape c =
      if c = '"' then ['\\', '"']
      else if c = '\\' then ['\\', '\\']
      else if c = '\x08' then ['\\', 'b']
      else if c = '\x0c' then ['\\', 'f']
      else if c = '\n' then ['\\', 'n']
      else if c = '\r' then ['\\', 'r']
      else if c = '\t' then ['\\', 't']
      else if c.toNat < 32 ∨ c = '<' ∨ c = '>' ∨ c = '&' then
        ['\\', 'u', '0', '0', Nat.digitChar (c.toNat / 16), Nat.digitChar (c.toNat % 16)]
      else if c = '\u2028' then ['\\', 'u', '2', '0', '2', '8']
      else if c = '\u2029' then ['\\', 'u', '2', '0', '2', '9']
      else [c] := rfl

/-- What the encoder writes for a character is read back as that character. -/
theorem json.unquote_escape (c : Char) (rest : List Char) :
    unquote (escape c ++ rest) = (unquote rest).map (fun p => (c :: p.1, p.2)) := by
  rw [escape_eq]
  by_cases h1 : c = '"'
  · rw [if_pos h1, h1]
    exact unquote_short '"' '"' rest (by decide) (by decide)
  rw [if_neg h1]
  by_cases h2 : c = '\\'
  · rw [if_pos h2, h2]
    exact unquote_short '\\' '\\' rest (by decide) (by decide)
  rw [if_neg h2]
  by_cases h3 : c = '\x08'
  · rw [if_pos h3, h3]
    exact unquote_short 'b' '\x08' rest (by decide) (by decide)
  rw [if_neg h3]
  by_cases h4 : c = '\x0c'
  · rw [if_pos h4, h4]
    exact unquote_short 'f' '\x0c' rest (by decide) (by decide)
  rw [if_neg h4]
  by_cases h5 : c = '\n'
  · rw [if_pos h5, h5]
    exact unquote_short 'n' '\n' rest (by decide) (by decide)
  rw [if_neg h5]
  by_cases h6 : c = '\r'
  · rw [if_pos h6, h6]
    exact unquote_short 'r' '\r' rest (by decide) (by decide)
  rw [if_neg h6]
  by_cases h7 : c = '\t'
  · rw [if_pos h7, h7]
    exact unquote_short 't' '\t' rest (by decide) (by decide)
  rw [if_neg h7]
  by_cases h8 : c.toNat < 32 ∨ c = '<' ∨ c = '>' ∨ c = '&'
  · rw [if_pos h8]
    apply unquote_u00
    rcases h8 with h | h | h | h
    · omega
    · rw [h]; decide
    · rw [h]; decide
    · rw [h]; decide
  rw [if_neg h8]
  by_cases h9 : c = '\u2028'
  · rw [if_pos h9, h9]
    exact unquote_hex '2' '0' '2' '8' '\u2028' rest (by decide)
  rw [if_neg h9]
  by_cases h10 : c = '\u2029'
  · rw [if_pos h10, h10]
    exact unquote_hex '2' '0' '2' '9' '\u2029' rest (by decide)
  rw [if_neg h10]
  exact unquote_plain c rest h1 h2 (fun h => h8 (Or.inl h))

/-- A string as the encoder writes it is read back as it was. -/
theorem json.unquote_quote (s rest : List Char) :
    unquote (s.flatMap escape ++ '"' :: rest) = some (s, rest) := by
  induction s with
  | nil => rw [List.flatMap_nil, List.nil_append, unquote_cons, if_pos rfl]
  | cons c s ih =>
    rw [List.flatMap_cons, List.append_assoc, unquote_escape, ih]
    rfl


theorem json.digitChar_toNat : ∀ d, d < 10 → (Nat.digitChar d).toNat = 48 + d := by decide

theorem json.toDigitsCore_numeral (fuel : Nat) : ∀ (n : Nat) (ds : List Char), n < fuel →
    ∃ l, Nat.toDigitsCore 10 fuel n ds = l ++ ds ∧ IsNumeral l n := by
  induction fuel with
  | zero => intro n ds h; omega
  | succ fuel ih =>
    intro n ds h
    have hd := digitChar_toNat (n % 10) (Nat.mod_lt _ (by decide))
    by_cases h0 : n / 10 = 0
    · refine ⟨[Nat.digitChar (n % 10)], by simp [Nat.toDigitsCore, h0], ?_, ?_, ?_⟩
      · intro c hc
        simp only [List.mem_singleton] at hc
        subst hc
        omega
      · simp only [List.foldl_cons, List.foldl_nil, hd]
        omega
      · refine ⟨_, [], rfl, fun _ => rfl, ?_⟩
        intro hn
        rw [hd]
        omega
    · obtain ⟨l, hl, hdig, hval, c, rest, hc, _, hnz⟩ :=
        ih (n / 10) (Nat.digitChar (n % 10) :: ds) (by omega)
      refine ⟨l ++ [Nat.digitChar (n % 10)], ?_, ?_, ?_, ?_⟩
      · simp [Nat.toDigitsCore, h0, hl]
      · intro x hx
        rcases List.mem_append.mp hx with hx | hx
        · exact hdig x hx
        · simp only [List.mem_singleton] at hx
          subst hx
          omega
      · rw [List.foldl_append, hval]
        simp only [List.foldl_cons, List.foldl_nil, hd]
        omega
      · refine ⟨c, rest ++ [Nat.digitChar (n % 10)], by rw [hc]; rfl, ?_, fun _ => hnz h0⟩
        intro hn
        omega

/-- The digits of `n` as `toString` prints them are its decimal numeral. -/
theorem json.toDigits_numeral (n : Nat) : IsNumeral (Nat.toDigits 10 n) n := by
  obtain ⟨l, hl, h⟩ := toDigitsCore_numeral (n + 1) n [] (by omega)
  rw [List.append_nil] at hl
  unfold Nat.toDigits
  rw [hl]
  exact h

theorem json.parseDigits_append (l : List Char) : ∀ (t : List Char) (acc : Nat),
    (∀ c ∈ l, 48 ≤ c.toNat ∧ c.toNat ≤ 57) → NoDigitAhead t →
    parseDigits (l ++ t) acc = (l.foldl (fun a c => a * 10 + (c.toNat - 48)) acc, t) := by
  induction l with
  | nil =>
    intro t acc _ ht
    cases t with
    | nil => rfl
    | cons c rest =>
      simp only [List.nil_append, parseDigits, ht c rest rfl, List.foldl_nil]
  | cons c l ih =>
    intro t acc hl ht
    have hc := hl c (List.mem_cons_self _ _)
    have hv : digitVal c = some (c.toNat - 48) := by
      unfold digitVal
      rw [if_pos hc]
    simp only [List.cons_append, parseDigits, hv, List.foldl_cons]
    exact ih t _ (fun x hx => hl x (List.mem_cons_of_mem _ hx)) ht

theorem json.parseNat_numeral (l t : List Char) (n : Nat) (h : IsNumeral l n)
    (ht : NoDigitAhead t) : parseNat (l ++ t) = some (n, t) := by
  obtain ⟨hdig, hval, c, rest, hl, hzero, hnz⟩ := h
  subst hl
  have hc := hdig c (List.mem_cons_self _ _)
  have hv : digitVal c = some (c.toNat - 48) := by
    unfold digitVal
    rw [if_pos hc]
  by_cases hn : n = 0
  · have hrest := hzero hn
    subst hrest
    simp only [List.foldl_cons, List.foldl_nil] at hval
    have hc0 : c.toNat - 48 = 0 := by omega
    cases t with
    | nil => simp [parseNat, hv, hc0, hn]
    | cons c2 rest2 => simp [parseNat, hv, hc0, hn, ht c2 rest2 rfl]
  · have hc0 : ¬ c.toNat - 48 = 0 := by
      have := hnz hn
      omega
    simp only [List.cons_append, parseNat, hv, if_neg hc0]
    rw [parseDigits_append rest t _ (fun x hx => hdig x (List.mem_cons_of_mem _ hx)) ht]
    simp only [List.foldl_cons, Nat.zero_mul, Nat.zero_add] at hval
    rw [hval]

theorem json.numeral_head_ne_minus (l : List Char) (n : Nat) (h : IsNumeral l n) :
    ∃ c rest, l = c :: rest ∧ c ≠ '-' := by
  obtain ⟨hdig, _, c, rest, hl, _, _⟩ := h
  refine ⟨c, rest, hl, ?_⟩
  intro hc
  have := hdig c (by rw [hl]; exact List.mem_cons_self _ _)
  rw [hc] at this
  revert this
  decide

theorem json.inRange_val (n : GoInt) (t : List Char) : inRange n.val t = some (n, t) := by
  unfold inRange
  rw [dif_pos ⟨n.lo, n.hi⟩]

/-- An `int` as the encoder writes it is read back as it was. -/
theorem json.parseInt_encodeInt (n : GoInt) (t : List Char) (ht : NoDigitAhead t) :
    parseInt (encodeInt n ++ t) = some (n, t) := by
  have hr := inRange_val n t
  obtain ⟨v, lo, hi⟩ := n
  cases v with
  | ofNat m =>
    have henc : encodeInt ⟨Int.ofNat m, lo, hi⟩ = Nat.toDigits 10 m := rfl
    have hnum := toDigits_numeral m
    obtain ⟨c, rest, hl, hc⟩ := numeral_head_ne_minus _ _ hnum
    have hp := parseNat_numeral _ t m hnum ht
    rw [henc]
    rw [hl] at hp ⊢
    simp only [List.cons_append] at hp ⊢
    simp only [parseInt, if_neg hc, hp, Option.some_bind]
    exact hr
  | negSucc m =>
    have henc : encodeInt ⟨Int.negSucc m, lo, hi⟩ = '-' :: Nat.toDigits 10 (m + 1) := rfl
    have hnum := toDigits_numeral (m + 1)
    have hp := parseNat_numeral _ t (m + 1) hnum ht
    rw [henc]
    simp only [List.cons_append, parseInt]
    rw [if_pos trivial, hp, Option.some_bind]
    exact hr


theorem json.skipSpace_space (s : List Char) : skipSpace (' ' :: s) = skipSpace s := by
  simp only [skipSpace, true_or, if_true]

theorem json.skipSpace_newline (s : List Char) : skipSpace ('\n' :: s) = skipSpace s := by
  simp only [skipSpace, true_or, or_true, if_true]

theorem json.skipSpace_here (c : Char) (s : List Char)
    (h : ¬ (c = ' ' ∨ c = '\n' ∨ c = '\t' ∨ c = '\r')) : skipSpace (c :: s) = c :: s := by
  simp only [skipSpace, if_neg h]

theorem json.expect_space (c : Char) (s : List Char) : expect c (' ' :: s) = expect c s := by
  simp only [expect, skipSpace_space]

theorem json.expect_newline (c : Char) (s : List Char) : expect c ('\n' :: s) = expect c s := by
  simp only [expect, skipSpace_newline]

theorem json.expect_here (c : Char) (s : List Char)
    (h : ¬ (c = ' ' ∨ c = '\n' ∨ c = '\t' ∨ c = '\r')) : expect c (c :: s) = some s := by
  simp only [expect, skipSpace_here c s h, if_true]

theorem json.expect_other (c d : Char) (s : List Char)
    (h : ¬ (d = ' ' ∨ d = '\n' ∨ d = '\t' ∨ d = '\r')) (hne : d ≠ c) :
    expect c (d :: s) = none := by
  simp only [expect, skipSpace_here d s h, if_neg hne]

theorem json.unquote_key (key rest : List Char) (h : key.flatMap escape = key) :
    unquote (key ++ '"' :: rest) = some (key, rest) := by
  have := unquote_quote key rest
  rw [h] at this
  exact this

theorem json.noDigitAhead_newline (s : List Char) : NoDigitAhead ('\n' :: s) := by
  intro c rest h
  cases h
  decide

theorem json.skipSpace_encodeInt (n : GoInt) (t : List Char) :
    skipSpace (encodeInt n ++ t) = encodeInt n ++ t := by
  obtain ⟨v, lo, hi⟩ := n
  cases v with
  | ofNat m =>
    have henc : encodeInt ⟨Int.ofNat m, lo, hi⟩ = Nat.toDigits 10 m := rfl
    obtain ⟨hdig, _, c, rest, hl, _, _⟩ := toDigits_numeral m
    have hc := hdig c (by rw [hl]; exact List.mem_cons_self _ _)
    rw [henc, hl, List.cons_append]
    apply skipSpace_here
    intro h
    rcases h with h | h | h | h <;> (rw [h] at hc; revert hc; decide)
  | negSucc m =>
    have henc : encodeInt ⟨Int.negSucc m, lo, hi⟩ = '-' :: Nat.toDigits 10 (m + 1) := rfl
    rw [henc, List.cons_append]
    exact skipSpace_here '-' _ (by decide)

/-- A repository as the encoder writes it is read back as it was. -/
theorem json.parseRepo_encodeRepo (r : domain.Repository) (t : List Char) :
    parseRepo ('\n' :: (encodeRepo r ++ t)) = some (r, t) := by
  have hname := unquote_key ['F', 'u', 'l', 'l', 'N', 'a', 'm', 'e']
  have hstars := unquote_key ['S', 't', 'a', 'r', 's']
  simp only [List.cons_append, List.nil_append] at hname hstars
  simp only [parseRepo, parseMember, parseString, encodeRepo, quote, List.cons_append,
    List.nil_append, List.append_assoc, expect_space, expect_newline,
    expect_here '\x7b' _ (by decide), expect_here '"' _ (by decide),
    expect_here ':' _ (by decide), expect_here ',' _ (by decide),
    expect_here '\x7d' _ (by decide), Option.some_bind, hname _ (by decide),
    hstars _ (by decide), if_true, unquote_quote, skipSpace_space, skipSpace_encodeInt,
    parseInt_encodeInt _ _ (noDigitAhead_newline _)]

theorem json.length_lt_encodeMore (rs : List domain.Repository) :
    rs.length < (encodeMore rs).length := by
  induction rs with
  | nil => decide
  | cons r rs ih =>
    simp only [encodeMore, List.length_cons, List.length_append, List.cons_append,
      List.nil_append]
    omega

theorem json.parseMore_encodeMore (rs : List domain.Repository) :
    ∀ (fuel : Nat) (t : List Char), rs.length < fuel →
      parseMore fuel (encodeMore rs ++ t) = some (rs, t) := by
  induction rs with
  | nil =>
    intro fuel t h
    cases fuel with
    | zero => omega
    | succ fuel =>
      simp only [encodeMore, List.cons_append, List.nil_append, parseMore, skipSpace_newline,
        skipSpace_here ']' _ (by decide), if_true]
  | cons r rs ih =>
    intro fuel t h
    cases fuel with
    | zero => omega
    | succ fuel =>
      have hlt : rs.length < fuel := by
        simp only [List.length_cons] at h
        omega
      simp only [encodeMore, List.cons_append, List.nil_append, List.append_assoc, parseMore,
        skipSpace_here ',' _ (by decide), if_neg (show ¬ (',' : Char) = ']' by decide),
        if_true, parseRepo_encodeRepo, Option.some_bind, ih fuel t hlt, Option.map_some']

/-- A list of repositories as the encoder writes it is read back as it was. -/
theorem json.parseRepos_encodeRepos (repos : List domain.Repository) :
    parseRepos (encodeRepos repos ++ ['\n']) = some repos := by
  cases repos with
  | nil => decide
  | cons r rs =>
    have hopen : expect ']' ('\n' :: (encodeRepo r ++ (encodeMore rs ++ ['\n']))) = none := by
      simp only [encodeRepo, List.cons_append, List.nil_append, expect_newline, expect_space]
      exact expect_other _ _ _ (by decide) (by decide)
    have hfuel : rs.length <
        (['[', '\n'] ++ (encodeRepo r ++ encodeMore rs) ++ ['\n']).length := by
      have := length_lt_encodeMore rs
      simp only [List.length_cons, List.length_append, List.cons_append, List.nil_append]
      omega
    simp only [parseRepos, encodeRepos]
    rw [show ['[', '\n'] ++ (encodeRepo r ++ encodeMore rs) ++ ['\n']
        = '[' :: '\n' :: (encodeRepo r ++ (encodeMore rs ++ ['\n'])) by
      simp only [List.cons_append, List.nil_append, List.append_assoc]] at hfuel ⊢
    simp only [expect_here '[' _ (by decide), Option.some_bind, hopen, parseRepo_encodeRepo,
      parseMore_encodeMore rs _ ['\n'] hfuel, skipSpace_newline,
      show skipSpace [] = [] from rfl, if_true]

/-- The decoder reads every text the encoder writes back as the list written, whatever it
answers on other texts. -/
theorem json.decode_encode (others : String → Except GoError (List domain.Repository))
    (repos : List domain.Repository) : Decode others (Encode repos) = .ok repos := by
  simp only [Decode, Encode, parseRepos_encodeRepos]

/-! ## Properties of `FileStorer.Save` and `FileStorer.Load` together -/

/-- C21: after a successful `Save(date, repos)`, `Load(date)` succeeds and returns `repos`
itself: a list of the same length with the same `FullName` and `Stars` at every position. The
data file of `date` then holds the text the JSON encoder writes for `repos` and no other
file has changed. `Load` of a date whose data file does not exist, before or after that
`Save`, fails with `ErrDataNotFound`. -/
theorem C21_save_load_roundtrip (env : storage.SaveEnv)
    (others : String → Except GoError (List domain.Repository))
    (files files2 : storage.Files) (date : Time) (repos : List domain.Repository)
    (hsave : storage.FileStorer.Save env files date repos = (files2, none)) :
    storage.FileStorer.Load
        (storage.fileSystemOf env.getDailyDataPath (json.Decode others) files2) date
      = (repos, none) ∧
    (∀ loaded : List domain.Repository, (storage.FileStorer.Load
        (storage.fileSystemOf env.getDailyDataPath (json.Decode others) files2) date).1
          = loaded →
      loaded.length = repos.length ∧
      ∀ (i : Nat) (r : domain.Repository), repos[i]? = some r →
        ∃ l : domain.Repository,
          loaded[i]? = some l ∧ l.FullName = r.FullName ∧ l.Stars = r.Stars) ∧
    files2 (env.getDailyDataPath date) = some (json.Encode repos) ∧
    (∀ p, p ≠ env.getDailyDataPath date → files2 p = files p) ∧
    (∀ other, files (env.getDailyDataPath other) = none →
      storage.FileStorer.Load
        (storage.fileSystemOf env.getDailyDataPath (json.Decode others) files) other
        = ([], some storage.ErrDataNotFound)) ∧
    (∀ other, files (env.getDailyDataPath other) = none →
      env.getDailyDataPath other ≠ env.getDailyDataPath date →
      storage.FileStorer.Load
        (storage.fileSystemOf env.getDailyDataPath (json.Decode others) files2) other
        = ([], some storage.ErrDataNotFound)) := by
  have hnotfound : ∀ (fl : storage.Files) (other : Time),
      fl (env.getDailyDataPath other) = none →
      storage.FileStorer.Load
        (storage.fileSystemOf env.getDailyDataPath (json.Decode others) fl) other
        = ([], some storage.ErrDataNotFound) := by
    intro fl other h
    simp [storage.FileStorer.Load, storage.fileSystemOf, h]
  unfold storage.FileStorer.Save at hsave
  cases hmk : env.mkdirAll with
  | some e => simp [hmk] at hsave
  | none =>
    cases hcr : env.create (env.getDailyDataPath date) with
    | some e => simp [hmk, hcr] at hsave
    | none =>
      cases hwr : env.write (env.getDailyDataPath date) (json.Encode repos) with
      | some e => simp [hmk, hcr, hwr] at hsave
      | none =>
        simp only [hmk, hcr, hwr, Prod.mk.injEq, and_true] at hsave
        subst hsave
        have hload : storage.FileStorer.Load
            (storage.fileSystemOf env.getDailyDataPath (json.Decode others)
              (fun p => if p = env.getDailyDataPath date then some (json.Encode repos)
                else files p))
            date = (repos, none) := by
          simp [storage.FileStorer.Load, storage.fileSystemOf, json.decode_encode]
        refine ⟨hload, ?_, by simp, ?_, hnotfound files, ?_⟩
        · intro loaded hl
          rw [hload] at hl
          subst hl
          exact ⟨rfl, fun i r hr => ⟨r, hr, rfl, rfl⟩⟩
        · intro p hp
          simp [hp]
        · intro other hnone hne
          apply hnotfound
          simp [hne, hnone]

theorem C21_save_load_roundtrip_witness :
    (storage.FileStorer.Save sample.saveEnv (fun _ => none) { day := 22, clock := 0 }
        [sample.repo "owner/repo1" 100, sample.repo "owner/repo2" 200]).2 = none ∧
    (storage.FileStorer.Save sample.saveEnv (fun _ => none) { day := 22, clock := 0 }
        [sample.repo "owner/repo1" 100, sample.repo "owner/repo2" 200]).1 "data/22.json"
      = some sample.savedText ∧
    storage.FileStorer.Load
        (storage.fileSystemOf sample.dataPath sample.jsonDecoder
          (storage.FileStorer.Save sample.saveEnv (fun _ => none) { day := 22, clock := 0 }
            [sample.repo "owner/repo1" 100, sample.repo "owner/repo2" 200]).1)
        { day := 22, clock := 0 }
      = ([sample.repo "owner/repo1" 100, sample.repo "owner/repo2" 200], none) ∧
    storage.FileStorer.Load
        (storage.fileSystemOf sample.dataPath sample.jsonDecoder
          (storage.FileStorer.Save sample.saveEnv (fun _ => none) { day := 22, clock := 0 }
            [sample.repo "owner/repo1" 100, sample.repo "owner/repo2" 200]).1)
        { day := 23, clock := 0 } = ([], some storage.ErrDataNotFound) :=
  have h := C21_save_load_roundtrip sample.saveEnv
    (fun _ => .error (.plain "invalid character")) (fun _ => none)
    (storage.FileStorer.Save sample.saveEnv (fun _ => none) { day := 22, clock := 0 }
      [sample.repo "owner/repo1" 100, sample.repo "owner/repo2" 200]).1
    { day := 22, clock := 0 } [sample.repo "owner/repo1" 100, sample.repo "owner/repo2" 200]
    rfl
  ⟨rfl, by decide, h.1, h.2.2.2.2.2 { day := 23, clock := 0 } rfl (by decide)⟩

/-! ## Properties of `Initialize` -/

/-- C23: when the repos config file is there (`os.Stat` returns no error) `Initialize`
returns no error and does not call `SaveTargetRepos`; when it is not, `Initialize` calls
`SaveTargetRepos` exactly once, with the fixed list of 8 default repositories, and returns
an error if and only if that save fails. -/
theorem C23_init_default_repos (env : usecase.InitializeEnv) :
    (env.stat = none →
      usecase.Initialize env = { saveTargetReposCalls := [], err := none }) ∧
    (env.stat ≠ none →
      (usecase.Initialize env).saveTargetReposCalls = [usecase.defaultRepos] ∧
      ((usecase.Initialize env).err ≠ none ↔
        env.storer.SaveTargetRepos usecase.defaultRepos ≠ none) ∧
      (∀ e, env.storer.SaveTargetRepos usecase.defaultRepos = some e →
        (usecase.Initialize env).err
          = some (.wrapped "failed to initialize repositories config: " e))) ∧
    usecase.defaultRepos.length = 8 ∧
    usecase.defaultRepos =
      ["gin-gonic/gin", "go-chi/chi", "gorm/gorm", "spf13/cobra", "stretchr/testify",
       "uber-go/zap", "golang/mock", "google/go-github"] := by
  refine ⟨?_, ?_, rfl, rfl⟩
  · intro h
    simp [usecase.Initialize, h]
  · intro h
    cases hs : env.stat with
    | none => exact absurd hs h
    | some e0 =>
      cases hsave : env.storer.SaveTargetRepos usecase.defaultRepos with
      | some e => simp [usecase.Initialize, hs, hsave]
      | none => simp [usecase.Initialize, hs, hsave]

theorem C23_init_default_repos_witness :
    usecase.Initialize sample.freshInitEnv
      = { saveTargetReposCalls := [usecase.defaultRepos], err := none } ∧
    (usecase.Initialize sample.freshInitEnv).saveTargetReposCalls = [usecase.defaultRepos] ∧
    usecase.Initialize { sample.freshInitEnv with stat := none }
      = { saveTargetReposCalls := [], err := none } :=
  ⟨by decide,
   ((C23_init_default_repos sample.freshInitEnv).2.1 (by decide)).1,
   (C23_init_default_repos { sample.freshInitEnv with stat := none }).1 rfl⟩

/-! ## Properties of `MarkdownPresenter.Render` -/

theorem presenter.templateTrends_foldl (trends : List domain.Trend)
    (acc : List presenter.TemplateTrend) (k : Nat) :
    (trends.foldl
      (fun (st : List presenter.TemplateTrend × Nat) t =>
        (st.1 ++ [{ Rank := st.2 + 1, RepoName := t.Repository.FullName,
                    Stars := t.Repository.Stars, Diff := t.Diff }], st.2 + 1))
      (acc, k)).1 = acc ++ rankedRowsFrom k trends := by
  induction trends generalizing acc k with
  | nil => simp [rankedRowsFrom]
  | cons t rest ih =>
    rw [List.foldl_cons, ih]
    simp [rankedRowsFrom]

/-- The loop of `Render` gives the trend at position `i` the rank `i + 1`. -/
theorem presenter.templateTrends_eq (trends : List domain.Trend) :
    presenter.templateTrends trends = rankedRowsFrom 0 trends := by
  unfold presenter.templateTrends
  rw [presenter.templateTrends_foldl]
  simp

theorem rankedRowsFrom_length (k : Nat) (trends : List domain.Trend) :
    (rankedRowsFrom k trends).length = trends.length := by
  induction trends generalizing k with
  | nil => rfl
  | cons t rest ih => simp [rankedRowsFrom, ih]

theorem rankedRowsFrom_getElem? (k : Nat) (trends : List domain.Trend) (i : Nat)
    (t : domain.Trend) (h : trends[i]? = some t) :
    (rankedRowsFrom k trends)[i]? =
      some { Rank := k + i + 1, RepoName := t.Repository.FullName,
             Stars := t.Repository.Stars, Diff := t.Diff } := by
  induction trends generalizing k i with
  | nil => simp at h
  | cons u rest ih =>
    cases i with
    | zero =>
      simp only [List.getElem?_cons_zero, Option.some.injEq] at h
      subst h
      simp [rankedRowsFrom]
    | succ j =>
      simp only [List.getElem?_cons_succ] at h
      simp only [rankedRowsFrom, List.getElem?_cons_succ]
      rw [ih (k + 1) j h]
      have : k + 1 + j + 1 = k + (j + 1) + 1 := by omega
      rw [this]

theorem rankedRowsFrom_ranks (k : Nat) (trends : List domain.Trend) :
    (rankedRowsFrom k trends).map (fun r => r.Rank) = List.range' (k + 1) trends.length := by
  induction trends generalizing k with
  | nil => rfl
  | cons t rest ih => simp [rankedRowsFrom, ih, List.range'_succ]

theorem presenter.foldl_append_eq_concatAll {α : Type} (g : α → String) (l : List α)
    (init : String) :
    l.foldl (fun out r => out ++ g r) init = init ++ concatAll (l.map g) := by
  induction l generalizing init with
  | nil => simp [concatAll]
  | cons x xs ih =>
    rw [List.foldl_cons, ih]
    simp [concatAll, String.append_assoc]

/-- C22: for every non-empty list of trends, `MarkdownPresenter.Render` writes the header,
which names the period of the first trend, followed by exactly one table row per trend in
input order; the row of the trend at 0-based position `i` shows rank `i + 1`, the
repository `FullName` (also as the github.com link target), its `Stars` and its `Diff`
followed by " ★"; the ranks are 1..n, whatever the diffs are. -/
theorem C22_markdown_render (writer : String → Option GoError) (first : domain.Trend)
    (rest : List domain.Trend) :
    (presenter.MarkdownPresenter.Render writer (first :: rest)).1 =
      ("# Go OSS Trending (" ++ first.Period ++ ")\n\n| Rank | Repository | Stars | Trend ("
        ++ presenter.trendIcon first.Period ++ ") |\n|:----:|:-----------|:------|:-----------|")
      ++ concatAll ((presenter.templateTrends (first :: rest)).map presenter.rowText) ∧
    ((presenter.templateTrends (first :: rest)).map presenter.rowText).length
      = (first :: rest).length ∧
    (∀ (i : Nat) (t : domain.Trend), (first :: rest)[i]? = some t →
      ((presenter.templateTrends (first :: rest)).map presenter.rowText)[i]? =
        some ("\n| " ++ toString (i + 1) ++ " | [" ++ t.Repository.FullName
          ++ "](https://github.com/" ++ t.Repository.FullName ++ ") | "
          ++ fmt.verbD t.Repository.Stars ++ " | " ++ fmt.verbD t.Diff ++ " ★ |")) ∧
    (presenter.templateTrends (first :: rest)).map (fun r => r.Rank)
      = List.range' 1 (first :: rest).length ∧
    (writer (presenter.MarkdownPresenter.Render writer (first :: rest)).1 = none →
      (presenter.MarkdownPresenter.Render writer (first :: rest)).2 = none) := by
  have htext : (presenter.MarkdownPresenter.Render writer (first :: rest)).1 =
      presenter.executeTemplate first.Period (presenter.trendIcon first.Period)
        (presenter.templateTrends (first :: rest)) := by
    simp only [presenter.MarkdownPresenter.Render]
    cases writer (presenter.executeTemplate first.Period (presenter.trendIcon first.Period)
      (presenter.templateTrends (first :: rest))) <;> rfl
  refine ⟨?_, ?_, ?_, ?_, ?_⟩
  · rw [htext]
    unfold presenter.executeTemplate
    rw [presenter.foldl_append_eq_concatAll]
    rfl
  · rw [List.length_map, presenter.templateTrends_eq, rankedRowsFrom_length]
  · intro i t hi
    rw [List.getElem?_map, presenter.templateTrends_eq, rankedRowsFrom_getElem? 0 _ i t hi]
    simp [presenter.rowText]
  · rw [presenter.templateTrends_eq, rankedRowsFrom_ranks]
  · intro hw
    rw [htext] at hw
    simp only [presenter.MarkdownPresenter.Render, hw]

set_option maxRecDepth 100000 in
theorem C22_markdown_render_witness :
    (presenter.MarkdownPresenter.Render (fun _ => none) sample.presenterTrends).1 =
      "# Go OSS Trending (Weekly)\n\n| Rank | Repository | Stars | Trend (7d) |\n|:----:|:-----------|:------|:-----------|\n| 1 | [owner/repo1](https://github.com/owner/repo1) | 1000 | 50 ★ |\n| 2 | [owner/repo2](https://github.com/owner/repo2) | 2500 | 25 ★ |" ∧
    ((presenter.templateTrends sample.presenterTrends).map presenter.rowText)[1]? =
      some "\n| 2 | [owner/repo2](https://github.com/owner/repo2) | 2500 | 25 ★ |" :=
  ⟨by decide,
   ((C22_markdown_render (fun _ => none)
       (domain.NewTrend (sample.repo "owner/repo1" 1000) (GoInt.ofInt 50) domain.TrendWeekly)
       [domain.NewTrend (sample.repo "owner/repo2" 2500) (GoInt.ofInt 25)
         domain.TrendWeekly]).2.2.1 1
       (domain.NewTrend (sample.repo "owner/repo2" 2500) (GoInt.ofInt 25) domain.TrendWeekly)
       rfl).trans (by decide)⟩

/-! ## `SortTrends` only reorders -/

theorem domain.set_perm_cons (t : List domain.Trend) (j : Nat) (h y : domain.Trend)
    (hy : t[j]? = some y) : (y :: t.set j h).Perm (h :: t) := by
  induction t generalizing j with
  | nil => simp at hy
  | cons u v ih =>
    cases j with
    | zero =>
      simp only [List.getElem?_cons_zero, Option.some.injEq] at hy
      subst hy
      simpa using List.Perm.swap h u v
    | succ k =>
      simp only [List.getElem?_cons_succ] at hy
      simp only [List.set_cons_succ]
      exact ((List.Perm.swap u y (v.set k h)).trans
        (List.Perm.cons u (ih k hy))).trans (List.Perm.swap h u v)

/-- One call of `ByStarsDiff.Swap` leaves a rearrangement of the slice. -/
theorem domain.swap_perm (a b : List domain.Trend) (i j : Nat)
    (h : domain.ByStarsDiff.Swap a i j = some b) : b.Perm a := by
  unfold domain.ByStarsDiff.Swap at h
  cases hx : a[i]? with
  | none => simp [hx] at h
  | some x =>
    cases hy : a[j]? with
    | none => simp [hx, hy] at h
    | some y =>
      simp only [hx, hy, Option.some.injEq] at h
      subst h
      induction a generalizing i j with
      | nil => simp at hx
      | cons hd tl ih =>
        cases i with
        | zero =>
          simp only [List.getElem?_cons_zero, Option.some.injEq] at hx
          subst hx
          cases j with
          | zero =>
            simp only [List.getElem?_cons_zero, Option.some.injEq] at hy
            subst hy
            simp
          | succ j2 =>
            simp only [List.getElem?_cons_succ] at hy
            simp only [List.set_cons_zero, List.set_cons_succ]
            exact domain.set_perm_cons tl j2 hd y hy
        | succ i2 =>
          simp only [List.getElem?_cons_succ] at hx
          cases j with
          | zero =>
            simp only [List.getElem?_cons_zero, Option.some.injEq] at hy
            subst hy
            simp only [List.set_cons_zero, List.set_cons_succ]
            exact domain.set_perm_cons tl i2 hd x hx
          | succ j2 =>
            simp only [List.getElem?_cons_succ] at hy
            simp only [List.set_cons_succ]
            exact List.Perm.cons hd (ih i2 j2 hx hy)

theorem domain.swap_isSome (a : List domain.Trend) (i j : Nat)
    (hi : i < domain.ByStarsDiff.Len a) (hj : j < domain.ByStarsDiff.Len a) :
    ∃ b, domain.ByStarsDiff.Swap a i j = some b := by
  unfold domain.ByStarsDiff.Len at hi hj
  simp [domain.ByStarsDiff.Swap, List.getElem?_eq_getElem hi, List.getElem?_eq_getElem hj]

/-- Any sequence of calls of `Swap` leaves a rearrangement of the slice. -/
theorem domain.swaps_perm (a b : List domain.Trend) (calls : List (Nat × Nat))
    (h : domain.ByStarsDiff.swaps a calls = some b) : b.Perm a := by
  induction calls generalizing a with
  | nil =>
    simp only [domain.ByStarsDiff.swaps, Option.some.injEq] at h
    subst h
    exact List.Perm.refl _
  | cons c rest ih =>
    obtain ⟨i, j⟩ := c
    simp only [domain.ByStarsDiff.swaps] at h
    cases hs : domain.ByStarsDiff.Swap a i j with
    | none => rw [hs] at h; cases h
    | some a2 =>
      rw [hs] at h
      exact (ih a2 h).trans (domain.swap_perm a a2 i j hs)

/-- C24: `SortTrends` only reorders: for every list of trends the list afterwards is a
rearrangement of the list before (same length, every trend as often as before, every
trend with its `Repository`, `Diff` and `Period` as they were). `sort.Sort` changes the
slice through `ByStarsDiff.Swap` only, and every sequence of swaps within the bounds
`Len` gives leaves a rearrangement of the same length. -/
theorem C24_sortTrends_permutation (sortSort : sort.Sorter domain.Trend)
    (hc : sort.Contract sortSort) (trends : List domain.Trend) :
    (domain.SortTrends sortSort trends).Perm trends ∧
    (domain.SortTrends sortSort trends).length = trends.length ∧
    (∀ t, (domain.SortTrends sortSort trends).count t = trends.count t) ∧
    (∀ t, t ∈ domain.SortTrends sortSort trends ↔ t ∈ trends) ∧
    (∀ (calls : List (Nat × Nat)) (after : List domain.Trend),
      domain.ByStarsDiff.swaps trends calls = some after →
      after.Perm trends ∧ domain.ByStarsDiff.Len after = domain.ByStarsDiff.Len trends) ∧
    (∀ i j, i < domain.ByStarsDiff.Len trends → j < domain.ByStarsDiff.Len trends →
      ∃ after, domain.ByStarsDiff.Swap trends i j = some after) := by
  have hp : (domain.SortTrends sortSort trends).Perm trends := hc.perm _ _
  refine ⟨hp, hp.length_eq, fun t => hp.count_eq t, fun t => hp.mem_iff, ?_, ?_⟩
  · intro calls after h
    have := domain.swaps_perm trends after calls h
    exact ⟨this, this.length_eq⟩
  · intro i j hi hj
    exact domain.swap_isSome trends i j hi hj

theorem C24_sortTrends_permutation_witness :
    (domain.SortTrends sort.insertionSort sample.testTrends).Perm sample.testTrends ∧
    domain.ByStarsDiff.swaps sample.testTrends [(0, 1), (2, 3), (1, 2)]
      = some (domain.SortTrends sort.insertionSort sample.testTrends) :=
  ⟨(C24_sortTrends_permutation sort.insertionSort sort.insertionSort_contract
      sample.testTrends).1,
   by decide⟩

/-! ## The diff under the repository invariant -/

/-- The baseline lookup is 0 or the star count of an entry of the baseline. -/
theorem baselineGet_zero_or_mem (baseline : List domain.Repository) (q : String) :
    baselineGet baseline q = GoInt.zero ∨
      ∃ r ∈ baseline, r.FullName = q ∧ baselineGet baseline q = r.Stars := by
  unfold baselineGet
  cases hf : baseline.reverse.find? (fun r => r.FullName == q) with
  | none => exact Or.inl rfl
  | some r =>
    right
    have hmem : r ∈ baseline := List.mem_reverse.mp (List.mem_of_find?_eq_some hf)
    have hname : r.FullName = q := by simpa using List.find?_some hf
    exact ⟨r, hmem, hname, rfl⟩

/-- The trend built for the entry at position `i` of the current snapshot. -/
theorem usecase.buildTrends_getElem? (todayData pastData : List domain.Repository)
    (period : domain.TrendPeriod) (i : Nat) (repo : domain.Repository)
    (hi : todayData[i]? = some repo) :
    (usecase.buildTrends todayData (usecase.pastDataMap pastData) period)[i]? =
      some (domain.NewTrend repo
        (GoInt.sub repo.Stars (baselineGet pastData repo.FullName)) period) := by
  rw [usecase.buildTrends_eq_map]
  simp [hi, usecase.pastDataMap_index]

/-- C25: when every repository of the current and of the baseline snapshot has
`Stars >= 0` (as the repository invariant asks, within the 64-bit range of a Go `int`),
the diff `Generate` computes does not overflow: it is the exact difference of the current
`Stars` and the baseline count of that identity, it lies between minus that baseline count
and the current `Stars`, and it equals the current `Stars` exactly when the baseline count
of the identity is 0, as it is when the identity is absent from the baseline. -/
theorem C25_diff_bounds (todayData pastData : List domain.Repository)
    (period : domain.TrendPeriod)
    (htoday : ∀ r ∈ todayData, RepositoryInvariant r)
    (hpast : ∀ r ∈ pastData, RepositoryInvariant r)
    (i : Nat) (repo : domain.Repository) (hi : todayData[i]? = some repo) :
    ∃ t, (usecase.buildTrends todayData (usecase.pastDataMap pastData) period)[i]? = some t ∧
      t.Repository = repo ∧
      0 ≤ (baselineGet pastData repo.FullName).val ∧
      t.Diff.val = repo.Stars.val - (baselineGet pastData repo.FullName).val ∧
      -(baselineGet pastData repo.FullName).val ≤ t.Diff.val ∧
      t.Diff.val ≤ repo.Stars.val ∧
      (t.Diff = repo.Stars ↔
        ((∀ r ∈ pastData, r.FullName ≠ repo.FullName) ∨
          (baselineGet pastData repo.FullName).val = 0)) := by
  have hcur : 0 ≤ repo.Stars.val := (htoday repo (List.getElem?_mem hi)).2
  have hbase : 0 ≤ (baselineGet pastData repo.FullName).val := by
    rcases baselineGet_zero_or_mem pastData repo.FullName with h | ⟨r, hr, _, h⟩
    · rw [h]; decide
    · rw [h]; exact (hpast r hr).2
  have hhi1 := repo.Stars.hi
  have hhi2 := (baselineGet pastData repo.FullName).hi
  have hdiff : (GoInt.sub repo.Stars (baselineGet pastData repo.FullName)).val =
      repo.Stars.val - (baselineGet pastData repo.FullName).val := by
    simp only [GoInt.sub]
    exact wrapInt_of_inRange _ (by unfold minInt; unfold maxInt at hhi1 hhi2; omega)
      (by unfold maxInt at *; omega)
  refine ⟨domain.NewTrend repo (GoInt.sub repo.Stars (baselineGet pastData repo.FullName))
    period, usecase.buildTrends_getElem? todayData pastData period i repo hi, rfl, hbase,
    hdiff, ?_, ?_, ?_⟩
  · simp only [domain.NewTrend]; omega
  · simp only [domain.NewTrend]; omega
  · simp only [domain.NewTrend]
    constructor
    · intro h
      rw [h] at hdiff
      exact Or.inr (by omega)
    · rintro (habs | h)
      · rw [baselineGet_of_absent pastData repo.FullName habs]
        exact GoInt.sub_zero_eq repo.Stars
      · cases hd : GoInt.sub repo.Stars (baselineGet pastData repo.FullName) with
        | mk dv dlo dhi =>
          cases hs : repo.Stars with
          | mk sv slo shi =>
            rw [hd, hs] at hdiff
            simp only at hdiff
            simp only [GoInt.mk.injEq]
            omega

theorem C25_diff_bounds_witness :
    ∃ t, (usecase.buildTrends [sample.repo "o/r1" 180]
        (usecase.pastDataMap [sample.repo "o/r1" 100]) domain.TrendWeekly)[0]? = some t ∧
      t.Diff.val = 80 ∧ -100 ≤ t.Diff.val ∧ t.Diff.val ≤ 180 := by
  have hcur : RepositoryInvariant (sample.repo "o/r1" 180) :=
    ⟨⟨"o".data, "r1".data, by decide, by decide, by decide, by decide, by decide⟩,
     by decide⟩
  have hbase : RepositoryInvariant (sample.repo "o/r1" 100) :=
    ⟨⟨"o".data, "r1".data, by decide, by decide, by decide, by decide, by decide⟩,
     by decide⟩
  obtain ⟨t, ht, _, _, h4, h5, h6, _⟩ :=
    C25_diff_bounds [sample.repo "o/r1" 180] [sample.repo "o/r1" 100] domain.TrendWeekly
      (by
        intro r hr
        simp only [List.mem_singleton] at hr
        subst hr
        exact hcur)
      (by
        intro r hr
        simp only [List.mem_singleton] at hr
        subst hr
        exact hbase)
      0 (sample.repo "o/r1" 180) rfl
  have hb : (baselineGet [sample.repo "o/r1" 100] (sample.repo "o/r1" 180).FullName).val
      = 100 := by decide
  have hs : (sample.repo "o/r1" 180).Stars.val = 180 := by decide
  rw [hb] at h4 h5
  rw [hs] at h4 h6
  exact ⟨t, ht, by omega, h5, h6⟩
